import Mathlib

/-!
SFML-Apps: the toroidal Game of Life tables and the small loops around them

A shallow embedding of the two `CellTable` classes of the repository

* `src/Conways_GoL_1.cpp` (a `std::vector<uint8_t>` of cells), namespace `GoL1`;
* `src/conways_game_of_life/sprite_approach.cpp` (cells packed in the pixels of an
  `sf::Image`), namespace `Sprite`;

of `class Frame` of `src/snake.cpp`, namespace `Snake`, of two loops of
`src/ml_classification_gui/classification_task.hpp`, namespace `Classification`
(`Processing::removePoint` and the bisection of `Processing::drawBackground`), and of
`Processing::drawPieces` of `src/chess_gui/gui.hpp`, namespace `Chess`, followed by
theorems about them.

Modelling conventions.

* `int` values are integers of `Int`. Every index the methods of a table compute is
  bounded by `width * height`, and a constructor builds no table whose last index
  `width * height - 1` exceeds `INT_MAX` (signed overflow has no defined behaviour), so
  the methods do not wrap `int` arithmetic at `2 ^ 31`.
* The constructors take `unsigned` sizes: the product `size.x * size.y` is reduced modulo
  `2 ^ 32`, and the conversion of a size to the `int` members `width` and `height` reads
  it in two's complement.
* `uint8_t`, `uint32_t` and `uint64_t` values are natural numbers; the only arithmetic
  that can leave the range, the increment of a `uint8_t` neighbour counter, is reduced
  modulo `256`.
* A `std::vector` or pixel buffer is a `List Nat`. Reading or writing outside the buffer
  has no defined behaviour in C++; the model returns `none` there, and an operation is
  `some` result exactly when all its accesses stay inside the buffers.
* In `Snake.Frame` the `uint32_t` index `i + j * width` and the start `width - 1` of the
  loop are reduced modulo `2 ^ 32`, and so are the sum `l + r` and the difference `r - l`
  of `Classification.bisectLoop`.
* A test on `float` values (`removePoint`) and the classifier (`predict`) are parameters
  of the model.
* `static std::mt19937_64 rnd` is library state. It is modelled by the sequence of words
  the engine returns together with the number of words already drawn.
-/

namespace SFMLApps

/-! ## Buffers, loops and the random engine -/

/-- Read `v[index]`; there is no value outside the buffer. -/
def vecGet (v : List Nat) (index : Int) : Option Nat :=
  if 0 ≤ index then v[index.toNat]? else none

/-- Write `v[index] = x`; there is no result outside the buffer. -/
def vecSet (v : List Nat) (index : Int) (x : Nat) : Option (List Nat) :=
  if 0 ≤ index ∧ index.toNat < v.length then some (v.set index.toNat x) else none

/-- The product `size.x * size.y` of two `unsigned` values, computed modulo `2 ^ 32`. -/
def mulUnsigned (x y : Nat) : Nat := x * y % 2 ^ 32

/-- The conversion of an `unsigned` value to `int`, as in `width(size.x)`: the value
modulo `2 ^ 32`, read in two's complement. -/
def intOfUnsigned (x : Nat) : Int :=
  if x % 2 ^ 32 < 2 ^ 31 then ((x % 2 ^ 32 : Nat) : Int)
  else ((x % 2 ^ 32 : Nat) : Int) - 2 ^ 32

/-- The number of pixels in the buffer that `image.create(width, height)` allocates:
`sf::Image::create` of SFML 2 sizes its byte vector by the `unsigned` product
`width * height * 4`, four bytes per pixel. -/
def imagePixels (width height : Nat) : Nat := width * height * 4 % 2 ^ 32 / 4

/-- The logical negation `!c` of a `uint8_t` value. -/
def lnot (c : Nat) : Nat := if c = 0 then 1 else 0

/-- The loop `for (int k = 0; k < n; ++k) body(k)`: the iterations run in increasing
order on the threaded state, and the loop has a result when every iteration has one. -/
def forLoop {σ : Type} (n : Nat) (body : Int → σ → Option σ) (s : σ) : Option σ :=
  match n with
  | 0 => some s
  | k + 1 => (forLoop k body s).bind (body (k : Int))

/-- State of the `std::mt19937_64` engine: `words k` is the `k`-th word the engine
returns, `pos` counts the words drawn so far. -/
structure Rng where
  words : Nat → Nat
  pos : Nat

/-- One call `rnd()`: the next 64-bit word and the advanced engine. -/
def Rng.draw (r : Rng) : Nat × Rng :=
  (r.words r.pos % 2 ^ 64, { r with pos := r.pos + 1 })

/-- The refill of `randomize()`, `if ((i & 0x3F) == 0) num = rnd();`, on the local `num`
and the engine (`i` is a non-negative loop index). -/
def refill (i : Int) (num : Nat) (rnd : Rng) : Nat × Rng :=
  if i.toNat &&& 0x3F = 0 then rnd.draw else (num, rnd)

/-- The table `offsets[8][2]` of `fix_neighbors` (identical in both files). -/
def offsets : List (Int × Int) :=
  [(-1, -1), (0, -1), (1, -1), (-1, 0), (1, 0), (-1, 1), (0, 1), (1, 1)]

/-- The pair of guarded corrections applied to a coordinate in `fix_neighbors`:
`if (io < 0) io += width; if (io >= width) io -= width;`. -/
def wrapCoord (io width : Int) : Int :=
  let io1 := if io < 0 then io + width else io
  if io1 ≥ width then io1 - width else io1

/-- One iteration of the loop over `offsets` in `fix_neighbors`, on the counter buffer:
`++neighbors[io + jo * width]` with `uint8_t` counters. -/
def bumpNeighbor (width height : Int) (i j : Int) (neighbors : List Nat)
    (offset : Int × Int) : Option (List Nat) :=
  let io := wrapCoord (i + offset.1) width
  let jo := wrapCoord (j + offset.2) height
  let index := io + jo * width
  (vecGet neighbors index).bind fun n => vecSet neighbors index ((n + 1) % 256)

/-- The body of `fix_neighbors(i, j)` on the counter buffer; the two files have the same
text for it. -/
def fixNeighbors (width height : Int) (neighbors : List Nat) (i j : Int) :
    Option (List Nat) :=
  offsets.foldlM (bumpNeighbor width height i j) neighbors

/-! ## `src/Conways_GoL_1.cpp` -/

namespace GoL1

/-- The data members of `class CellTable`; `Bool` is `uint8_t`. -/
structure CellTable where
  width : Int
  height : Int
  cells : List Nat
  neighbors : List Nat
deriving DecidableEq

namespace CellTable

/-- The accessor `Bool at(int i, int j) const { return cells[i + j * width]; }`. -/
def at_ (t : CellTable) (i j : Int) : Option Nat :=
  vecGet t.cells (i + j * t.width)

/-- Method `toggle(i, j)`: `cells[index] = !cells[index]` with `index = i + j * width`. -/
def toggle (t : CellTable) (i j : Int) : Option CellTable :=
  let index := i + j * t.width
  (vecGet t.cells index).bind fun c =>
    (vecSet t.cells index (lnot c)).bind fun cs =>
      some { t with cells := cs }

/-- Method `clear()`: `std::fill(cells.begin(), cells.end(), Bool())`. -/
def clear (t : CellTable) : CellTable :=
  { t with cells := t.cells.map fun _ => 0 }

/-- Method `fix_neighbors(i, j)`. -/
def fix_neighbors (t : CellTable) (i j : Int) : Option CellTable :=
  (fixNeighbors t.width t.height t.neighbors i j).bind fun nb =>
    some { t with neighbors := nb }

/-- Body of the first pass of `update()`: `if (at(i, j)) fix_neighbors(i, j);`. -/
def countStep (j i : Int) (t : CellTable) : Option CellTable :=
  (t.at_ i j).bind fun c => if c ≠ 0 then t.fix_neighbors i j else some t

/-- Body of the second pass of `update()`. -/
def ruleStep (j i : Int) (t : CellTable) : Option CellTable :=
  let index := i + j * t.width
  (vecGet t.cells index).bind fun c =>
    (vecGet t.neighbors index).bind fun n =>
      if c ≠ 0 then
        if n < 2 ∨ n > 3 then t.toggle i j else some t
      else if n = 3 then t.toggle i j else some t

/-- Method `update()`: clear the counters, count the neighbours of every cell, then apply the
rule to every cell in place. -/
def update (t : CellTable) : Option CellTable :=
  let t0 : CellTable := { t with neighbors := t.neighbors.map fun _ => 0 }
  (forLoop t0.height.toNat (fun j s => forLoop s.width.toNat (countStep j) s) t0).bind
    fun t1 => forLoop t1.height.toNat (fun j s => forLoop s.width.toNat (ruleStep j) s) t1

/-- Body of the loops of `randomize()`, on the table, the local `num` and the engine:
`if ((i & 0x3F) == 0) num = rnd(); if (at(i, j) != (num & 1)) toggle(i, j);` followed by
the increment part `num >>= 1`. -/
def randStep (j i : Int) (s : CellTable × Nat × Rng) : Option (CellTable × Nat × Rng) :=
  let d := refill i s.2.1 s.2.2
  (s.1.at_ i j).bind fun c =>
    (if c ≠ d.1 &&& 1 then s.1.toggle i j else some s.1).bind fun t1 =>
      some (t1, d.1 >>> 1, d.2)

/-- Method `randomize()`. The local `num` is declared without a value and is assigned in the
first iteration of every row, before it is read; the model starts it at `0`. -/
def randomize (t : CellTable) (rnd : Rng) : Option (CellTable × Rng) :=
  (forLoop t.height.toNat (fun j s => forLoop s.1.width.toNat (randStep j) s)
    (t, 0, rnd)).bind fun s => some (s.1, s.2.2)

/-- The constructor `CellTable(size)`: `width` and `height` are the sizes converted to
`int`, both vectors are value-initialised with `size.x * size.y` zeros, the product taken
in `unsigned`, then the body calls `randomize()`. The loops of `randomize()` compute
`i + j * width` in `int` for every cell; when both dimensions are positive and the last
index `width * height - 1` exceeds `INT_MAX`, that is a signed overflow without defined
behaviour, and there is no table. -/
def create (sizeX sizeY : Nat) (rnd : Rng) : Option (CellTable × Rng) :=
  if 0 < intOfUnsigned sizeX ∧ 0 < intOfUnsigned sizeY ∧
      2 ^ 31 < intOfUnsigned sizeX * intOfUnsigned sizeY then none
  else
    randomize
      { width := intOfUnsigned sizeX, height := intOfUnsigned sizeY,
        cells := List.replicate (mulUnsigned sizeX sizeY) 0,
        neighbors := List.replicate (mulUnsigned sizeX sizeY) 0 } rnd

end CellTable

end GoL1

/-! ## `src/conways_game_of_life/sprite_approach.cpp` -/

namespace Sprite

/-- The data members of `class CellTable`: `pixels` is the buffer of the `sf::Image`
seen through `image_ptr`, one `uint32_t` per pixel, row-major. -/
structure CellTable where
  width : Int
  height : Int
  pixels : List Nat
  neighbors : List Nat
deriving DecidableEq

namespace CellTable

/-- Method `get_state(i, j)`: `image_ptr[i + j * width] == 0xFFFFFFFF`. -/
def get_state (t : CellTable) (i j : Int) : Option Bool :=
  (vecGet t.pixels (i + j * t.width)).map fun p => decide (p = 0xFFFFFFFF)

/-- Method `set_state(i, j, state)`: `image_ptr[i + j * width] = state ? 0xFFFFFFFF : 0xFF000000`. -/
def set_state (t : CellTable) (i j : Int) (state : Bool) : Option CellTable :=
  (vecSet t.pixels (i + j * t.width) (if state then 0xFFFFFFFF else 0xFF000000)).bind
    fun ps => some { t with pixels := ps }

/-- Method `fix_neighbors(i, j)`. -/
def fix_neighbors (t : CellTable) (i j : Int) : Option CellTable :=
  (fixNeighbors t.width t.height t.neighbors i j).bind fun nb =>
    some { t with neighbors := nb }

/-- Body of the first pass of `update()`: `if (get_state(i, j)) fix_neighbors(i, j);`. -/
def countStep (j i : Int) (t : CellTable) : Option CellTable :=
  (t.get_state i j).bind fun c => if c then t.fix_neighbors i j else some t

/-- Body of the second pass of `update()`. -/
def ruleStep (j i : Int) (t : CellTable) : Option CellTable :=
  let index := i + j * t.width
  (t.get_state i j).bind fun c =>
    (vecGet t.neighbors index).bind fun n =>
      if c then
        if n < 2 ∨ n > 3 then t.set_state i j false else some t
      else if n = 3 then t.set_state i j true else some t

/-- Method `update()`. -/
def update (t : CellTable) : Option CellTable :=
  let t0 : CellTable := { t with neighbors := t.neighbors.map fun _ => 0 }
  (forLoop t0.height.toNat (fun j s => forLoop s.width.toNat (countStep j) s) t0).bind
    fun t1 => forLoop t1.height.toNat (fun j s => forLoop s.width.toNat (ruleStep j) s) t1

/-- Body of the loops of `randomize()`:
`if ((i & 0x3F) == 0) num = rnd(); set_state(i, j, num & 1);` then `num >>= 1`. -/
def randStep (j i : Int) (s : CellTable × Nat × Rng) : Option (CellTable × Nat × Rng) :=
  let d := refill i s.2.1 s.2.2
  (s.1.set_state i j (decide (d.1 &&& 1 ≠ 0))).bind fun t1 =>
    some (t1, d.1 >>> 1, d.2)

/-- Method `randomize()`, with `uint64_t num = 0`. -/
def randomize (t : CellTable) (rnd : Rng) : Option (CellTable × Rng) :=
  (forLoop t.height.toNat (fun j s => forLoop s.1.width.toNat (randStep j) s)
    (t, 0, rnd)).bind fun s => some (s.1, s.2.2)

/-- The constructor `CellTable(size)`: `width` and `height` are the sizes converted to
`int`, `neighbors` gets `size.x * size.y` zeros, the product taken in `unsigned`, and
`image.create(size.x, size.y)` allocates its pixels with the default fill colour, opaque
black, which `image_ptr` reads as `0xFF000000`; then the body calls `randomize()`. The
loops of `randomize()` compute `i + j * width` in `int` for every cell; when both
dimensions are positive and the last index `width * height - 1` exceeds `INT_MAX`, that
is a signed overflow without defined behaviour, and there is no table. -/
def create (sizeX sizeY : Nat) (rnd : Rng) : Option (CellTable × Rng) :=
  if 0 < intOfUnsigned sizeX ∧ 0 < intOfUnsigned sizeY ∧
      2 ^ 31 < intOfUnsigned sizeX * intOfUnsigned sizeY then none
  else
    randomize
      { width := intOfUnsigned sizeX, height := intOfUnsigned sizeY,
        pixels := List.replicate (imagePixels sizeX sizeY) 0xFF000000,
        neighbors := List.replicate (mulUnsigned sizeX sizeY) 0 } rnd

end CellTable

end Sprite


/-! ## Specification vocabulary -/

namespace GoL1.CellTable

/-- The class invariant on the shape: non-negative dimensions and two buffers of
`width * height` entries. -/
def Valid (t : CellTable) : Prop :=
  0 ≤ t.width ∧ 0 ≤ t.height ∧ (t.cells.length : Int) = t.width * t.height ∧
    (t.neighbors.length : Int) = t.width * t.height

instance (t : CellTable) : Decidable (Valid t) := by
  unfold Valid; infer_instance

/-- The class invariant on the contents: a `Bool` cell holds `0` or `1`. -/
def Binary (t : CellTable) : Prop := ∀ c ∈ t.cells, c ≤ 1

instance (t : CellTable) : Decidable (Binary t) := by
  unfold Binary; infer_instance

/-- Cell `(x, y)` is alive: `at(x, y)` is defined and non-zero. -/
def isAlive (t : CellTable) (x y : Int) : Bool :=
  match t.at_ x y with
  | some c => c != 0
  | none => false

end GoL1.CellTable

namespace GoL1.CellTable

/-- The rule of the second pass as a function of the old state and the neighbour count:
alive when (alive and 2 or 3 neighbours) or (dead and exactly 3 neighbours). -/
def rule (a : Bool) (n : Nat) : Bool :=
  (a && (n == 2 || n == 3)) || (!a && n == 3)

/-- Neighbour count of `(x, y)`: the sum over the eight offsets `(dx, dy)` of the alive
state of `((x + dx) mod width, (y + dy) mod height)`. -/
def neighbourCount (t : CellTable) (x y : Int) : Nat :=
  (offsets.map fun o =>
    if t.isAlive ((x + o.1) % t.width) ((y + o.2) % t.height) then 1 else 0).sum

/-- Row-major progress of a double loop: `(x, y)` comes before position `i` of row `j`. -/
def visited (j i : Nat) (x y : Int) : Bool :=
  decide (y < j ∨ (y = j ∧ x < i))

/-- The number of offsets through which `(x, y)` is reached from a live cell that the
first pass has already visited. -/
def countedSoFar (t : CellTable) (j i : Nat) (x y : Int) : Nat :=
  offsets.countP fun o =>
    t.isAlive (wrapCoord (x - o.1) t.width) (wrapCoord (y - o.2) t.height) &&
      visited j i (wrapCoord (x - o.1) t.width) (wrapCoord (y - o.2) t.height)

end GoL1.CellTable

namespace GoL1.CellTable

/-- The value the second pass of `update()` leaves in a cell that holds `c` and whose
counter holds `n`: the cell is toggled in the two cases of the source. -/
def ruleValue (c n : Nat) : Nat :=
  if c ≠ 0 then (if n < 2 ∨ n > 3 then lnot c else c) else (if n = 3 then lnot c else c)

end GoL1.CellTable

namespace GoL1.CellTable

/-- Neighbour count of `(x, y)` on a `W` x `H` torus whose live cells are given by the
predicate `p`, with the coordinates wrapped as `fix_neighbors` wraps them. -/
def patternCount (p : Int → Int → Bool) (W H x y : Int) : Nat :=
  (offsets.map fun o =>
    if p (wrapCoord (x + o.1) W) (wrapCoord (y + o.2) H) then 1 else 0).sum

/-- The grid after `n` calls of `update()`. -/
def updateN (n : Nat) (t : CellTable) : Option CellTable :=
  match n with
  | 0 => some t
  | k + 1 => (updateN k t).bind update

end GoL1.CellTable

namespace GoL1

/-- The 5 x 5 grid with the vertical blinker `(2,1), (2,2), (2,3)`. -/
def blinkerGrid : CellTable :=
  { width := 5, height := 5,
    cells := [0, 0, 0, 0, 0,  0, 0, 1, 0, 0,  0, 0, 1, 0, 0,  0, 0, 1, 0, 0,  0, 0, 0, 0, 0],
    neighbors := List.replicate 25 0 }

/-- The 4 x 4 grid with the block `(0,0), (1,0), (0,1), (1,1)`. -/
def blockGrid : CellTable :=
  { width := 4, height := 4,
    cells := [1, 1, 0, 0,  1, 1, 0, 0,  0, 0, 0, 0,  0, 0, 0, 0],
    neighbors := List.replicate 16 0 }

/-- The 5 x 5 grid whose only live cell is `(2,2)`. -/
def loneGrid : CellTable :=
  { width := 5, height := 5,
    cells := [0, 0, 0, 0, 0,  0, 0, 0, 0, 0,  0, 0, 1, 0, 0,  0, 0, 0, 0, 0,  0, 0, 0, 0, 0],
    neighbors := List.replicate 25 0 }

end GoL1

/-- The bit that `randomize()` gives to column `x` of row `y` on a grid of width `W`,
when the engine is in state `r` at the call: every row starts a fresh word and draws a
new one every 64 columns, and a word is consumed from its least significant bit. -/
def randBit (r : Rng) (W x y : Nat) : Nat :=
  r.words (r.pos + y * ((W + 63) / 64) + x / 64) % 2 ^ 64 / 2 ^ (x % 64) % 2

namespace Sprite.CellTable

/-- The class invariant on the shape: non-negative dimensions, a pixel buffer and a
counter buffer of `width * height` entries. -/
def Valid (t : CellTable) : Prop :=
  0 ≤ t.width ∧ 0 ≤ t.height ∧ (t.pixels.length : Int) = t.width * t.height ∧
    (t.neighbors.length : Int) = t.width * t.height

instance (t : CellTable) : Decidable (Valid t) := by
  unfold Valid; infer_instance

/-- Cell `(x, y)` is alive: `get_state(x, y)` is defined and true. -/
def isAlive (t : CellTable) (x y : Int) : Bool :=
  match t.get_state x y with
  | some c => c
  | none => false

/-- The boolean-array table that stores the same states as a pixel table: a white pixel
becomes `1`, any other pixel `0`; dimensions and counters are kept. -/
def toCells (t : CellTable) : GoL1.CellTable :=
  { width := t.width, height := t.height,
    cells := t.pixels.map fun p => if p = 0xFFFFFFFF then 1 else 0,
    neighbors := t.neighbors }

/-- The grid after `n` calls of `update()`. -/
def updateN (n : Nat) (t : CellTable) : Option CellTable :=
  match n with
  | 0 => some t
  | k + 1 => (updateN k t).bind update

end Sprite.CellTable

/-- A boolean-array table and a pixel table agree: same dimensions, and every in-range
cell is non-zero in the array iff its pixel equals `0xFFFFFFFF`. -/
def Agree (a : GoL1.CellTable) (p : Sprite.CellTable) : Prop :=
  a.width = p.width ∧ a.height = p.height ∧
    ∀ x y : Int, 0 ≤ x → x < a.width → 0 ≤ y → y < a.height →
      a.isAlive x y = p.isAlive x y

namespace GoL1.CellTable

/-- The first pass of `update()` alone: the counters are cleared and every live cell is
counted into its eight wrapped neighbours (the state before the second pass starts). -/
def countPass (t : CellTable) : Option CellTable :=
  forLoop t.height.toNat (fun j s => forLoop s.width.toNat (countStep j) s)
    { t with neighbors := t.neighbors.map fun _ => 0 }

end GoL1.CellTable

/-- The eight coordinates whose counters `fix_neighbors(i, j)` increments, in the order
of the table `offsets`. -/
def neighbourCells (width height i j : Int) : List (Int × Int) :=
  offsets.map fun o => (wrapCoord (i + o.1) width, wrapCoord (j + o.2) height)

/-! ## `src/snake.cpp` -/

/-- The loop `for (uint32_t i = start; i != 0; --i) body(i)`: the iterations run for
`i = start, start - 1, ..., 1` on the threaded state. -/
def downLoop {σ : Type} (start : Nat) (body : Nat → σ → Option σ) (s : σ) : Option σ :=
  match start with
  | 0 => some s
  | k + 1 => (body (k + 1) s).bind (downLoop k body)

namespace Snake

/-- The data members of `class Frame`: `pixels` is the buffer of the `sf::Image` seen
through `image_ptr`, one `uint32_t` per pixel, row-major. -/
structure Frame where
  width : Nat
  height : Nat
  pixels : List Nat
deriving DecidableEq

namespace Frame

/-- Method `GetColor(i, j)`: `image_ptr[i + j * width]`, the index computed in
`uint32_t`. -/
def GetColor (t : Frame) (i j : Nat) : Option Nat :=
  t.pixels[(i + j * t.width) % 2 ^ 32]?

/-- Method `SetColor(i, j, color)`: `image_ptr[i + j * width] = color`. -/
def SetColor (t : Frame) (i j color : Nat) : Option Frame :=
  if (i + j * t.width) % 2 ^ 32 < t.pixels.length then
    some { t with pixels := t.pixels.set ((i + j * t.width) % 2 ^ 32) color }
  else none

/-- Method `Update()`: the loop `SetColor(i, 0, GetColor(i - 1, 0))` for
`i = width - 1` down to `1`, then `SetColor(0, 0, GetColor(width - 1, 0))`; `width - 1`
is computed in `uint32_t`. -/
def Update (t : Frame) : Option Frame :=
  (downLoop ((t.width + 2 ^ 32 - 1) % 2 ^ 32)
      (fun i s => (s.GetColor (i - 1) 0).bind fun c => s.SetColor i 0 c) t).bind fun s =>
    (s.GetColor ((t.width + 2 ^ 32 - 1) % 2 ^ 32) 0).bind fun c => s.SetColor 0 0 c

/-- The class invariant: the pixel buffer has `width * height` entries. -/
def Valid (t : Frame) : Prop := t.pixels.length = t.width * t.height

instance (t : Frame) : Decidable (Valid t) := by
  unfold Valid; infer_instance

/-- Method `Randomize()`: the active loop `for (j = 0; j < 0x100; j += 0x10)` writes the
grey level `0xff000000 | (j << 16) | (j << 8) | j` into pixel `(j >> 4, 0)`; the loop
index of the model is `j / 16`. -/
def Randomize (t : Frame) : Option Frame :=
  forLoop 16 (fun k s =>
    s.SetColor ((16 * k.toNat) >>> 4) 0
      (0xff000000 ||| ((16 * k.toNat) <<< 16) ||| ((16 * k.toNat) <<< 8) ||| (16 * k.toNat))) t

/-- The constructor `Frame(size)`: `image.create(size.x, size.y)` allocates its pixels
with the default fill colour, opaque black, then the body calls `Randomize()`; `width`
and `height` are `uint32_t` copies of the sizes. -/
def create (sizeX sizeY : Nat) : Option Frame :=
  Randomize { width := sizeX % 2 ^ 32, height := sizeY % 2 ^ 32,
              pixels := List.replicate (imagePixels sizeX sizeY) 0xff000000 }

end Frame

end Snake

/-! ## `src/ml_classification_gui/classification_task.hpp` -/

namespace Classification

/-- The loop of `Processing::removePoint` on the two vectors `points_pos_` and
`points_category_`, from index `i`. The test `sq(pointRadius) > sq(dx) + sq(dy)` on
`float` values is the parameter `hit`; `points_pos_.size()` is read again before every
iteration; after an `erase` at index `i` the loop still goes on to `i + 1`. The first
argument bounds the number of iterations. -/
def removeLoop {α : Type} (hit : α → Bool) :
    Nat → Nat → List α → List Int → Option (List α × List Int)
  | fuel, i, ps, cs =>
    if i < ps.length then
      match fuel with
      | 0 => none
      | f + 1 =>
        match ps[i]? with
        | none => none
        | some p =>
          if hit p then
            if i < cs.length then removeLoop hit f (i + 1) (ps.eraseIdx i) (cs.eraseIdx i)
            else none
          else removeLoop hit f (i + 1) ps cs
    else some (ps, cs)

/-- Method `Processing::removePoint(pos)`; the loop needs at most `points_pos_.size()`
iterations. -/
def removePoint {α : Type} (hit : α → Bool) (ps : List α) (cs : List Int) :
    Option (List α × List Int) :=
  removeLoop hit ps.length 0 ps cs

/-- The test of `removePoint` on points with integer coordinates (mouse positions),
where the `float` arithmetic is exact: `sq(radius) > sq(p.x - pos.x) + sq(p.y - pos.y)`. -/
def within (radius : Int) (pos p : Int × Int) : Bool :=
  decide (radius * radius > (p.1 - pos.1) * (p.1 - pos.1) + (p.2 - pos.2) * (p.2 - pos.2))

/-- The bisection loop of `Processing::drawBackground` for one row,
`while (r - l > 1) { m = (l + r) / 2; (category == predict({m, i}) ? l : r) = m; }`,
with the prediction of the row as the parameter `pred`. The variables `l`, `r`, `m` are
`uint32_t`: the difference `r - l` and the sum `l + r` are taken modulo `2 ^ 32`. The
result is the final `l` together with the columns at which `predict` was called, latest
first. The first argument bounds the number of iterations. -/
def bisectLoop (pred : Nat → Int) (category : Int) :
    Nat → Nat → Nat → List Nat → Option (Nat × List Nat)
  | fuel, l, r, seen =>
    if (r + 2 ^ 32 - l) % 2 ^ 32 > 1 then
      match fuel with
      | 0 => none
      | f + 1 =>
        if category = pred ((l + r) % 2 ^ 32 / 2) then
          bisectLoop pred category f ((l + r) % 2 ^ 32 / 2) r ((l + r) % 2 ^ 32 / 2 :: seen)
        else bisectLoop pred category f l ((l + r) % 2 ^ 32 / 2) ((l + r) % 2 ^ 32 / 2 :: seen)
    else some (l, seen)

/-- The bisection of `drawBackground` as it starts, `l = 0, r = size.x`, for a width
`size.x` of type `uint32_t`; while the sum `l + r` does not wrap the interval shrinks in
every iteration, and `size.x` iterations are enough. -/
def bisect (pred : Nat → Int) (category : Int) (sizeX : Nat) : Option (Nat × List Nat) :=
  bisectLoop pred category sizeX 0 (sizeX % 2 ^ 32) []

end Classification

/-! ## `src/chess_gui/gui.hpp` -/

namespace Chess

/-- The enumeration `Processing::Piece`, in the order of its declaration. -/
inductive Piece where
  | king_white
  | queen_white
  | bishop_white
  | knight_white
  | rook_white
  | pawn_white
  | king_black
  | queen_black
  | bishop_black
  | knight_black
  | rook_black
  | pawn_black
deriving DecidableEq

/-- The integer value of an enumerator, used as index into `pieces_sprites_`. -/
def Piece.toNat : Piece → Nat
  | .king_white => 0
  | .queen_white => 1
  | .bishop_white => 2
  | .knight_white => 3
  | .rook_white => 4
  | .pawn_white => 5
  | .king_black => 6
  | .queen_black => 7
  | .bishop_black => 8
  | .knight_black => 9
  | .rook_black => 10
  | .pawn_black => 11

/-- The `switch (i)` of `drawPieces`: `piece` starts as `king_white` and keeps that value
for a letter without a `case`. -/
def pieceOf (i : Char) : Piece :=
  if i = 'K' then .king_white
  else if i = 'k' then .king_black
  else if i = 'Q' then .queen_white
  else if i = 'q' then .queen_black
  else if i = 'R' then .rook_white
  else if i = 'r' then .rook_black
  else if i = 'B' then .bishop_white
  else if i = 'b' then .bishop_black
  else if i = 'N' then .knight_white
  else if i = 'n' then .knight_black
  else if i = 'P' then .pawn_white
  else if i = 'p' then .pawn_black
  else .king_white

/-- The string given to the member `FEN` by the constructor `Processing::Processing`. -/
def FEN : String := "rnbqkbnr/ppp2ppp/4p3/3p4/2PP4/8/PP2PPPP/RNBQKBNR w KQkq - 0 1"

/-- The sprites that `loadPieces` pushes into `pieces_sprites_`, each given by the
origin of its texture rectangle `sf::IntRect(i * s, j * s, s, s)`: the loops run `j` over
`0, 1` and `i` over `0 .. 5`. -/
def loadPieces (s : Int) : List (Int × Int) :=
  (List.range 2).flatMap fun j => (List.range 6).map fun i => ((i : Int) * s, (j : Int) * s)

/-- One call `window.draw(pieces_sprites_[piece])` of `drawPieces`: the letter read, the
piece chosen, the texture origin of the sprite, the value of `index`, and the two factors
`index % 8` and `index / 8` of the position. -/
structure Drawn where
  letter : Char
  piece : Piece
  sprite : Int × Int
  index : Int
  column : Int
  row : Int
deriving DecidableEq

/-- What a run of `drawPieces` without a failed assertion leaves: the final `index`, the
sprites drawn in order, the value of `index` at every `'/'`, the character at which the
loop was left by `break` (if it was), and the characters never read. -/
structure Walk where
  index : Int
  drawn : List Drawn
  slashes : List Int
  stop : Option Char
  unread : List Char
deriving DecidableEq

/-- The range-for loop of `drawPieces` over the remaining characters. A failed `assert`
(or an index outside `pieces_sprites_`) gives `none`. -/
def walk (sprites : List (Int × Int)) : List Char → Walk → Option Walk
  | [], w => some w
  | i :: rest, w =>
    if i.isDigit then
      walk sprites rest { w with index := w.index + ((i.toNat : Int) - ('0'.toNat : Int)) }
    else if i = '/' then
      if Int.tmod w.index 8 = 0 then
        walk sprites rest { w with slashes := w.slashes ++ [w.index] }
      else none
    else if i.isAlpha then
      match sprites[(pieceOf i).toNat]? with
      | none => none
      | some sp =>
        walk sprites rest
          { w with
            drawn := w.drawn ++
              [⟨i, pieceOf i, sp, w.index, Int.tmod w.index 8, Int.tdiv w.index 8⟩],
            index := w.index + 1 }
    else
      if w.index = 64 then some { w with stop := some i, unread := rest } else none

/-- Method `drawPieces`, with `int index = 0`; `sprites` is `pieces_sprites_`. -/
def drawPieces (sprites : List (Int × Int)) (fen : String) : Option Walk :=
  walk sprites fen.data ⟨0, [], [], none, []⟩


/-- The same run of `drawPieces` seen with every sprite replaced by its image under
`f`. -/
def Walk.mapSprite (f : Int × Int → Int × Int) (w : Walk) : Walk :=
  { w with drawn := w.drawn.map fun d => { d with sprite := f d.sprite } }

/-- The letters of a FEN piece placement with the piece and colour each one names:
upper case is white, lower case is black; `K` king, `Q` queen, `R` rook, `B` bishop,
`N` knight, `P` pawn. -/
def fenLetters : List (Char × Piece) :=
  [('K', .king_white), ('Q', .queen_white), ('R', .rook_white), ('B', .bishop_white),
   ('N', .knight_white), ('P', .pawn_white), ('k', .king_black), ('q', .queen_black),
   ('r', .rook_black), ('b', .bishop_black), ('n', .knight_black), ('p', .pawn_black)]

/-- The checks read off a finished run of `drawPieces` on the built-in `FEN` with the
sprite sheet of cell size `s`: final index 64, left at the space with `w KQkq - 0 1`
unread, seven `'/'` each at a multiple of 8, 32 draws in the order of the letters, each
with `index < 64`, column `index % 8`, row `index / 8`, the piece its letter names, and
the sprite found at the enumerator of that piece. -/
def Walk.Checked (s : Int) (w : Walk) : Prop :=
  w.index = 64 ∧ w.stop = some ' ' ∧ w.unread = "w KQkq - 0 1".data ∧
  w.slashes = [8, 16, 24, 32, 40, 48, 56] ∧
  w.drawn.length = 32 ∧
  w.drawn.map (fun d => d.letter) = "rnbqkbnrppppppppPPPPPPPPRNBQKBNR".data ∧
  ∀ d ∈ w.drawn, 0 ≤ d.index ∧ d.index < 64 ∧ d.column = d.index % 8 ∧
    d.row = d.index / 8 ∧ (d.letter, d.piece) ∈ fenLetters ∧
    d.sprite = (((d.piece.toNat % 6 : Nat) : Int) * s, ((d.piece.toNat / 6 : Nat) : Int) * s)

instance (s : Int) (w : Walk) : Decidable (w.Checked s) := by
  unfold Walk.Checked; infer_instance

end Chess

/-! # Theorems -/

/-! ## Buffer lemmas -/

theorem idx_bounds {W H i j : Int} (hi : 0 ≤ i) (hiW : i < W) (hj : 0 ≤ j) (hjH : j < H) :
    0 ≤ i + j * W ∧ i + j * W < W * H := by
  constructor
  · nlinarith
  · nlinarith

theorem idx_inj {W i j x y : Int} (hi : 0 ≤ i) (hiW : i < W) (hx : 0 ≤ x) (hxW : x < W)
    (h : i + j * W = x + y * W) : i = x ∧ j = y := by
  have hj : j = y := by
    rcases lt_trichotomy j y with hlt | heq | hgt
    · exfalso
      have : (j + 1) * W ≤ y * W := by nlinarith
      nlinarith
    · exact heq
    · exfalso
      have : (y + 1) * W ≤ j * W := by nlinarith
      nlinarith
  subst hj
  exact ⟨by omega, rfl⟩

theorem vecGet_of_lt {v : List Nat} {k : Int} (h0 : 0 ≤ k) (hk : k < v.length) :
    vecGet v k = some (v[k.toNat]?.getD 0) := by
  have : k.toNat < v.length := by omega
  simp [vecGet, h0, List.getElem?_eq_getElem this]

theorem vecSet_of_lt {v : List Nat} {k : Int} (x : Nat) (h0 : 0 ≤ k) (hk : k < v.length) :
    vecSet v k x = some (v.set k.toNat x) := by
  have : k.toNat < v.length := by omega
  simp [vecSet, h0, this]

theorem vecGet_set {v : List Nat} {k m : Int} (x : Nat) (h0 : 0 ≤ k) (hk : k < v.length)
    (hm : 0 ≤ m) :
    vecGet (v.set k.toNat x) m = if m = k then some x else vecGet v m := by
  have hkl : k.toNat < v.length := by omega
  by_cases h : m = k
  · subst h
    simp [vecGet, hm, hkl]
  · have : k.toNat ≠ m.toNat := by omega
    simp [vecGet, hm, h, List.getElem?_set, this]

/-! ## `toggle` -/

namespace GoL1.CellTable

theorem at_eq_of_inRange {t : CellTable} (hv : t.Valid) {x y : Int} (hx : 0 ≤ x)
    (hxW : x < t.width) (hy : 0 ≤ y) (hyH : y < t.height) :
    t.at_ x y = some (t.cells[(x + y * t.width).toNat]?.getD 0) := by
  obtain ⟨_, _, hc, _⟩ := hv
  have hb := idx_bounds hx hxW hy hyH
  exact vecGet_of_lt hb.1 (by omega)

theorem toggle_eq_of_index {t : CellTable} {x y : Int} (h0 : 0 ≤ x + y * t.width)
    (hk : x + y * t.width < t.cells.length) :
    t.toggle x y = some { t with
      cells := t.cells.set (x + y * t.width).toNat
        (lnot (t.cells[(x + y * t.width).toNat]?.getD 0)) } := by
  simp [toggle, vecGet_of_lt h0 hk, vecSet_of_lt _ h0 hk]

end GoL1.CellTable

namespace GoL1.CellTable

theorem lnot_lnot_of_le_one {c : Nat} (h : c ≤ 1) : lnot (lnot c) = c := by
  rcases Nat.le_one_iff_eq_zero_or_eq_one.mp h with rfl | rfl <;> rfl

theorem list_set_getElem_same (l : List Nat) (k : Nat) (hk : k < l.length) :
    l.set k (l.get ⟨k, hk⟩) = l := by
  apply List.ext_getElem?
  intro n
  by_cases h : k = n
  · subst h
    simp [hk]
  · simp [List.getElem?_set, h]

theorem toggle_index_congr (t : CellTable) {x y x' y' : Int}
    (h : x + y * t.width = x' + y' * t.width) : t.toggle x y = t.toggle x' y' := by
  simp only [toggle, h]

theorem at_index_congr (t : CellTable) {x y x' y' : Int}
    (h : x + y * t.width = x' + y' * t.width) : t.at_ x y = t.at_ x' y' := by
  simp only [at_, h]

theorem vecGet_none_of_out {v : List Nat} {k : Int} (h : k < 0 ∨ (v.length : Int) ≤ k) :
    vecGet v k = none := by
  unfold vecGet
  split_ifs with h0
  · have : v.length ≤ k.toNat := by omega
    simp [this]
  · rfl

/-- C3: on a grid that satisfies the class invariant, toggling an in-range cell twice
gives back exactly the original table. -/
theorem toggle_involution (t : CellTable) (hv : t.Valid) (hb : t.Binary) (x y : Int)
    (hx : 0 ≤ x ∧ x < t.width) (hy : 0 ≤ y ∧ y < t.height) :
    (t.toggle x y).bind (fun t1 => t1.toggle x y) = some t := by
  have hidx := idx_bounds hx.1 hx.2 hy.1 hy.2
  have hlen : x + y * t.width < t.cells.length := by
    have := hv.2.2.1
    omega
  have hk : (x + y * t.width).toNat < t.cells.length := by omega
  rw [toggle_eq_of_index hidx.1 hlen, Option.some_bind]
  rw [toggle_eq_of_index (by simpa using hidx.1) (by simpa using hlen)]
  have hc : t.cells[(x + y * t.width).toNat] ≤ 1 := hb _ (List.getElem_mem hk)
  cases t with
  | mk w h cells nb =>
    simp only [Option.some.injEq, CellTable.mk.injEq, true_and, and_true] at hk hc ⊢
    simp [hk, lnot_lnot_of_le_one hc]
    exact list_set_getElem_same cells _ hk

theorem toggle_involution_witness :
    (CellTable.toggle ⟨2, 2, [0, 1, 1, 0], [0, 0, 0, 0]⟩ 1 1).bind
      (fun t1 => t1.toggle 1 1) = some ⟨2, 2, [0, 1, 1, 0], [0, 0, 0, 0]⟩ :=
  toggle_involution ⟨2, 2, [0, 1, 1, 0], [0, 0, 0, 0]⟩ (by decide) (by decide) 1 1
    (by decide) (by decide)

/-- C4: toggling an in-range cell negates the alive state of that cell, keeps the stored
value of every other in-range cell, and keeps the dimensions (and the counter buffer). -/
theorem toggle_flips_only_target (t : CellTable) (hv : t.Valid) (x y : Int)
    (hx : 0 ≤ x ∧ x < t.width) (hy : 0 ≤ y ∧ y < t.height) :
    ∃ t1, t.toggle x y = some t1 ∧ t1.width = t.width ∧ t1.height = t.height ∧
      t1.neighbors = t.neighbors ∧ t1.isAlive x y = !t.isAlive x y ∧
      ∀ x1 y1 : Int, 0 ≤ x1 → x1 < t.width → 0 ≤ y1 → y1 < t.height →
        (x1, y1) ≠ (x, y) → t1.at_ x1 y1 = t.at_ x1 y1 := by
  have hidx := idx_bounds hx.1 hx.2 hy.1 hy.2
  have hlen : x + y * t.width < t.cells.length := by
    have := hv.2.2.1
    omega
  refine ⟨_, toggle_eq_of_index hidx.1 hlen, rfl, rfl, rfl, ?_, ?_⟩
  · simp only [isAlive, at_, vecGet_set _ hidx.1 hlen hidx.1, if_true, vecGet_of_lt hidx.1 hlen]
    by_cases h0 : t.cells[(x + y * t.width).toNat]?.getD 0 = 0 <;> simp [lnot, h0]
  · intro x1 y1 h1 h2 h3 h4 hne
    have hidx1 := idx_bounds h1 h2 h3 h4
    have hneq : x1 + y1 * t.width ≠ x + y * t.width := by
      intro h
      have := idx_inj h1 h2 hx.1 hx.2 h
      exact hne (by rw [this.1, this.2])
    simp only [at_, vecGet_set _ hidx.1 hlen hidx1.1, if_neg hneq]

theorem toggle_flips_only_target_witness :
    ∃ t1, CellTable.toggle ⟨2, 2, [0, 1, 1, 0], [0, 0, 0, 0]⟩ 1 0 = some t1 ∧
      t1.width = 2 ∧ t1.height = 2 ∧ t1.neighbors = [0, 0, 0, 0] ∧
      t1.isAlive 1 0 = !(CellTable.isAlive ⟨2, 2, [0, 1, 1, 0], [0, 0, 0, 0]⟩ 1 0) ∧
      ∀ x1 y1 : Int, 0 ≤ x1 → x1 < 2 → 0 ≤ y1 → y1 < 2 → (x1, y1) ≠ (1, 0) →
        t1.at_ x1 y1 = CellTable.at_ ⟨2, 2, [0, 1, 1, 0], [0, 0, 0, 0]⟩ x1 y1 :=
  toggle_flips_only_target ⟨2, 2, [0, 1, 1, 0], [0, 0, 0, 0]⟩ (by decide) 1 0
    (by decide) (by decide)

/-- C9 as stated fails: on the 2 x 2 all-dead table, `toggle(2, 0)` (column 2 is outside
`[0, 2)`) is not rejected, it brings the in-range cell `(0, 1)` to life, and `at(2, 0)`
reads that cell. -/
theorem toggle_out_of_range_wraps :
    ¬ ((2 : Int) < (⟨2, 2, [0, 0, 0, 0], [0, 0, 0, 0]⟩ : CellTable).width) ∧
    CellTable.Valid ⟨2, 2, [0, 0, 0, 0], [0, 0, 0, 0]⟩ ∧
    CellTable.toggle ⟨2, 2, [0, 0, 0, 0], [0, 0, 0, 0]⟩ 2 0 =
      some ⟨2, 2, [0, 0, 1, 0], [0, 0, 0, 0]⟩ ∧
    CellTable.isAlive ⟨2, 2, [0, 0, 0, 0], [0, 0, 0, 0]⟩ 0 1 = false ∧
    CellTable.isAlive ⟨2, 2, [0, 0, 1, 0], [0, 0, 0, 0]⟩ 0 1 = true ∧
    CellTable.at_ ⟨2, 2, [0, 0, 1, 0], [0, 0, 0, 0]⟩ 2 0 = some 1 := by
  decide

/-- C9, amended: `toggle(x, y)` and `at(x, y)` check neither coordinate, they access the
flat index `x + y * width`. When that index lies inside the buffer they act on the
in-range cell `((x + y * width) mod width, (x + y * width) div width)`, whatever `x` and
`y` are; when it lies outside the buffer neither has a defined result. -/
theorem toggle_at_use_flat_index (t : CellTable) (hv : t.Valid) (x y : Int) :
    (0 ≤ x + y * t.width ∧ x + y * t.width < t.width * t.height →
      0 ≤ (x + y * t.width) % t.width ∧ (x + y * t.width) % t.width < t.width ∧
      0 ≤ (x + y * t.width) / t.width ∧ (x + y * t.width) / t.width < t.height ∧
      t.toggle x y = t.toggle ((x + y * t.width) % t.width) ((x + y * t.width) / t.width) ∧
      t.at_ x y = t.at_ ((x + y * t.width) % t.width) ((x + y * t.width) / t.width) ∧
      t.toggle x y ≠ none ∧ t.at_ x y ≠ none) ∧
    (x + y * t.width < 0 ∨ t.width * t.height ≤ x + y * t.width →
      t.toggle x y = none ∧ t.at_ x y = none) := by
  obtain ⟨hw, hh, hc, _⟩ := hv
  constructor
  · rintro ⟨h0, hlt⟩
    have hwpos : 0 < t.width := by
      by_contra hcon
      have hz : t.width = 0 := by omega
      rw [hz] at hlt h0
      simp at hlt h0
      omega
    have hdecomp : (x + y * t.width) % t.width + (x + y * t.width) / t.width * t.width
        = x + y * t.width := by
      have := Int.emod_add_ediv (x + y * t.width) t.width
      linarith
    have hlen : x + y * t.width < t.cells.length := by omega
    refine ⟨Int.emod_nonneg _ hwpos.ne', Int.emod_lt_of_pos _ hwpos,
      Int.ediv_nonneg h0 hw, Int.ediv_lt_of_lt_mul hwpos (by linarith),
      toggle_index_congr t hdecomp.symm, at_index_congr t hdecomp.symm, ?_, ?_⟩
    · rw [toggle_eq_of_index h0 hlen]; simp
    · simp [at_, vecGet_of_lt h0 hlen]
  · intro hout
    have hg : vecGet t.cells (x + y * t.width) = none :=
      vecGet_none_of_out (by omega)
    simp [toggle, at_, hg]

theorem toggle_at_use_flat_index_witness :
    CellTable.toggle ⟨2, 2, [0, 0, 0, 0], [0, 0, 0, 0]⟩ 2 0 =
      CellTable.toggle ⟨2, 2, [0, 0, 0, 0], [0, 0, 0, 0]⟩ 0 1 ∧
    CellTable.toggle ⟨2, 2, [0, 0, 0, 0], [0, 0, 0, 0]⟩ 2 1 = none :=
  ⟨((toggle_at_use_flat_index ⟨2, 2, [0, 0, 0, 0], [0, 0, 0, 0]⟩ (by decide) 2 0).1
      (by decide)).2.2.2.2.1,
   ((toggle_at_use_flat_index ⟨2, 2, [0, 0, 0, 0], [0, 0, 0, 0]⟩ (by decide) 2 1).2
      (by decide)).1⟩

end GoL1.CellTable

/-! ## Loop rules -/

/-- Invariant rule for `forLoop`: an invariant that every iteration re-establishes (and
under which every iteration has a result) holds after the loop, which has a result. -/
theorem forLoop_inv {σ : Type} (n : Nat) (body : Int → σ → Option σ)
    (Inv : Nat → σ → Prop) (s : σ) (h0 : Inv 0 s)
    (hstep : ∀ k : Nat, k < n → ∀ s1, Inv k s1 →
      ∃ s2, body (k : Int) s1 = some s2 ∧ Inv (k + 1) s2) :
    ∃ s2, forLoop n body s = some s2 ∧ Inv n s2 := by
  induction n with
  | zero => exact ⟨s, rfl, h0⟩
  | succ m ih =>
    obtain ⟨s1, hs1, hI1⟩ := ih (fun k hk => hstep k (Nat.lt_succ_of_lt hk))
    obtain ⟨s2, hs2, hI2⟩ := hstep m (Nat.lt_succ_self m) s1 hI1
    exact ⟨s2, by simp [forLoop, hs1, hs2], hI2⟩

/-- Invariant rule for the row-by-row double loop of the tables. `Inv j i` is the
invariant when rows `< j` and the first `i` cells of row `j` have been processed. -/
theorem forLoop2_inv {σ : Type} (H Wc : Nat) (W : σ → Nat) (body : Int → Int → σ → Option σ)
    (Inv : Nat → Nat → σ → Prop) (s : σ) (h0 : Inv 0 0 s)
    (hW : ∀ j i s1, Inv j i s1 → W s1 = Wc)
    (hstep : ∀ j i : Nat, j < H → i < Wc → ∀ s1, Inv j i s1 →
      ∃ s2, body (j : Int) (i : Int) s1 = some s2 ∧ Inv j (i + 1) s2)
    (hrow : ∀ j : Nat, j < H → ∀ s1, Inv j Wc s1 → Inv (j + 1) 0 s1) :
    ∃ s2, forLoop H (fun j s1 => forLoop (W s1) (body j) s1) s = some s2 ∧ Inv H 0 s2 := by
  apply forLoop_inv H _ (fun j s1 => Inv j 0 s1) s h0
  intro j hj s1 hI
  have hWs : W s1 = Wc := hW j 0 s1 hI
  obtain ⟨s2, hs2, hI2⟩ := forLoop_inv Wc (body (j : Int)) (fun i s2 => Inv j i s2) s1 hI
    (fun i hi s2 hI2 => hstep j i hj hi s2 hI2)
  exact ⟨s2, by simp only [hWs, hs2], hrow j hj s2 hI2⟩

/-! ## `fix_neighbors` -/

theorem wrapCoord_range {v W : Int} (hW : 0 < W) (hlo : -1 ≤ v) (hhi : v ≤ W) :
    0 ≤ wrapCoord v W ∧ wrapCoord v W < W := by
  simp only [wrapCoord]
  constructor <;> split_ifs <;> omega

theorem wrapCoord_eq_emod {v W : Int} (hW : 0 < W) (hlo : -1 ≤ v) (hhi : v ≤ W) :
    wrapCoord v W = v % W := by
  have hr := wrapCoord_range hW hlo hhi
  have hmod : wrapCoord v W % W = v % W := by
    simp only [wrapCoord]
    split_ifs
    · have : v + W - W = v := by ring
      rw [this]
    · exact Int.add_emod_self
    · have h := @Int.add_mul_emod_self v (-1) W
      rw [neg_one_mul, ← sub_eq_add_neg] at h
      exact h
    · rfl
  rw [← hmod, Int.emod_eq_of_lt hr.1 hr.2]

/-- Moving by an offset and moving back by it are inverse on the torus: the cell that
`fix_neighbors(i, ·)` reaches with offset `d` is `x` exactly when `i` is reached from `x`
with offset `-d`. -/
theorem wrapCoord_shift_iff {i x d W : Int} (hi : 0 ≤ i) (hiW : i < W)
    (hx : 0 ≤ x) (hxW : x < W) (hd : -1 ≤ d ∧ d ≤ 1) :
    wrapCoord (i + d) W = x ↔ wrapCoord (x - d) W = i := by
  simp only [wrapCoord]
  constructor <;> intro h <;> split_ifs at h ⊢ <;> omega

theorem offsets_range {o : Int × Int} (ho : o ∈ offsets) :
    (-1 ≤ o.1 ∧ o.1 ≤ 1) ∧ (-1 ≤ o.2 ∧ o.2 ≤ 1) := by
  simp only [offsets, List.mem_cons, List.mem_singleton, List.not_mem_nil, or_false] at ho
  rcases ho with h | h | h | h | h | h | h | h <;> subst h <;> decide

theorem bump_fold_spec (W H i j : Int) (hW : 0 < W) (hH : 0 < H) (hi : 0 ≤ i) (hiW : i < W)
    (hj : 0 ≤ j) (hjH : j < H) (os : List (Int × Int))
    (hos : ∀ o ∈ os, (-1 ≤ o.1 ∧ o.1 ≤ 1) ∧ (-1 ≤ o.2 ∧ o.2 ≤ 1)) :
    ∀ nb : List Nat, (nb.length : Int) = W * H →
      ∃ nb1, os.foldlM (bumpNeighbor W H i j) nb = some nb1 ∧ nb1.length = nb.length ∧
        ∀ (k : Int) (v : Nat), 0 ≤ k → vecGet nb k = some v → v < 256 →
          vecGet nb1 k = some ((v + os.countP (fun o =>
            decide (wrapCoord (i + o.1) W + wrapCoord (j + o.2) H * W = k))) % 256) := by
  induction os with
  | nil =>
    intro nb _
    refine ⟨nb, rfl, rfl, ?_⟩
    intro k v _ hv hlt
    simp [hv, Nat.mod_eq_of_lt hlt]
  | cons o os ih =>
    intro nb hlen
    have ho := hos o (List.mem_cons_self _ _)
    have hx := wrapCoord_range hW (v := i + o.1) (by omega) (by omega)
    have hy := wrapCoord_range hH (v := j + o.2) (by omega) (by omega)
    have hidx := idx_bounds hx.1 hx.2 hy.1 hy.2
    have hidxlen : wrapCoord (i + o.1) W + wrapCoord (j + o.2) H * W < nb.length := by omega
    have hstep : bumpNeighbor W H i j nb o = some (nb.set
        (wrapCoord (i + o.1) W + wrapCoord (j + o.2) H * W).toNat
        ((nb[(wrapCoord (i + o.1) W + wrapCoord (j + o.2) H * W).toNat]?.getD 0 + 1) % 256)) := by
      simp [bumpNeighbor, vecGet_of_lt hidx.1 hidxlen, vecSet_of_lt _ hidx.1 hidxlen]
    obtain ⟨nb1, hf, hl, hspec⟩ := ih (fun o1 h1 => hos o1 (List.mem_cons_of_mem _ h1))
      (nb.set (wrapCoord (i + o.1) W + wrapCoord (j + o.2) H * W).toNat
        ((nb[(wrapCoord (i + o.1) W + wrapCoord (j + o.2) H * W).toNat]?.getD 0 + 1) % 256))
      (by simpa using hlen)
    refine ⟨nb1, by simp [List.foldlM, hstep, hf], by simpa using hl, ?_⟩
    intro k v hk hv hlt
    by_cases hkeq : k = wrapCoord (i + o.1) W + wrapCoord (j + o.2) H * W
    · have hv1 : vecGet (nb.set (wrapCoord (i + o.1) W + wrapCoord (j + o.2) H * W).toNat
          ((nb[(wrapCoord (i + o.1) W + wrapCoord (j + o.2) H * W).toNat]?.getD 0 + 1) % 256)) k
          = some ((v + 1) % 256) := by
        rw [vecGet_set _ hidx.1 hidxlen hk, if_pos hkeq]
        rw [hkeq, vecGet_of_lt hidx.1 hidxlen] at hv
        simp only [Option.some.injEq] at hv
        rw [hv]
      rw [hspec k _ hk hv1 (Nat.mod_lt _ (by norm_num))]
      simp only [List.countP_cons, hkeq, decide_True, if_true]
      congr 1
      omega
    · have hv1 : vecGet (nb.set (wrapCoord (i + o.1) W + wrapCoord (j + o.2) H * W).toNat
          ((nb[(wrapCoord (i + o.1) W + wrapCoord (j + o.2) H * W).toNat]?.getD 0 + 1) % 256)) k
          = some v := by
        rw [vecGet_set _ hidx.1 hidxlen hk, if_neg hkeq, hv]
      rw [hspec k _ hk hv1 hlt]
      have : ¬ (wrapCoord (i + o.1) W + wrapCoord (j + o.2) H * W = k) := fun h => hkeq h.symm
      simp [List.countP_cons, this]

/-! ## The first pass of `update` -/

theorem countP_split {α : Type} (l : List α) (r p q : α → Bool)
    (h : ∀ o ∈ l, (r o = true ↔ (p o = true ∨ q o = true)) ∧ ¬ (p o = true ∧ q o = true)) :
    l.countP r = l.countP p + l.countP q := by
  induction l with
  | nil => rfl
  | cons a l ih =>
    have ha := h a (List.mem_cons_self _ _)
    have ih1 := ih (fun o ho => h o (List.mem_cons_of_mem _ ho))
    simp only [List.countP_cons, ih1]
    cases hr : r a <;> cases hp : p a <;> cases hq : q a <;> simp_all <;> omega

theorem countP_same {α : Type} (l : List α) (p q : α → Bool)
    (h : ∀ o ∈ l, p o = q o) : l.countP p = l.countP q := by
  induction l with
  | nil => rfl
  | cons a l ih =>
    simp only [List.countP_cons, h a (List.mem_cons_self _ _),
      ih (fun o ho => h o (List.mem_cons_of_mem _ ho))]

theorem vecGet_map_zero {v : List Nat} {k : Int} {x : Nat}
    (h : vecGet (v.map fun _ => 0) k = some x) : x = 0 := by
  unfold vecGet at h
  split_ifs at h
  simp only [List.getElem?_map, Option.map_eq_some'] at h
  obtain ⟨_, _, h2⟩ := h
  exact h2.symm

namespace GoL1.CellTable

theorem visited_succ (j i : Nat) (x y : Int) :
    visited j (i + 1) x y = (visited j i x y || decide (x = i ∧ y = j)) := by
  simp only [visited, Bool.decide_or, Bool.decide_and, Nat.cast_add, Nat.cast_one]
  rw [Bool.eq_iff_iff]
  simp only [Bool.or_eq_true, Bool.and_eq_true, decide_eq_true_eq]
  omega

theorem visited_row_end (j : Nat) (W : Nat) (x y : Int) (hx : 0 ≤ x) (hxW : x < W) :
    visited j W x y = visited (j + 1) 0 x y := by
  simp only [visited, Bool.decide_or, Bool.decide_and, Nat.cast_add, Nat.cast_one]
  rw [Bool.eq_iff_iff]
  simp only [Bool.or_eq_true, Bool.and_eq_true, decide_eq_true_eq]
  omega

theorem visited_zero (x y : Int) (hx : 0 ≤ x) (hy : 0 ≤ y) : visited 0 0 x y = false := by
  simp only [visited, decide_eq_false_iff_not]
  simp only [Nat.cast_zero]
  omega

theorem visited_all (H : Nat) (x y : Int) (hy : y < H) : visited H 0 x y = true := by
  simp only [visited, decide_eq_true_eq]
  omega

end GoL1.CellTable

namespace GoL1.CellTable

theorem countedSoFar_le (t : CellTable) (j i : Nat) (x y : Int) :
    countedSoFar t j i x y ≤ 8 := by
  unfold countedSoFar
  exact le_trans (List.countP_le_length _) (by simp [offsets])

theorem isAlive_eq_of_at {t : CellTable} {x y : Int} {c : Nat} (h : t.at_ x y = some c) :
    t.isAlive x y = (c != 0) := by
  simp [isAlive, h]

/-- Invariant of the first pass after rows `< j` and `i` cells of row `j`. -/
theorem countStep_inv (t : CellTable) (hv : t.Valid) (hW : 0 < t.width) (hH : 0 < t.height)
    (j i : Nat) (hj : (j : Int) < t.height) (hi : (i : Int) < t.width) (s : CellTable)
    (hsw : s.width = t.width) (hsh : s.height = t.height) (hsc : s.cells = t.cells)
    (hsl : s.neighbors.length = t.neighbors.length)
    (hsn : ∀ x y : Int, 0 ≤ x → x < t.width → 0 ≤ y → y < t.height →
      vecGet s.neighbors (x + y * t.width) = some (countedSoFar t j i x y)) :
    ∃ s2, countStep (j : Int) (i : Int) s = some s2 ∧ s2.width = t.width ∧
      s2.height = t.height ∧ s2.cells = t.cells ∧
      s2.neighbors.length = t.neighbors.length ∧
      ∀ x y : Int, 0 ≤ x → x < t.width → 0 ≤ y → y < t.height →
        vecGet s2.neighbors (x + y * t.width) = some (countedSoFar t j (i + 1) x y) := by
  have hi0 : (0 : Int) ≤ i := Int.ofNat_nonneg i
  have hj0 : (0 : Int) ≤ j := Int.ofNat_nonneg j
  have hat : t.at_ i j = some (t.cells[((i : Int) + (j : Int) * t.width).toNat]?.getD 0) :=
    at_eq_of_inRange hv hi0 hi hj0 hj
  have hat_s : s.at_ i j = t.at_ i j := by simp [at_, hsw, hsc]
  have halive := isAlive_eq_of_at hat
  -- the source cell of `(x, y)` through `o` is `(i, j)` exactly when `(i, j)` reaches `(x, y)`
  have hsrc : ∀ (x y : Int), 0 ≤ x → x < t.width → 0 ≤ y → y < t.height →
      ∀ o ∈ offsets,
        ((wrapCoord (x - o.1) t.width = i ∧ wrapCoord (y - o.2) t.height = j) ↔
          wrapCoord (i + o.1) t.width + wrapCoord (j + o.2) t.height * t.width
            = x + y * t.width) := by
    intro x y hx hxW hy hyH o ho
    have hr := offsets_range ho
    have h1 := wrapCoord_range hW (v := (i : Int) + o.1) (by omega) (by omega)
    rw [← wrapCoord_shift_iff hi0 hi hx hxW hr.1, ← wrapCoord_shift_iff hj0 hj hy hyH hr.2]
    constructor
    · rintro ⟨ha, hb⟩
      rw [ha, hb]
    · intro h
      exact idx_inj h1.1 h1.2 hx hxW h
  simp only [countStep, hat_s, hat, Option.some_bind]
  by_cases hc : t.cells[((i : Int) + (j : Int) * t.width).toNat]?.getD 0 = 0
  · -- a dead cell: nothing is counted
    refine ⟨s, by simp [hc], hsw, hsh, hsc, hsl, ?_⟩
    intro x y hx hxW hy hyH
    rw [hsn x y hx hxW hy hyH]
    congr 1
    apply countP_same
    intro o _
    rw [visited_succ]
    by_cases hself : wrapCoord (x - o.1) t.width = i ∧ wrapCoord (y - o.2) t.height = j
    · rw [hself.1, hself.2, halive]
      simp [hc]
    · simp [hself]
  · -- a live cell: `fix_neighbors` counts it once per offset
    have hlen : (s.neighbors.length : Int) = s.width * s.height := by
      rw [hsl, hsw, hsh]; exact hv.2.2.2
    obtain ⟨nb1, hfold, hl1, hspec⟩ := bump_fold_spec s.width s.height i j (by omega)
      (by omega) hi0 (by omega) hj0 (by omega) offsets (fun o ho => offsets_range ho)
      s.neighbors hlen
    refine ⟨{ s with neighbors := nb1 }, ?_, hsw, hsh, hsc, by simp [hl1, hsl], ?_⟩
    · simp [hc, fix_neighbors, fixNeighbors, hfold]
    · intro x y hx hxW hy hyH
      have hb := idx_bounds hx hxW hy hyH
      have hold := hsn x y hx hxW hy hyH
      have hle := countedSoFar_le t j i x y
      have hle1 := countedSoFar_le t j (i + 1) x y
      show vecGet nb1 (x + y * t.width) = _
      rw [hspec (x + y * t.width) _ hb.1 hold (by omega), hsw, hsh]
      have hsplit : countedSoFar t j (i + 1) x y = countedSoFar t j i x y +
          offsets.countP (fun o => decide (wrapCoord ((i : Int) + o.1) t.width +
            wrapCoord ((j : Int) + o.2) t.height * t.width = x + y * t.width)) := by
        unfold countedSoFar
        apply countP_split
        intro o ho
        have hiff := hsrc x y hx hxW hy hyH o ho
        rw [visited_succ]
        by_cases hself : wrapCoord (x - o.1) t.width = i ∧ wrapCoord (y - o.2) t.height = j
        · have hq := hiff.mp hself
          rw [hself.1, hself.2, halive]
          simp [hc, hq, visited]
        · have hq : ¬ (wrapCoord ((i : Int) + o.1) t.width +
              wrapCoord ((j : Int) + o.2) t.height * t.width = x + y * t.width) :=
            fun h => hself (hiff.mpr h)
          simp [hself, hq]
      rw [← hsplit, Nat.mod_eq_of_lt (by omega)]

end GoL1.CellTable

namespace GoL1.CellTable

/-- The first pass of `update()` on cleared counters: it has a result, touches only the
counters, and leaves in the counter of every cell the number of offsets through which a
live cell reaches it. -/
theorem countPass_spec (t : CellTable) (hv : t.Valid) (hW : 0 < t.width) (hH : 0 < t.height)
    (hz : ∀ (k : Int) (v : Nat), vecGet t.neighbors k = some v → v = 0) :
    ∃ t1, forLoop t.height.toNat (fun j s => forLoop s.width.toNat (countStep j) s) t
        = some t1 ∧
      t1.width = t.width ∧ t1.height = t.height ∧ t1.cells = t.cells ∧
      t1.neighbors.length = t.neighbors.length ∧
      ∀ x y : Int, 0 ≤ x → x < t.width → 0 ≤ y → y < t.height →
        vecGet t1.neighbors (x + y * t.width)
          = some (countedSoFar t t.height.toNat 0 x y) := by
  have hres := forLoop2_inv t.height.toNat t.width.toNat (fun s => s.width.toNat)
    (fun j i s => countStep j i s)
    (fun j i s => s.width = t.width ∧ s.height = t.height ∧ s.cells = t.cells ∧
      s.neighbors.length = t.neighbors.length ∧
      ∀ x y : Int, 0 ≤ x → x < t.width → 0 ≤ y → y < t.height →
        vecGet s.neighbors (x + y * t.width) = some (countedSoFar t j i x y)) t
    ?_ ?_ ?_ ?_
  · exact hres
  · refine ⟨rfl, rfl, rfl, rfl, ?_⟩
    intro x y hx hxW hy hyH
    have hb := idx_bounds hx hxW hy hyH
    have hlen : x + y * t.width < t.neighbors.length := by
      have := hv.2.2.2
      omega
    have hget := vecGet_of_lt hb.1 hlen
    rw [hget, hz _ _ hget]
    congr 1
    symm
    unfold countedSoFar
    rw [List.countP_eq_zero]
    intro o ho
    have hr := offsets_range ho
    have h1 := wrapCoord_range hW (v := x - o.1) (by omega) (by omega)
    have h2 := wrapCoord_range hH (v := y - o.2) (by omega) (by omega)
    simp [visited_zero _ _ h1.1 h2.1]
  · intro j i s hI
    show s.width.toNat = t.width.toNat
    rw [hI.1]
  · intro j i hj hi s ⟨hsw, hsh, hsc, hsl, hsn⟩
    exact countStep_inv t hv hW hH j i (by omega) (by omega) s hsw hsh hsc hsl hsn
  · intro j _ s ⟨hsw, hsh, hsc, hsl, hsn⟩
    refine ⟨hsw, hsh, hsc, hsl, ?_⟩
    intro x y hx hxW hy hyH
    rw [hsn x y hx hxW hy hyH]
    congr 1
    unfold countedSoFar
    apply countP_same
    intro o ho
    have hr := offsets_range ho
    have h1 := wrapCoord_range hW (v := x - o.1) (by omega) (by omega)
    rw [visited_row_end j t.width.toNat _ _ h1.1 (by omega)]

/-- When the first pass is over, the counter of `(x, y)` is its neighbour count. -/
theorem countedSoFar_final (t : CellTable) (hW : 0 < t.width) (hH : 0 < t.height)
    (x y : Int) (hx : 0 ≤ x) (hxW : x < t.width) (hy : 0 ≤ y) (hyH : y < t.height) :
    countedSoFar t t.height.toNat 0 x y = neighbourCount t x y := by
  have hall : countedSoFar t t.height.toNat 0 x y = offsets.countP fun o =>
      t.isAlive (wrapCoord (x - o.1) t.width) (wrapCoord (y - o.2) t.height) := by
    unfold countedSoFar
    apply countP_same
    intro o ho
    have hr := offsets_range ho
    have h2 := wrapCoord_range hH (v := y - o.2) (by omega) (by omega)
    rw [visited_all _ _ _ (by omega)]
    simp
  have eA : wrapCoord (x - -1) t.width = (x + 1) % t.width := by
    rw [wrapCoord_eq_emod hW (by omega) (by omega)]; congr 1
  have eB : wrapCoord (x - 0) t.width = (x + 0) % t.width := by
    rw [wrapCoord_eq_emod hW (by omega) (by omega)]; congr 1
  have eC : wrapCoord (x - 1) t.width = (x + -1) % t.width := by
    rw [wrapCoord_eq_emod hW (by omega) (by omega)]; congr 1
  have fA : wrapCoord (y - -1) t.height = (y + 1) % t.height := by
    rw [wrapCoord_eq_emod hH (by omega) (by omega)]; congr 1
  have fB : wrapCoord (y - 0) t.height = (y + 0) % t.height := by
    rw [wrapCoord_eq_emod hH (by omega) (by omega)]; congr 1
  have fC : wrapCoord (y - 1) t.height = (y + -1) % t.height := by
    rw [wrapCoord_eq_emod hH (by omega) (by omega)]; congr 1
  rw [hall]
  simp only [neighbourCount, offsets, List.countP_cons, List.countP_nil, List.map_cons,
    List.map_nil, List.sum_cons, List.sum_nil, eA, eB, eC, fA, fB, fC]
  omega

end GoL1.CellTable

/-! ## The second pass of `update` -/

theorem idx_decomp {W H k : Int} (hW : 0 < W) (hk : 0 ≤ k) (hkl : k < W * H) :
    (0 ≤ k % W ∧ k % W < W) ∧ (0 ≤ k / W ∧ k / W < H) ∧ k % W + k / W * W = k := by
  refine ⟨⟨Int.emod_nonneg _ hW.ne', Int.emod_lt_of_pos _ hW⟩,
    ⟨Int.ediv_nonneg hk hW.le, Int.ediv_lt_of_lt_mul hW (by linarith)⟩, ?_⟩
  have := Int.emod_add_ediv k W
  linarith

namespace GoL1.CellTable

theorem ruleValue_ne_zero (c n : Nat) : (ruleValue c n != 0) = rule (c != 0) n := by
  unfold ruleValue rule lnot
  by_cases hc : c = 0
  · by_cases hn : n = 3 <;> simp [hc, hn]
  · by_cases h2 : n = 2
    · simp [hc, h2]
    · by_cases h3 : n = 3
      · simp [hc, h3]
      · have : n < 2 ∨ n > 3 := by omega
        simp [hc, h2, h3, this]

theorem ruleValue_le_one {c : Nat} (n : Nat) (hc : c ≤ 1) : ruleValue c n ≤ 1 := by
  unfold ruleValue lnot
  split_ifs <;> omega

theorem ruleStep_eq (s : CellTable) (i j : Int) (h0 : 0 ≤ i + j * s.width)
    (hlc : i + j * s.width < s.cells.length) (hln : i + j * s.width < s.neighbors.length) :
    ruleStep j i s = some { s with
      cells := s.cells.set (i + j * s.width).toNat
        (ruleValue (s.cells[(i + j * s.width).toNat]?.getD 0)
          (s.neighbors[(i + j * s.width).toNat]?.getD 0)) } := by
  have hk : (i + j * s.width).toNat < s.cells.length := by omega
  have hself : s = { s with
      cells := s.cells.set (i + j * s.width).toNat
        (s.cells[(i + j * s.width).toNat]?.getD 0) } := by
    cases s with
    | mk w h cells nb =>
      simp only [CellTable.mk.injEq, true_and, and_true] at hk ⊢
      simp only [List.getElem?_eq_getElem hk, Option.getD_some]
      exact (list_set_getElem_same cells _ hk).symm
  simp only [ruleStep, vecGet_of_lt h0 hlc, vecGet_of_lt h0 hln, Option.some_bind,
    toggle_eq_of_index h0 hlc, ruleValue]
  split_ifs <;> first | rfl | exact congrArg some hself

/-- Invariant of the second pass: the cells already visited hold their new value, the
others still hold their old value, and the counters are not touched. -/
theorem rulePass_spec (t : CellTable) (hv : t.Valid) :
    ∃ t2, forLoop t.height.toNat (fun j s => forLoop s.width.toNat (ruleStep j) s) t
        = some t2 ∧
      t2.width = t.width ∧ t2.height = t.height ∧ t2.neighbors = t.neighbors ∧
      t2.cells.length = t.cells.length ∧
      ∀ x y : Int, 0 ≤ x → x < t.width → 0 ≤ y → y < t.height →
        vecGet t2.cells (x + y * t.width)
          = some (ruleValue (t.cells[(x + y * t.width).toNat]?.getD 0)
              (t.neighbors[(x + y * t.width).toNat]?.getD 0)) := by
  obtain ⟨hw0, hh0, hlc, hln⟩ := hv
  have hres := forLoop2_inv t.height.toNat t.width.toNat (fun s => s.width.toNat)
    (fun j i s => ruleStep j i s)
    (fun j i s => s.width = t.width ∧ s.height = t.height ∧ s.neighbors = t.neighbors ∧
      s.cells.length = t.cells.length ∧
      ∀ x y : Int, 0 ≤ x → x < t.width → 0 ≤ y → y < t.height →
        vecGet s.cells (x + y * t.width)
          = some (if visited j i x y then
              ruleValue (t.cells[(x + y * t.width).toNat]?.getD 0)
                (t.neighbors[(x + y * t.width).toNat]?.getD 0)
            else t.cells[(x + y * t.width).toNat]?.getD 0)) t
    ?_ ?_ ?_ ?_
  · obtain ⟨t2, h2, hw, hh, hn, hl, hcells⟩ := hres
    refine ⟨t2, h2, hw, hh, hn, hl, ?_⟩
    intro x y hx hxW hy hyH
    rw [hcells x y hx hxW hy hyH, visited_all _ _ _ (by omega)]
    simp
  · refine ⟨rfl, rfl, rfl, rfl, ?_⟩
    intro x y hx hxW hy hyH
    have hb := idx_bounds hx hxW hy hyH
    rw [visited_zero _ _ hx hy, vecGet_of_lt hb.1 (by omega)]
    simp
  · intro j i s hI
    show s.width.toNat = t.width.toNat
    rw [hI.1]
  · intro j i hj hi s ⟨hsw, hsh, hsn, hsl, hsc⟩
    have hi0 : (0 : Int) ≤ i := Int.ofNat_nonneg i
    have hj0 : (0 : Int) ≤ j := Int.ofNat_nonneg j
    have hiW : (i : Int) < t.width := by omega
    have hjH : (j : Int) < t.height := by omega
    have hb := idx_bounds hi0 hiW hj0 hjH
    have hb0 : 0 ≤ (i : Int) + (j : Int) * s.width := by rw [hsw]; exact hb.1
    have hbc : (i : Int) + (j : Int) * s.width < s.cells.length := by rw [hsw, hsl]; omega
    have hbn : (i : Int) + (j : Int) * s.width < s.neighbors.length := by rw [hsw, hsn]; omega
    refine ⟨_, ruleStep_eq s i j hb0 hbc hbn, hsw, hsh, hsn, by simp [hsl], ?_⟩
    intro x y hx hxW hy hyH
    have hbx := idx_bounds hx hxW hy hyH
    have hself := hsc i j hi0 hiW hj0 hjH
    have hns : visited j i (i : Int) (j : Int) = false := by
      simp [visited]
    rw [hns, ← hsw, vecGet_of_lt hb0 hbc] at hself
    simp only [Bool.false_eq_true, if_false, Option.some.injEq, hsw] at hself
    show vecGet (s.cells.set _ _) (x + y * t.width) = _
    rw [vecGet_set _ hb0 hbc hbx.1, visited_succ, hsw, hsn, hself]
    by_cases hxy : x + y * t.width = (i : Int) + (j : Int) * t.width
    · have := idx_inj hx hxW hi0 hiW hxy
      rw [if_pos hxy, hxy]
      simp [this.1, this.2]
    · have hne : ¬ (x = (i : Int) ∧ y = (j : Int)) := by
        rintro ⟨h1, h2⟩
        exact hxy (by rw [h1, h2])
      rw [if_neg hxy, hsc x y hx hxW hy hyH]
      simp [hne]
  · intro j _ s ⟨hsw, hsh, hsn, hsl, hsc⟩
    refine ⟨hsw, hsh, hsn, hsl, ?_⟩
    intro x y hx hxW hy hyH
    rw [hsc x y hx hxW hy hyH, visited_row_end j t.width.toNat _ _ hx (by omega)]

end GoL1.CellTable

/-! ## `update` -/

namespace GoL1.CellTable

/-- The full `update()`: it has a result of the same shape, every cell holds the value
the rule gives for its old value and its neighbour count in the old grid, and every
counter holds that neighbour count. -/
theorem update_spec (t : CellTable) (hv : t.Valid) (hW : 0 < t.width) (hH : 0 < t.height) :
    ∃ t2, t.update = some t2 ∧ t2.width = t.width ∧ t2.height = t.height ∧
      t2.cells.length = t.cells.length ∧ t2.neighbors.length = t.neighbors.length ∧
      ∀ x y : Int, 0 ≤ x → x < t.width → 0 ≤ y → y < t.height →
        t2.at_ x y = some (ruleValue (t.cells[(x + y * t.width).toNat]?.getD 0)
          (neighbourCount t x y)) ∧
        vecGet t2.neighbors (x + y * t.width) = some (neighbourCount t x y) := by
  obtain ⟨hw0, hh0, hlc, hln⟩ := hv
  have hv0 : Valid { t with neighbors := t.neighbors.map fun _ => 0 } :=
    ⟨hw0, hh0, hlc, by simpa using hln⟩
  obtain ⟨t1, h1, hw1, hh1, hc1, hl1, hn1⟩ :=
    countPass_spec { t with neighbors := t.neighbors.map fun _ => 0 } hv0 hW hH
      (fun k v h => vecGet_map_zero h)
  simp only [List.length_map] at hw1 hh1 hc1 hl1 hn1
  have hv1 : Valid t1 := by
    refine ⟨by rw [hw1]; exact hw0, by rw [hh1]; exact hh0, ?_, ?_⟩
    · rw [hc1, hw1, hh1]; exact hlc
    · rw [hl1, hw1, hh1]; exact hln
  obtain ⟨t2, h2, hw2, hh2, hnb2, hl2, hc2⟩ := rulePass_spec t1 hv1
  refine ⟨t2, ?_, by rw [hw2, hw1], by rw [hh2, hh1], by rw [hl2, hc1],
    by rw [hnb2, hl1], ?_⟩
  · simp only [update, h1, Option.some_bind, h2]
  · intro x y hx hxW hy hyH
    have hb := idx_bounds hx hxW hy hyH
    have hcnt : vecGet t1.neighbors (x + y * t.width) = some (neighbourCount t x y) := by
      rw [hn1 x y hx hxW hy hyH]
      exact congrArg some (countedSoFar_final
        { t with neighbors := t.neighbors.map fun _ => 0 } hW hH x y hx hxW hy hyH)
    have hget : t1.neighbors[(x + y * t.width).toNat]?.getD 0 = neighbourCount t x y := by
      have h := vecGet_of_lt (v := t1.neighbors) hb.1 (by rw [hl1]; omega)
      rw [hcnt] at h
      exact (Option.some.inj h).symm
    constructor
    · have h := hc2 x y hx (by rw [hw1]; exact hxW) hy (by rw [hh1]; exact hyH)
      rw [hw1, hc1, hget] at h
      simpa [at_, hw2, hw1] using h
    · rw [hnb2]; exact hcnt

/-- The new alive state of every cell is the rule applied to its old alive state and
its neighbour count in the old grid; shape and class invariant are kept. -/
theorem update_alive (t : CellTable) (hv : t.Valid) (hW : 0 < t.width) (hH : 0 < t.height) :
    ∃ t2, t.update = some t2 ∧ t2.width = t.width ∧ t2.height = t.height ∧ t2.Valid ∧
      (t.Binary → t2.Binary) ∧
      ∀ x y : Int, 0 ≤ x → x < t.width → 0 ≤ y → y < t.height →
        t2.isAlive x y = rule (t.isAlive x y) (neighbourCount t x y) := by
  obtain ⟨t2, h2, hw2, hh2, hlc2, hln2, hspec⟩ := update_spec t hv hW hH
  have hv2 : t2.Valid := by
    obtain ⟨hw0, hh0, hlc, hln⟩ := hv
    exact ⟨by rw [hw2]; exact hw0, by rw [hh2]; exact hh0, by rw [hlc2, hw2, hh2]; exact hlc,
      by rw [hln2, hw2, hh2]; exact hln⟩
  refine ⟨t2, h2, hw2, hh2, hv2, ?_, ?_⟩
  · intro hb c hc
    obtain ⟨k, hk, rfl⟩ := List.getElem_of_mem hc
    have hkl : (k : Int) < t.width * t.height := by
      have := hv.2.2.1
      omega
    obtain ⟨hx, hy, hxy⟩ := idx_decomp hW (Int.ofNat_nonneg k) hkl
    have h := (hspec _ _ hx.1 hx.2 hy.1 hy.2).1
    simp only [at_, hw2, hxy, vecGet, Int.ofNat_nonneg, if_true, Int.toNat_ofNat,
      List.getElem?_eq_getElem hk, Option.some.injEq] at h
    rw [h]
    apply ruleValue_le_one
    have hkt : k < t.cells.length := by omega
    rw [List.getElem?_eq_getElem hkt, Option.getD_some]
    exact hb _ (List.getElem_mem hkt)
  · intro x y hx hxW hy hyH
    rw [isAlive_eq_of_at (hspec x y hx hxW hy hyH).1,
      isAlive_eq_of_at (at_eq_of_inRange hv hx hxW hy hyH), ruleValue_ne_zero]

/-- C1: on every valid grid with `W, H ≥ 1`, `update()` has a result of the same
dimensions in which each cell `(x, y)` is alive iff it was alive with 2 or 3 live
neighbours or dead with exactly 3, the neighbour count being the sum over the eight
offsets of the old alive state of `((x + dx) mod W, (y + dy) mod H)`: the in-place
two-pass update is the simultaneous rule on the old grid. -/
theorem update_is_simultaneous_rule (t : CellTable) (hv : t.Valid) (hW : 1 ≤ t.width)
    (hH : 1 ≤ t.height) :
    ∃ t2, t.update = some t2 ∧ t2.width = t.width ∧ t2.height = t.height ∧
      ∀ x y : Int, 0 ≤ x → x < t.width → 0 ≤ y → y < t.height →
        (t2.isAlive x y = true ↔
          (t.isAlive x y = true ∧ (neighbourCount t x y = 2 ∨ neighbourCount t x y = 3)) ∨
          (t.isAlive x y = false ∧ neighbourCount t x y = 3)) := by
  obtain ⟨t2, h2, hw2, hh2, _, _, hrule⟩ := update_alive t hv (by omega) (by omega)
  refine ⟨t2, h2, hw2, hh2, ?_⟩
  intro x y hx hxW hy hyH
  rw [hrule x y hx hxW hy hyH]
  cases t.isAlive x y <;> simp [rule]

theorem update_is_simultaneous_rule_witness :
    ∃ t2, CellTable.update ⟨3, 3, [0, 1, 0, 0, 1, 0, 0, 1, 0], [5, 5, 5, 5, 5, 5, 5, 5, 5]⟩
        = some t2 ∧ t2.width = 3 ∧ t2.height = 3 ∧
      ∀ x y : Int, 0 ≤ x → x < 3 → 0 ≤ y → y < 3 →
        (t2.isAlive x y = true ↔
          (CellTable.isAlive ⟨3, 3, [0, 1, 0, 0, 1, 0, 0, 1, 0], [5, 5, 5, 5, 5, 5, 5, 5, 5]⟩
              x y = true ∧
            (neighbourCount ⟨3, 3, [0, 1, 0, 0, 1, 0, 0, 1, 0], [5, 5, 5, 5, 5, 5, 5, 5, 5]⟩
                x y = 2 ∨
              neighbourCount ⟨3, 3, [0, 1, 0, 0, 1, 0, 0, 1, 0], [5, 5, 5, 5, 5, 5, 5, 5, 5]⟩
                x y = 3)) ∨
          (CellTable.isAlive ⟨3, 3, [0, 1, 0, 0, 1, 0, 0, 1, 0], [5, 5, 5, 5, 5, 5, 5, 5, 5]⟩
              x y = false ∧
            neighbourCount ⟨3, 3, [0, 1, 0, 0, 1, 0, 0, 1, 0], [5, 5, 5, 5, 5, 5, 5, 5, 5]⟩
              x y = 3)) :=
  update_is_simultaneous_rule ⟨3, 3, [0, 1, 0, 0, 1, 0, 0, 1, 0], [5, 5, 5, 5, 5, 5, 5, 5, 5]⟩
    (by decide) (by decide) (by decide)

end GoL1.CellTable

/-! ## Patterns -/

theorem wrapCoord_cases (v W : Int) :
    (v < 0 ∧ v + W ≥ W ∧ wrapCoord v W = v) ∨ (v < 0 ∧ v + W < W ∧ wrapCoord v W = v + W) ∨
      (0 ≤ v ∧ v ≥ W ∧ wrapCoord v W = v - W) ∨ (0 ≤ v ∧ v < W ∧ wrapCoord v W = v) := by
  simp only [wrapCoord]
  split_ifs <;> omega

namespace GoL1.CellTable

theorem neighbourCount_eq_patternCount (t : CellTable) (hW : 0 < t.width)
    (hH : 0 < t.height) (p : Int → Int → Bool)
    (hp : ∀ x y : Int, 0 ≤ x → x < t.width → 0 ≤ y → y < t.height → t.isAlive x y = p x y)
    (x y : Int) (hx : 0 ≤ x) (hxW : x < t.width) (hy : 0 ≤ y) (hyH : y < t.height) :
    neighbourCount t x y = patternCount p t.width t.height x y := by
  unfold neighbourCount patternCount
  congr 1
  apply List.map_congr_left
  intro o ho
  have hr := offsets_range ho
  have h1 := wrapCoord_range hW (v := x + o.1) (by omega) (by omega)
  have h2 := wrapCoord_range hH (v := y + o.2) (by omega) (by omega)
  rw [← wrapCoord_eq_emod hW (v := x + o.1) (by omega) (by omega),
    ← wrapCoord_eq_emod hH (v := y + o.2) (by omega) (by omega),
    hp _ _ h1.1 h1.2 h2.1 h2.2]

/-- One generation of a grid described by a predicate: when the live cells of `t` are
those of `p` and the rule maps `p` to `q`, the live cells after `update()` are those of
`q`. -/
theorem update_pattern (t : CellTable) (hv : t.Valid) (hW : 0 < t.width) (hH : 0 < t.height)
    (p q : Int → Int → Bool)
    (hp : ∀ x y : Int, 0 ≤ x → x < t.width → 0 ≤ y → y < t.height → t.isAlive x y = p x y)
    (hq : ∀ x y : Int, 0 ≤ x → x < t.width → 0 ≤ y → y < t.height →
      rule (p x y) (patternCount p t.width t.height x y) = q x y) :
    ∃ t2, t.update = some t2 ∧ t2.width = t.width ∧ t2.height = t.height ∧ t2.Valid ∧
      ∀ x y : Int, 0 ≤ x → x < t.width → 0 ≤ y → y < t.height → t2.isAlive x y = q x y := by
  obtain ⟨t2, h2, hw2, hh2, hv2, _, hrule⟩ := update_alive t hv hW hH
  refine ⟨t2, h2, hw2, hh2, hv2, ?_⟩
  intro x y hx hxW hy hyH
  rw [hrule x y hx hxW hy hyH, hp x y hx hxW hy hyH,
    neighbourCount_eq_patternCount t hW hH p hp x y hx hxW hy hyH, hq x y hx hxW hy hyH]

/-- A grid that keeps its live cells in one generation keeps them in every generation. -/
theorem updateN_still (p : Int → Int → Bool) (W H : Int) (hW : 0 < W) (hH : 0 < H)
    (hq : ∀ x y : Int, 0 ≤ x → x < W → 0 ≤ y → y < H →
      rule (p x y) (patternCount p W H x y) = p x y) (n : Nat) :
    ∀ t : CellTable, t.Valid → t.width = W → t.height = H →
      (∀ x y : Int, 0 ≤ x → x < W → 0 ≤ y → y < H → t.isAlive x y = p x y) →
      ∃ t2, updateN n t = some t2 ∧ t2.width = W ∧ t2.height = H ∧ t2.Valid ∧
        ∀ x y : Int, 0 ≤ x → x < W → 0 ≤ y → y < H → t2.isAlive x y = p x y := by
  induction n with
  | zero =>
    intro t hv hw hh hp
    exact ⟨t, rfl, hw, hh, hv, hp⟩
  | succ n ih =>
    intro t hv hw hh hp
    obtain ⟨t1, h1, hw1, hh1, hv1, hp1⟩ := ih t hv hw hh hp
    obtain ⟨t2, h2, hw2, hh2, hv2, hp2⟩ := update_pattern t1 hv1 (by omega) (by omega) p p
      (by rw [hw1, hh1]; exact hp1) (by rw [hw1, hh1]; exact hq)
    refine ⟨t2, by simp [updateN, h1, h2], by omega, by omega, hv2, ?_⟩
    rw [hw1, hh1] at hp2
    exact hp2

theorem clear_valid (t : CellTable) (hv : t.Valid) : t.clear.Valid := by
  obtain ⟨hw0, hh0, hlc, hln⟩ := hv
  exact ⟨hw0, hh0, by simpa [clear] using hlc, hln⟩

theorem clear_dead (t : CellTable) (x y : Int) : t.clear.isAlive x y = false := by
  simp only [isAlive, at_, clear, vecGet]
  split_ifs with h
  · cases hg : (List.map (fun _ => 0) t.cells)[(x + y * t.width).toNat]? with
    | none => rfl
    | some c =>
      simp only [List.getElem?_map, Option.map_eq_some'] at hg
      obtain ⟨_, _, hc⟩ := hg
      simp [← hc]
  · rfl

/-- C5: after `clear()`, every number `n` of `update()` calls has a result, and in it
every cell of the grid is dead. -/
theorem clear_then_updates_all_dead (t : CellTable) (hv : t.Valid) (hW : 1 ≤ t.width)
    (hH : 1 ≤ t.height) (n : Nat) :
    ∃ t2, updateN n t.clear = some t2 ∧ t2.width = t.width ∧ t2.height = t.height ∧
      ∀ x y : Int, 0 ≤ x → x < t.width → 0 ≤ y → y < t.height → t2.isAlive x y = false := by
  obtain ⟨t2, h2, hw2, hh2, _, hdead⟩ :=
    updateN_still (fun _ _ => false) t.width t.height (by omega) (by omega)
      (fun x y _ _ _ _ => by simp [rule, patternCount]) n t.clear (clear_valid t hv) rfl rfl
      (fun x y _ _ _ _ => clear_dead t x y)
  exact ⟨t2, h2, hw2, hh2, hdead⟩

theorem clear_then_updates_all_dead_witness :
    ∃ t2, updateN 3 (CellTable.clear ⟨2, 2, [1, 1, 0, 1], [3, 3, 3, 3]⟩) = some t2 ∧
      t2.width = 2 ∧ t2.height = 2 ∧
      ∀ x y : Int, 0 ≤ x → x < 2 → 0 ≤ y → y < 2 → t2.isAlive x y = false :=
  clear_then_updates_all_dead ⟨2, 2, [1, 1, 0, 1], [3, 3, 3, 3]⟩ (by decide) (by decide)
    (by decide) 3

end GoL1.CellTable

namespace GoL1.CellTable

/-- For a product pattern the rule only looks at the memberships of the three wrapped
columns and of the three wrapped rows. -/
theorem rule_product (A B : Int → Bool) (W H x y : Int) (hx : 0 ≤ x) (hxW : x < W)
    (hy : 0 ≤ y) (hyH : y < H) (a1 a2 a3 b1 b2 b3 : Bool)
    (h1 : A (wrapCoord (x + -1) W) = a1) (h2 : A x = a2) (h3 : A (wrapCoord (x + 1) W) = a3)
    (k1 : B (wrapCoord (y + -1) H) = b1) (k2 : B y = b2) (k3 : B (wrapCoord (y + 1) H) = b3) :
    rule (A x && B y) (patternCount (fun u v => A u && B v) W H x y) =
      rule (a2 && b2) ((if a1 && b1 then 1 else 0) + ((if a2 && b1 then 1 else 0) +
        ((if a3 && b1 then 1 else 0) + ((if a1 && b2 then 1 else 0) +
        ((if a3 && b2 then 1 else 0) + ((if a1 && b3 then 1 else 0) +
        ((if a2 && b3 then 1 else 0) + ((if a3 && b3 then 1 else 0) + 0)))))))) := by
  have a0 : wrapCoord (x + 0) W = x := by
    have := wrapCoord_cases (x + 0) W; omega
  have b0 : wrapCoord (y + 0) H = y := by
    have := wrapCoord_cases (y + 0) H; omega
  simp only [patternCount, offsets, List.map_cons, List.map_nil, List.sum_cons, List.sum_nil,
    a0, b0, h1, h2, h3, k1, k2, k3]

/-- Which of the three wrapped coordinates around `x` equal `2`, on an axis of length at
least 5. -/
theorem point2_combos (N x : Int) (hN : 5 ≤ N) (hx : 0 ≤ x) (hxN : x < N) :
    ∃ a1 a2 a3 c : Bool,
      decide (wrapCoord (x + -1) N = 2) = a1 ∧ decide (x = 2) = a2 ∧
      decide (wrapCoord (x + 1) N = 2) = a3 ∧ decide (1 ≤ x ∧ x ≤ 3) = c ∧
      ((a1, a2, a3, c) = (false, false, true, true) ∨
       (a1, a2, a3, c) = (false, true, false, true) ∨
       (a1, a2, a3, c) = (true, false, false, true) ∨
       (a1, a2, a3, c) = (false, false, false, false)) := by
  have xm := wrapCoord_cases (x + -1) N
  have xp := wrapCoord_cases (x + 1) N
  refine ⟨_, _, _, _, rfl, rfl, rfl, rfl, ?_⟩
  simp only [Prod.mk.injEq, decide_eq_true_eq, decide_eq_false_iff_not]
  have hc : x = 1 ∨ x = 2 ∨ x = 3 ∨ (x ≠ 1 ∧ x ≠ 2 ∧ x ≠ 3) := by omega
  rcases hc with h | h | h | h
  · refine Or.inl ⟨?_, ?_, ?_, ?_⟩ <;> omega
  · refine Or.inr (Or.inl ⟨?_, ?_, ?_, ?_⟩) <;> omega
  · refine Or.inr (Or.inr (Or.inl ⟨?_, ?_, ?_, ?_⟩)) <;> omega
  · refine Or.inr (Or.inr (Or.inr ⟨?_, ?_, ?_, ?_⟩)) <;> omega

/-- Which of the three wrapped coordinates around `y` lie in `1 .. 3`, on an axis of
length at least 5. -/
theorem band13_combos (N y : Int) (hN : 5 ≤ N) (hy : 0 ≤ y) (hyN : y < N) :
    ∃ b1 b2 b3 d : Bool,
      decide (1 ≤ wrapCoord (y + -1) N ∧ wrapCoord (y + -1) N ≤ 3) = b1 ∧
      decide (1 ≤ y ∧ y ≤ 3) = b2 ∧
      decide (1 ≤ wrapCoord (y + 1) N ∧ wrapCoord (y + 1) N ≤ 3) = b3 ∧
      decide (y = 2) = d ∧
      ((b1, b2, b3, d) = (false, false, true, false) ∨
       (b1, b2, b3, d) = (false, true, true, false) ∨
       (b1, b2, b3, d) = (true, true, true, true) ∨
       (b1, b2, b3, d) = (true, true, false, false) ∨
       (b1, b2, b3, d) = (true, false, false, false) ∨
       (b1, b2, b3, d) = (false, false, false, false)) := by
  have ym := wrapCoord_cases (y + -1) N
  have yp := wrapCoord_cases (y + 1) N
  refine ⟨_, _, _, _, rfl, rfl, rfl, rfl, ?_⟩
  simp only [Prod.mk.injEq, decide_eq_true_eq, decide_eq_false_iff_not]
  have hc : y = 0 ∨ y = 1 ∨ y = 2 ∨ y = 3 ∨ y = 4 ∨ 5 ≤ y := by omega
  rcases hc with h | h | h | h | h | h
  · refine Or.inl ⟨?_, ?_, ?_, ?_⟩ <;> omega
  · refine Or.inr (Or.inl ⟨?_, ?_, ?_, ?_⟩) <;> omega
  · refine Or.inr (Or.inr (Or.inl ⟨?_, ?_, ?_, ?_⟩)) <;> omega
  · refine Or.inr (Or.inr (Or.inr (Or.inl ⟨?_, ?_, ?_, ?_⟩))) <;> omega
  · refine Or.inr (Or.inr (Or.inr (Or.inr (Or.inl ⟨?_, ?_, ?_, ?_⟩)))) <;> omega
  · refine Or.inr (Or.inr (Or.inr (Or.inr (Or.inr ⟨?_, ?_, ?_, ?_⟩)))) <;> omega

/-- Which of the three wrapped coordinates around `x` equal `a`, on an axis of length at
least 3. -/
theorem point_combos (N a x : Int) (hN : 3 ≤ N) (ha : 0 ≤ a) (hx : 0 ≤ x) (hxN : x < N) :
    ∃ a1 a2 a3 : Bool,
      decide (wrapCoord (x + -1) N = a) = a1 ∧ decide (x = a) = a2 ∧
      decide (wrapCoord (x + 1) N = a) = a3 ∧
      ((a1, a2, a3) = (true, false, false) ∨ (a1, a2, a3) = (false, true, false) ∨
       (a1, a2, a3) = (false, false, true) ∨ (a1, a2, a3) = (false, false, false)) := by
  have xm := wrapCoord_cases (x + -1) N
  have xp := wrapCoord_cases (x + 1) N
  refine ⟨_, _, _, rfl, rfl, rfl, ?_⟩
  simp only [Prod.mk.injEq, decide_eq_true_eq, decide_eq_false_iff_not]
  have hc : wrapCoord (x + -1) N = a ∨ x = a ∨ wrapCoord (x + 1) N = a ∨
      (wrapCoord (x + -1) N ≠ a ∧ x ≠ a ∧ wrapCoord (x + 1) N ≠ a) := by omega
  rcases hc with h | h | h | h
  · refine Or.inl ⟨?_, ?_, ?_⟩ <;> omega
  · refine Or.inr (Or.inl ⟨?_, ?_, ?_⟩) <;> omega
  · refine Or.inr (Or.inr (Or.inl ⟨?_, ?_, ?_⟩)) <;> omega
  · refine Or.inr (Or.inr (Or.inr ⟨?_, ?_, ?_⟩)) <;> omega

/-- Which of the three wrapped coordinates around `x` are `0` or `1`, on an axis of
length at least 4. -/
theorem low2_combos (N x : Int) (hN : 4 ≤ N) (hx : 0 ≤ x) (hxN : x < N) :
    ∃ a1 a2 a3 : Bool,
      decide (wrapCoord (x + -1) N ≤ 1) = a1 ∧ decide (x ≤ 1) = a2 ∧
      decide (wrapCoord (x + 1) N ≤ 1) = a3 ∧
      ((a1, a2, a3) = (false, true, true) ∨ (a1, a2, a3) = (true, true, false) ∨
       (a1, a2, a3) = (true, false, false) ∨ (a1, a2, a3) = (false, false, true) ∨
       (a1, a2, a3) = (false, false, false)) := by
  have xm := wrapCoord_cases (x + -1) N
  have xp := wrapCoord_cases (x + 1) N
  refine ⟨_, _, _, rfl, rfl, rfl, ?_⟩
  simp only [Prod.mk.injEq, decide_eq_true_eq, decide_eq_false_iff_not]
  have hc : x = 0 ∨ x = 1 ∨ x = 2 ∨ x = N - 1 ∨ (3 ≤ x ∧ x < N - 1) := by omega
  rcases hc with h | h | h | h | h
  · refine Or.inl ⟨?_, ?_, ?_⟩ <;> omega
  · refine Or.inr (Or.inl ⟨?_, ?_, ?_⟩) <;> omega
  · refine Or.inr (Or.inr (Or.inl ⟨?_, ?_, ?_⟩)) <;> omega
  · refine Or.inr (Or.inr (Or.inr (Or.inl ⟨?_, ?_, ?_⟩))) <;> omega
  · refine Or.inr (Or.inr (Or.inr (Or.inr ⟨?_, ?_, ?_⟩))) <;> omega

end GoL1.CellTable

namespace GoL1.CellTable

theorem blinker_vertical_step (W H x y : Int) (hW : 5 ≤ W) (hH : 5 ≤ H) (hx : 0 ≤ x)
    (hxW : x < W) (hy : 0 ≤ y) (hyH : y < H) :
    rule (decide (x = 2) && decide (1 ≤ y ∧ y ≤ 3))
        (patternCount (fun u v => decide (u = 2) && decide (1 ≤ v ∧ v ≤ 3)) W H x y)
      = (decide (1 ≤ x ∧ x ≤ 3) && decide (y = 2)) := by
  obtain ⟨a1, a2, a3, c, h1, h2, h3, hc, hxs⟩ := point2_combos W x hW hx hxW
  obtain ⟨b1, b2, b3, d, k1, k2, k3, hd, hys⟩ := band13_combos H y hH hy hyH
  rw [rule_product (fun u => decide (u = 2)) (fun v => decide (1 ≤ v ∧ v ≤ 3)) W H x y hx hxW
    hy hyH a1 a2 a3 b1 b2 b3 h1 h2 h3 k1 k2 k3, hc, hd]
  simp only [Prod.mk.injEq] at hxs hys
  rcases hxs with ⟨rfl, rfl, rfl, rfl⟩ | ⟨rfl, rfl, rfl, rfl⟩ | ⟨rfl, rfl, rfl, rfl⟩ |
      ⟨rfl, rfl, rfl, rfl⟩ <;>
    rcases hys with ⟨rfl, rfl, rfl, rfl⟩ | ⟨rfl, rfl, rfl, rfl⟩ | ⟨rfl, rfl, rfl, rfl⟩ |
      ⟨rfl, rfl, rfl, rfl⟩ | ⟨rfl, rfl, rfl, rfl⟩ | ⟨rfl, rfl, rfl, rfl⟩ <;>
    rfl

theorem blinker_horizontal_step (W H x y : Int) (hW : 5 ≤ W) (hH : 5 ≤ H) (hx : 0 ≤ x)
    (hxW : x < W) (hy : 0 ≤ y) (hyH : y < H) :
    rule (decide (1 ≤ x ∧ x ≤ 3) && decide (y = 2))
        (patternCount (fun u v => decide (1 ≤ u ∧ u ≤ 3) && decide (v = 2)) W H x y)
      = (decide (x = 2) && decide (1 ≤ y ∧ y ≤ 3)) := by
  obtain ⟨a1, a2, a3, c, h1, h2, h3, hc, hxs⟩ := band13_combos W x hW hx hxW
  obtain ⟨b1, b2, b3, d, k1, k2, k3, hd, hys⟩ := point2_combos H y hH hy hyH
  rw [rule_product (fun u => decide (1 ≤ u ∧ u ≤ 3)) (fun v => decide (v = 2)) W H x y hx hxW
    hy hyH a1 a2 a3 b1 b2 b3 h1 h2 h3 k1 k2 k3, hc, hd]
  simp only [Prod.mk.injEq] at hxs hys
  rcases hxs with ⟨rfl, rfl, rfl, rfl⟩ | ⟨rfl, rfl, rfl, rfl⟩ | ⟨rfl, rfl, rfl, rfl⟩ |
      ⟨rfl, rfl, rfl, rfl⟩ | ⟨rfl, rfl, rfl, rfl⟩ | ⟨rfl, rfl, rfl, rfl⟩ <;>
    rcases hys with ⟨rfl, rfl, rfl, rfl⟩ | ⟨rfl, rfl, rfl, rfl⟩ | ⟨rfl, rfl, rfl, rfl⟩ |
      ⟨rfl, rfl, rfl, rfl⟩ <;>
    rfl

theorem block_step (W H x y : Int) (hW : 4 ≤ W) (hH : 4 ≤ H) (hx : 0 ≤ x)
    (hxW : x < W) (hy : 0 ≤ y) (hyH : y < H) :
    rule (decide (x ≤ 1) && decide (y ≤ 1))
        (patternCount (fun u v => decide (u ≤ 1) && decide (v ≤ 1)) W H x y)
      = (decide (x ≤ 1) && decide (y ≤ 1)) := by
  obtain ⟨a1, a2, a3, h1, h2, h3, hxs⟩ := low2_combos W x hW hx hxW
  obtain ⟨b1, b2, b3, k1, k2, k3, hys⟩ := low2_combos H y hH hy hyH
  rw [rule_product (fun u => decide (u ≤ 1)) (fun v => decide (v ≤ 1)) W H x y hx hxW
    hy hyH a1 a2 a3 b1 b2 b3 h1 h2 h3 k1 k2 k3, h2, k2]
  simp only [Prod.mk.injEq] at hxs hys
  rcases hxs with ⟨rfl, rfl, rfl⟩ | ⟨rfl, rfl, rfl⟩ | ⟨rfl, rfl, rfl⟩ | ⟨rfl, rfl, rfl⟩ |
      ⟨rfl, rfl, rfl⟩ <;>
    rcases hys with ⟨rfl, rfl, rfl⟩ | ⟨rfl, rfl, rfl⟩ | ⟨rfl, rfl, rfl⟩ | ⟨rfl, rfl, rfl⟩ |
      ⟨rfl, rfl, rfl⟩ <;>
    rfl

theorem lone_cell_step (W H a b x y : Int) (hW : 3 ≤ W) (hH : 3 ≤ H) (ha : 0 ≤ a)
    (hb : 0 ≤ b) (hx : 0 ≤ x) (hxW : x < W) (hy : 0 ≤ y) (hyH : y < H) :
    rule (decide (x = a) && decide (y = b))
        (patternCount (fun u v => decide (u = a) && decide (v = b)) W H x y) = false := by
  obtain ⟨a1, a2, a3, h1, h2, h3, hxs⟩ := point_combos W a x hW ha hx hxW
  obtain ⟨b1, b2, b3, k1, k2, k3, hys⟩ := point_combos H b y hH hb hy hyH
  rw [rule_product (fun u => decide (u = a)) (fun v => decide (v = b)) W H x y hx hxW
    hy hyH a1 a2 a3 b1 b2 b3 h1 h2 h3 k1 k2 k3]
  simp only [Prod.mk.injEq] at hxs hys
  rcases hxs with ⟨rfl, rfl, rfl⟩ | ⟨rfl, rfl, rfl⟩ | ⟨rfl, rfl, rfl⟩ | ⟨rfl, rfl, rfl⟩ <;>
    rcases hys with ⟨rfl, rfl, rfl⟩ | ⟨rfl, rfl, rfl⟩ | ⟨rfl, rfl, rfl⟩ | ⟨rfl, rfl, rfl⟩ <;>
    rfl

end GoL1.CellTable

namespace GoL1.CellTable

/-- C6: on every valid grid with `W, H ≥ 5` whose live cells are exactly the vertical
triple `(2,1), (2,2), (2,3)`, one `update()` gives exactly the horizontal triple
`(1,2), (2,2), (3,2)` and a second `update()` gives exactly the vertical triple again. -/
theorem blinker_period_two (t : CellTable) (hv : t.Valid) (hW : 5 ≤ t.width)
    (hH : 5 ≤ t.height)
    (hlive : ∀ x y : Int, 0 ≤ x → x < t.width → 0 ≤ y → y < t.height →
      (t.isAlive x y = true ↔ ((x, y) = (2, 1) ∨ (x, y) = (2, 2) ∨ (x, y) = (2, 3)))) :
    ∃ t1 t2, t.update = some t1 ∧ t1.update = some t2 ∧
      (∀ x y : Int, 0 ≤ x → x < t.width → 0 ≤ y → y < t.height →
        (t1.isAlive x y = true ↔ ((x, y) = (1, 2) ∨ (x, y) = (2, 2) ∨ (x, y) = (3, 2)))) ∧
      (∀ x y : Int, 0 ≤ x → x < t.width → 0 ≤ y → y < t.height →
        (t2.isAlive x y = true ↔ ((x, y) = (2, 1) ∨ (x, y) = (2, 2) ∨ (x, y) = (2, 3)))) := by
  have hp : ∀ x y : Int, 0 ≤ x → x < t.width → 0 ≤ y → y < t.height →
      t.isAlive x y = (decide (x = 2) && decide (1 ≤ y ∧ y ≤ 3)) := by
    intro x y hx hxW hy hyH
    rw [Bool.eq_iff_iff, hlive x y hx hxW hy hyH]
    simp only [Prod.mk.injEq, Bool.and_eq_true, decide_eq_true_eq]
    omega
  obtain ⟨t1, h1, hw1, hh1, hv1, hq1⟩ := update_pattern t hv (by omega) (by omega)
    (fun u v => decide (u = 2) && decide (1 ≤ v ∧ v ≤ 3))
    (fun u v => decide (1 ≤ u ∧ u ≤ 3) && decide (v = 2)) hp
    (fun x y hx hxW hy hyH => blinker_vertical_step t.width t.height x y hW hH hx hxW hy hyH)
  obtain ⟨t2, h2, _, _, _, hq2⟩ := update_pattern t1 hv1 (by omega) (by omega)
    (fun u v => decide (1 ≤ u ∧ u ≤ 3) && decide (v = 2))
    (fun u v => decide (u = 2) && decide (1 ≤ v ∧ v ≤ 3))
    (by rw [hw1, hh1]; exact hq1)
    (fun x y hx hxW hy hyH => blinker_horizontal_step t1.width t1.height x y (by omega)
      (by omega) hx hxW hy hyH)
  rw [hw1, hh1] at hq2
  refine ⟨t1, t2, h1, h2, ?_, ?_⟩
  · intro x y hx hxW hy hyH
    rw [hq1 x y hx hxW hy hyH]
    simp only [Prod.mk.injEq, Bool.and_eq_true, decide_eq_true_eq]
    omega
  · intro x y hx hxW hy hyH
    rw [hq2 x y hx hxW hy hyH]
    simp only [Prod.mk.injEq, Bool.and_eq_true, decide_eq_true_eq]
    omega

theorem blinker_period_two_witness :
    ∃ t1 t2, blinkerGrid.update = some t1 ∧ t1.update = some t2 ∧
      (∀ x y : Int, 0 ≤ x → x < blinkerGrid.width → 0 ≤ y → y < blinkerGrid.height →
        (t1.isAlive x y = true ↔ ((x, y) = (1, 2) ∨ (x, y) = (2, 2) ∨ (x, y) = (3, 2)))) ∧
      (∀ x y : Int, 0 ≤ x → x < blinkerGrid.width → 0 ≤ y → y < blinkerGrid.height →
        (t2.isAlive x y = true ↔ ((x, y) = (2, 1) ∨ (x, y) = (2, 2) ∨ (x, y) = (2, 3)))) :=
  blinker_period_two blinkerGrid (by decide) (by decide) (by decide) (by
    intro x y hx hxW hy hyH
    have hxW5 : x < 5 := hxW
    have hyH5 : y < 5 := hyH
    interval_cases x <;> interval_cases y <;> decide)

/-- C7: on every valid grid with `W, H ≥ 4` whose live cells are exactly the block
`(0,0), (1,0), (0,1), (1,1)`, every number `n` of `update()` calls has a result whose
live cells are exactly those four. -/
theorem block_is_still_life (t : CellTable) (hv : t.Valid) (hW : 4 ≤ t.width)
    (hH : 4 ≤ t.height)
    (hlive : ∀ x y : Int, 0 ≤ x → x < t.width → 0 ≤ y → y < t.height →
      (t.isAlive x y = true ↔
        ((x, y) = (0, 0) ∨ (x, y) = (1, 0) ∨ (x, y) = (0, 1) ∨ (x, y) = (1, 1))))
    (n : Nat) :
    ∃ t2, updateN n t = some t2 ∧
      ∀ x y : Int, 0 ≤ x → x < t.width → 0 ≤ y → y < t.height →
        (t2.isAlive x y = true ↔
          ((x, y) = (0, 0) ∨ (x, y) = (1, 0) ∨ (x, y) = (0, 1) ∨ (x, y) = (1, 1))) := by
  have hp : ∀ x y : Int, 0 ≤ x → x < t.width → 0 ≤ y → y < t.height →
      t.isAlive x y = (decide (x ≤ 1) && decide (y ≤ 1)) := by
    intro x y hx hxW hy hyH
    rw [Bool.eq_iff_iff, hlive x y hx hxW hy hyH]
    simp only [Prod.mk.injEq, Bool.and_eq_true, decide_eq_true_eq]
    omega
  obtain ⟨t2, h2, _, _, _, hq⟩ := updateN_still
    (fun u v => decide (u ≤ 1) && decide (v ≤ 1)) t.width t.height (by omega) (by omega)
    (fun x y hx hxW hy hyH => block_step t.width t.height x y hW hH hx hxW hy hyH)
    n t hv rfl rfl hp
  refine ⟨t2, h2, ?_⟩
  intro x y hx hxW hy hyH
  rw [hq x y hx hxW hy hyH]
  simp only [Prod.mk.injEq, Bool.and_eq_true, decide_eq_true_eq]
  omega

theorem block_is_still_life_witness :
    ∃ t2, updateN 3 blockGrid = some t2 ∧
      ∀ x y : Int, 0 ≤ x → x < blockGrid.width → 0 ≤ y → y < blockGrid.height →
        (t2.isAlive x y = true ↔
          ((x, y) = (0, 0) ∨ (x, y) = (1, 0) ∨ (x, y) = (0, 1) ∨ (x, y) = (1, 1))) :=
  block_is_still_life blockGrid (by decide) (by decide) (by decide) (by
    intro x y hx hxW hy hyH
    have hxW4 : x < 4 := hxW
    have hyH4 : y < 4 := hyH
    interval_cases x <;> interval_cases y <;> decide) 3

/-- C8: on every valid grid with `W, H ≥ 3` in which one in-range cell `(a, b)` is the
only live cell, `update()` has a result and in it every cell is dead. -/
theorem lone_cell_dies (t : CellTable) (hv : t.Valid) (hW : 3 ≤ t.width) (hH : 3 ≤ t.height)
    (a b : Int) (ha : 0 ≤ a ∧ a < t.width) (hb : 0 ≤ b ∧ b < t.height)
    (hlive : ∀ x y : Int, 0 ≤ x → x < t.width → 0 ≤ y → y < t.height →
      (t.isAlive x y = true ↔ (x, y) = (a, b))) :
    ∃ t1, t.update = some t1 ∧
      ∀ x y : Int, 0 ≤ x → x < t.width → 0 ≤ y → y < t.height → t1.isAlive x y = false := by
  have hp : ∀ x y : Int, 0 ≤ x → x < t.width → 0 ≤ y → y < t.height →
      t.isAlive x y = (decide (x = a) && decide (y = b)) := by
    intro x y hx hxW hy hyH
    rw [Bool.eq_iff_iff, hlive x y hx hxW hy hyH]
    simp only [Prod.mk.injEq, Bool.and_eq_true, decide_eq_true_eq]
  obtain ⟨t1, h1, _, _, _, hq⟩ := update_pattern t hv (by omega) (by omega)
    (fun u v => decide (u = a) && decide (v = b)) (fun _ _ => false) hp
    (fun x y hx hxW hy hyH =>
      lone_cell_step t.width t.height a b x y hW hH ha.1 hb.1 hx hxW hy hyH)
  exact ⟨t1, h1, hq⟩

theorem lone_cell_dies_witness :
    ∃ t1, loneGrid.update = some t1 ∧
      ∀ x y : Int, 0 ≤ x → x < loneGrid.width → 0 ≤ y → y < loneGrid.height →
        t1.isAlive x y = false :=
  lone_cell_dies loneGrid (by decide) (by decide) (by decide) 2 2 (by decide) (by decide) (by
    intro x y hx hxW hy hyH
    have hxW5 : x < 5 := hxW
    have hyH5 : y < 5 := hyH
    interval_cases x <;> interval_cases y <;> decide)

end GoL1.CellTable

/-! ## `randomize` -/

theorem and_63_eq_zero_iff (n : Nat) : n &&& 0x3F = 0 ↔ n % 64 = 0 := by
  have h := Nat.and_pow_two_sub_one_eq_mod n 6
  norm_num at h
  rw [h]

theorem shift_bit (w i : Nat) : (w / 2 ^ (i % 64)) &&& 1 = w / 2 ^ (i % 64) % 2 :=
  Nat.and_one_is_mod _

theorem shift_next (w i : Nat) (h : (i + 1) % 64 ≠ 0) :
    (w / 2 ^ (i % 64)) >>> 1 = w / 2 ^ ((i + 1) % 64) := by
  have e : (i + 1) % 64 = i % 64 + 1 := by omega
  simp [Nat.shiftRight_eq_div_pow, e, pow_succ, Nat.div_div_eq_div_mul]


namespace GoL1.CellTable

/-- One iteration of `randomize()` on a cell that holds `0` or `1`: the cell receives
the low bit of the current word, whatever it held. -/
theorem randStep_eq (t : CellTable) (num : Nat) (rnd : Rng) (i j : Int)
    (h0 : 0 ≤ i + j * t.width) (hlc : i + j * t.width < t.cells.length)
    (hbin : t.cells[(i + j * t.width).toNat]?.getD 0 ≤ 1) :
    randStep j i (t, num, rnd) =
      some ({ t with
          cells := t.cells.set (i + j * t.width).toNat ((refill i num rnd).1 % 2) },
        (refill i num rnd).1 >>> 1, (refill i num rnd).2) := by
  have hk : (i + j * t.width).toNat < t.cells.length := by omega
  have hself : t = { t with
      cells := t.cells.set (i + j * t.width).toNat
        (t.cells[(i + j * t.width).toNat]?.getD 0) } := by
    cases t with
    | mk w h cells nb =>
      simp only [CellTable.mk.injEq, true_and, and_true] at hk ⊢
      simp only [List.getElem?_eq_getElem hk, Option.getD_some]
      exact (list_set_getElem_same cells _ hk).symm
  simp only [randStep, at_, vecGet_of_lt h0 hlc, Option.some_bind, Nat.and_one_is_mod]
  generalize refill i num rnd = d
  have hb : d.1 % 2 = 0 ∨ d.1 % 2 = 1 := by omega
  generalize hc : t.cells[(i + j * t.width).toNat]?.getD 0 = c at hbin hself
  have hc01 : c = 0 ∨ c = 1 := by omega
  rcases hc01 with rfl | rfl <;> rcases hb with hb | hb <;>
    simp only [hb, toggle_eq_of_index h0 hlc, hc, lnot, ne_eq, not_true_eq_false,
      if_false, if_true, Option.some_bind, zero_ne_one, one_ne_zero, not_false_eq_true]
  · exact congrArg (fun u => some (u, d.1 >>> 1, d.2)) hself
  · exact congrArg (fun u => some (u, d.1 >>> 1, d.2)) hself

end GoL1.CellTable

theorem refill_spec (r rnd : Rng) (num base i : Nat) (hw : rnd.words = r.words)
    (hp : rnd.pos = base + (i + 63) / 64)
    (hn : i % 64 ≠ 0 → num = r.words (base + i / 64) % 2 ^ 64 / 2 ^ (i % 64)) :
    (refill (i : Int) num rnd).1 = r.words (base + i / 64) % 2 ^ 64 / 2 ^ (i % 64) ∧
      (refill (i : Int) num rnd).2.words = r.words ∧
      (refill (i : Int) num rnd).2.pos = base + (i + 1 + 63) / 64 := by
  unfold refill
  simp only [Int.toNat_ofNat, and_63_eq_zero_iff]
  split_ifs with h
  · have e : base + (i + 63) / 64 = base + i / 64 := by omega
    refine ⟨?_, hw, ?_⟩
    · simp only [Rng.draw, hp, e, hw, h, pow_zero, Nat.div_one]
    · simp only [Rng.draw, hp]
      omega
  · refine ⟨hn h, hw, ?_⟩
    show rnd.pos = _
    rw [hp]
    omega

namespace GoL1.CellTable

theorem binary_getD {t : CellTable} (hb : t.Binary) (k : Nat) : t.cells[k]?.getD 0 ≤ 1 := by
  by_cases hk : k < t.cells.length
  · rw [List.getElem?_eq_getElem hk, Option.getD_some]
    exact hb _ (List.getElem_mem hk)
  · rw [List.getElem?_eq_none (by omega)]
    simp

/-- Method `randomize()` on a table that satisfies the class invariant: it has a result of the
same shape, every cell receives its bit of the word sequence, whatever it held before,
and the engine has advanced by `ceil(W / 64)` words per row. -/
theorem randomize_spec (t : CellTable) (hv : t.Valid) (hb : t.Binary) (r : Rng) :
    ∃ t2 r2, t.randomize r = some (t2, r2) ∧
      t2.width = t.width ∧ t2.height = t.height ∧ t2.neighbors = t.neighbors ∧
      t2.cells.length = t.cells.length ∧ r2.words = r.words ∧
      r2.pos = r.pos + t.height.toNat * ((t.width.toNat + 63) / 64) ∧
      ∀ x y : Int, 0 ≤ x → x < t.width → 0 ≤ y → y < t.height →
        vecGet t2.cells (x + y * t.width)
          = some (randBit r t.width.toNat x.toNat y.toNat) := by
  obtain ⟨hw0, hh0, hlc, hln⟩ := hv
  have hres := forLoop2_inv t.height.toNat t.width.toNat
    (fun s : CellTable × Nat × Rng => s.1.width.toNat) (fun j i s => randStep j i s)
    (fun j i s => s.1.width = t.width ∧ s.1.height = t.height ∧
      s.1.neighbors = t.neighbors ∧ s.1.cells.length = t.cells.length ∧
      s.2.2.words = r.words ∧
      s.2.2.pos = r.pos + j * ((t.width.toNat + 63) / 64) + (i + 63) / 64 ∧
      (i % 64 ≠ 0 → s.2.1 =
        r.words (r.pos + j * ((t.width.toNat + 63) / 64) + i / 64) % 2 ^ 64 / 2 ^ (i % 64)) ∧
      ∀ x y : Int, 0 ≤ x → x < t.width → 0 ≤ y → y < t.height →
        vecGet s.1.cells (x + y * t.width)
          = some (if visited j i x y then randBit r t.width.toNat x.toNat y.toNat
            else t.cells[(x + y * t.width).toNat]?.getD 0)) (t, 0, r)
    ?_ ?_ ?_ ?_
  · obtain ⟨s, hs, hw, hh, hn, hl, hrw, hrp, _, hcells⟩ := hres
    refine ⟨s.1, s.2.2, by simp [randomize, hs], hw, hh, hn, hl, hrw, ?_, ?_⟩
    · rw [hrp]
      omega
    · intro x y hx hxW hy hyH
      rw [hcells x y hx hxW hy hyH, visited_all _ _ _ (by omega)]
      simp
  · refine ⟨rfl, rfl, rfl, rfl, rfl, by simp, by simp, ?_⟩
    intro x y hx hxW hy hyH
    have hbd := idx_bounds hx hxW hy hyH
    have hlt : x + y * t.width < t.cells.length := by omega
    rw [visited_zero _ _ hx hy]
    show vecGet t.cells (x + y * t.width) = _
    rw [vecGet_of_lt hbd.1 hlt]
    simp
  · intro j i s hI
    show s.1.width.toNat = t.width.toNat
    rw [hI.1]
  · intro j i hj hi s ⟨hsw, hsh, hsn, hsl, hrw, hrp, hnum, hsc⟩
    have hi0 : (0 : Int) ≤ i := Int.ofNat_nonneg i
    have hj0 : (0 : Int) ≤ j := Int.ofNat_nonneg j
    have hiW : (i : Int) < t.width := by omega
    have hjH : (j : Int) < t.height := by omega
    have hbd := idx_bounds hi0 hiW hj0 hjH
    have hb0 : 0 ≤ (i : Int) + (j : Int) * s.1.width := by rw [hsw]; exact hbd.1
    have hbc : (i : Int) + (j : Int) * s.1.width < s.1.cells.length := by
      rw [hsw, hsl]; omega
    have hself := hsc i j hi0 hiW hj0 hjH
    have hns : visited j i (i : Int) (j : Int) = false := by
      simp [visited]
    rw [hns, ← hsw, vecGet_of_lt hb0 hbc] at hself
    simp only [Bool.false_eq_true, if_false, Option.some.injEq, hsw] at hself
    have hbin : s.1.cells[((i : Int) + (j : Int) * s.1.width).toNat]?.getD 0 ≤ 1 := by
      rw [hsw, hself]
      exact binary_getD hb _
    obtain ⟨hd1, hd2, hd3⟩ := refill_spec r s.2.2 s.2.1
      (r.pos + j * ((t.width.toNat + 63) / 64)) i hrw hrp hnum
    have hstep := randStep_eq s.1 s.2.1 s.2.2 i j hb0 hbc hbin
    refine ⟨_, hstep, hsw, hsh, hsn, by simp [hsl], hd2, ?_, ?_, ?_⟩
    · rw [hd3]
    · intro hne
      show (refill (i : Int) s.2.1 s.2.2).1 >>> 1 = _
      have e : (i + 1) / 64 = i / 64 := by omega
      rw [hd1, shift_next _ _ hne, e]
    · intro x y hx hxW hy hyH
      have hbx := idx_bounds hx hxW hy hyH
      show vecGet (s.1.cells.set _ _) (x + y * t.width) = _
      rw [vecGet_set _ hb0 hbc hbx.1, visited_succ, hsw, hd1]
      by_cases hxy : x + y * t.width = (i : Int) + (j : Int) * t.width
      · have hij := idx_inj hx hxW hi0 hiW hxy
        rw [if_pos hxy]
        simp [hij.1, hij.2, randBit]
      · have hne : ¬ (x = (i : Int) ∧ y = (j : Int)) := by
          rintro ⟨h1, h2⟩
          exact hxy (by rw [h1, h2])
        rw [if_neg hxy, hsc x y hx hxW hy hyH]
        simp [hne]
  · intro j _ s ⟨hsw, hsh, hsn, hsl, hrw, hrp, _, hsc⟩
    refine ⟨hsw, hsh, hsn, hsl, hrw, ?_, by simp, ?_⟩
    · rw [hrp]
      have : (0 + 63) / 64 = 0 := by norm_num
      rw [this, Nat.add_mul]
      omega
    · intro x y hx hxW hy hyH
      rw [hsc x y hx hxW hy hyH, visited_row_end j t.width.toNat _ _ hx (by omega)]

end GoL1.CellTable

/-! ## The pixel table simulates the boolean-array table -/

theorem forLoop_sim {σ τ : Type} (f : σ → τ) (n : Nat) (b1 : Int → σ → Option σ)
    (b2 : Int → τ → Option τ) (h : ∀ k s, (b1 k s).map f = b2 k (f s)) (s : σ) :
    (forLoop n b1 s).map f = forLoop n b2 (f s) := by
  induction n with
  | zero => rfl
  | succ m ih =>
    simp only [forLoop]
    cases h1 : forLoop m b1 s with
    | none =>
      rw [h1] at ih
      simp [← ih]
    | some s1 =>
      rw [h1] at ih
      simp only [Option.map_some'] at ih
      rw [← ih]
      simpa using h (m : Int) s1

theorem vecGet_map (g : Nat → Nat) (v : List Nat) (k : Int) :
    vecGet (v.map g) k = (vecGet v k).map g := by
  unfold vecGet
  split_ifs <;> simp

theorem vecSet_map (g : Nat → Nat) (v : List Nat) (k : Int) (x : Nat) :
    vecSet (v.map g) k (g x) = (vecSet v k x).map (List.map g) := by
  unfold vecSet
  simp only [List.length_map]
  split_ifs <;> simp [List.map_set]

namespace Sprite.CellTable

theorem toCells_fix_neighbors (t : CellTable) (i j : Int) :
    (t.fix_neighbors i j).map toCells = (toCells t).fix_neighbors i j := by
  simp only [fix_neighbors, GoL1.CellTable.fix_neighbors, toCells]
  cases fixNeighbors t.width t.height t.neighbors i j <;> rfl

theorem toCells_countStep (j i : Int) (t : CellTable) :
    (countStep j i t).map toCells = GoL1.CellTable.countStep j i (toCells t) := by
  simp only [countStep, GoL1.CellTable.countStep, get_state, GoL1.CellTable.at_]
  have hg : vecGet (toCells t).cells (i + j * (toCells t).width)
      = (vecGet t.pixels (i + j * t.width)).map fun p => if p = 0xFFFFFFFF then 1 else 0 :=
    vecGet_map _ _ _
  rw [hg]
  cases vecGet t.pixels (i + j * t.width) with
  | none => rfl
  | some p =>
    by_cases hp : p = 0xFFFFFFFF
    · simpa [hp] using toCells_fix_neighbors t i j
    · simp [hp]

theorem toCells_set_state (t : CellTable) (i j : Int) (b : Bool) :
    (t.set_state i j b).map toCells =
      (vecSet (toCells t).cells (i + j * t.width) (if b then 1 else 0)).bind fun cs =>
        some { toCells t with cells := cs } := by
  have hs := vecSet_map (fun p => if p = 0xFFFFFFFF then 1 else 0) t.pixels (i + j * t.width)
    (if b then 0xFFFFFFFF else 0xFF000000)
  have hv : (if (if b then 0xFFFFFFFF else 0xFF000000) = 0xFFFFFFFF then 1 else 0)
      = (if b then 1 else 0) := by
    cases b <;> simp
  simp only [hv] at hs
  simp only [set_state, toCells]
  rw [hs]
  cases vecSet t.pixels (i + j * t.width) (if b then 0xFFFFFFFF else 0xFF000000) <;> rfl

theorem toCells_ruleStep (j i : Int) (t : CellTable) :
    (ruleStep j i t).map toCells = GoL1.CellTable.ruleStep j i (toCells t) := by
  have hg : vecGet (toCells t).cells (i + j * (toCells t).width)
      = (vecGet t.pixels (i + j * t.width)).map fun p => if p = 0xFFFFFFFF then 1 else 0 :=
    vecGet_map _ _ _
  have hT := toCells_set_state t i j true
  have hF := toCells_set_state t i j false
  simp only [ruleStep, GoL1.CellTable.ruleStep, get_state, GoL1.CellTable.toggle, hg]
  have hw : (toCells t).width = t.width := rfl
  have hn : (toCells t).neighbors = t.neighbors := rfl
  rw [hw, hn]
  cases hp : vecGet t.pixels (i + j * t.width) with
  | none => rfl
  | some p =>
    cases hnb : vecGet t.neighbors (i + j * t.width) with
    | none => rfl
    | some n =>
      simp only [Option.map_some', Option.some_bind]
      rw [hg, hw, hp] at *
      by_cases hpw : p = 0xFFFFFFFF
      · by_cases hn23 : n < 2 ∨ n > 3
        · simpa [hpw, hn23, lnot] using hF
        · simp [hpw, hn23]
      · by_cases hn3 : n = 3
        · simpa [hpw, hn3, lnot] using hT
        · simp [hpw, hn3]

end Sprite.CellTable

theorem vecSet_none_of_out {v : List Nat} {k : Int} (x : Nat)
    (h : k < 0 ∨ (v.length : Int) ≤ k) : vecSet v k x = none := by
  unfold vecSet
  split_ifs with h0
  · omega
  · rfl

namespace Sprite.CellTable

theorem toCells_update (t : CellTable) : (t.update).map toCells = (toCells t).update := by
  have h1 := forLoop_sim toCells t.height.toNat
    (fun j s => forLoop s.width.toNat (countStep j) s)
    (fun j s => forLoop s.width.toNat (GoL1.CellTable.countStep j) s)
    (fun j s => forLoop_sim toCells s.width.toNat (countStep j)
      (GoL1.CellTable.countStep j) (toCells_countStep j) s)
    { t with neighbors := t.neighbors.map fun _ => 0 }
  have h2 := fun t1 : CellTable => forLoop_sim toCells t1.height.toNat
    (fun j s => forLoop s.width.toNat (ruleStep j) s)
    (fun j s => forLoop s.width.toNat (GoL1.CellTable.ruleStep j) s)
    (fun j s => forLoop_sim toCells s.width.toNat (ruleStep j)
      (GoL1.CellTable.ruleStep j) (toCells_ruleStep j) s) t1
  simp only [update, GoL1.CellTable.update]
  change _ = (forLoop t.height.toNat
    (fun j s => forLoop s.width.toNat (GoL1.CellTable.countStep j) s)
    (toCells { t with neighbors := t.neighbors.map fun _ => 0 })).bind _
  rw [← h1]
  cases forLoop t.height.toNat (fun j s => forLoop s.width.toNat (countStep j) s)
      { t with neighbors := t.neighbors.map fun _ => 0 } with
  | none => rfl
  | some t1 => exact h2 t1

theorem toCells_randStep (j i : Int) (s : CellTable × Nat × Rng) :
    (randStep j i s).map (fun u => (toCells u.1, u.2.1, u.2.2))
      = GoL1.CellTable.randStep j i (toCells s.1, s.2.1, s.2.2) := by
  have hbit : (if decide ((refill i s.2.1 s.2.2).1 &&& 1 ≠ 0) = true then 1 else 0)
      = (refill i s.2.1 s.2.2).1 % 2 := by
    rw [Nat.and_one_is_mod]
    have : (refill i s.2.1 s.2.2).1 % 2 = 0 ∨ (refill i s.2.1 s.2.2).1 % 2 = 1 := by omega
    rcases this with h | h <;> simp [h]
  have hset := toCells_set_state s.1 i j (decide ((refill i s.2.1 s.2.2).1 &&& 1 ≠ 0))
  rw [hbit] at hset
  have hlen : (toCells s.1).cells.length = s.1.pixels.length := by simp [toCells]
  have hw : (toCells s.1).width = s.1.width := rfl
  by_cases hin : 0 ≤ i + j * s.1.width ∧ i + j * s.1.width < s.1.pixels.length
  · have hbin : (toCells s.1).cells[(i + j * (toCells s.1).width).toNat]?.getD 0 ≤ 1 := by
      apply GoL1.CellTable.binary_getD
      intro c hc
      simp only [toCells, List.mem_map] at hc
      obtain ⟨p, _, rfl⟩ := hc
      split_ifs <;> omega
    rw [GoL1.CellTable.randStep_eq (toCells s.1) s.2.1 s.2.2 i j (by rw [hw]; exact hin.1)
      (by rw [hw, hlen]; exact hin.2) hbin]
    rw [vecSet_of_lt _ (by exact hin.1) (by rw [hlen]; exact hin.2)] at hset
    simp only [randStep]
    cases hs : s.1.set_state i j (decide ((refill i s.2.1 s.2.2).1 &&& 1 ≠ 0)) with
    | none => rw [hs] at hset; simp at hset
    | some t1 =>
      rw [hs] at hset
      simp only [Option.map_some', Option.some_bind, Option.some.injEq] at hset
      simp only [Option.some_bind, Option.map_some', hset, hw]
  · have hout : i + j * s.1.width < 0 ∨ (s.1.pixels.length : Int) ≤ i + j * s.1.width := by
      omega
    have hg : vecGet (toCells s.1).cells (i + j * (toCells s.1).width) = none :=
      GoL1.CellTable.vecGet_none_of_out (by rw [hlen, hw]; exact hout)
    have hs : s.1.set_state i j (decide ((refill i s.2.1 s.2.2).1 &&& 1 ≠ 0)) = none := by
      simp [set_state, vecSet_none_of_out _ hout]
    have e1 : randStep j i s = none := by
      simp only [randStep, hs]
      rfl
    have e2 : GoL1.CellTable.randStep j i (toCells s.1, s.2.1, s.2.2) = none := by
      simp only [GoL1.CellTable.randStep, GoL1.CellTable.at_, hg]
      rfl
    rw [e1, e2]
    rfl

theorem toCells_randomize (t : CellTable) (r : Rng) :
    (t.randomize r).map (fun u => (toCells u.1, u.2)) = (toCells t).randomize r := by
  have h1 := forLoop_sim (fun u : CellTable × Nat × Rng => (toCells u.1, u.2.1, u.2.2))
    t.height.toNat
    (fun j s => forLoop s.1.width.toNat (randStep j) s)
    (fun j s => forLoop s.1.width.toNat (GoL1.CellTable.randStep j) s)
    (fun j s => forLoop_sim (fun u : CellTable × Nat × Rng => (toCells u.1, u.2.1, u.2.2))
      s.1.width.toNat (randStep j) (GoL1.CellTable.randStep j) (toCells_randStep j) s)
    (t, 0, r)
  simp only [randomize, GoL1.CellTable.randomize]
  change _ = (forLoop t.height.toNat
    (fun j s => forLoop s.1.width.toNat (GoL1.CellTable.randStep j) s)
    (toCells t, 0, r)).bind _
  rw [← h1]
  cases forLoop t.height.toNat (fun j s => forLoop s.1.width.toNat (randStep j) s)
      (t, 0, r) with
  | none => rfl
  | some s => rfl

theorem isAlive_toCells (t : CellTable) (x y : Int) :
    (toCells t).isAlive x y = t.isAlive x y := by
  have hg : vecGet (toCells t).cells (x + y * (toCells t).width)
      = (vecGet t.pixels (x + y * t.width)).map fun p => if p = 0xFFFFFFFF then 1 else 0 :=
    vecGet_map _ _ _
  simp only [GoL1.CellTable.isAlive, isAlive, GoL1.CellTable.at_, get_state, hg]
  cases vecGet t.pixels (x + y * t.width) with
  | none => rfl
  | some p => by_cases hp : p = 0xFFFFFFFF <;> simp [hp]

theorem toCells_valid (t : CellTable) : (toCells t).Valid ↔ t.Valid := by
  simp [GoL1.CellTable.Valid, Valid, toCells]

theorem toCells_binary (t : CellTable) : (toCells t).Binary := by
  intro c hc
  simp only [toCells, List.mem_map] at hc
  obtain ⟨p, _, rfl⟩ := hc
  split_ifs <;> omega

end Sprite.CellTable

/-! ## Agreement of the two tables -/

theorem rng_eq {a b : Rng} (h1 : a.words = b.words) (h2 : a.pos = b.pos) : a = b := by
  cases a
  cases b
  simp_all

theorem randBit_le_one (r : Rng) (W x y : Nat) : randBit r W x y ≤ 1 := by
  unfold randBit
  omega

/-- One `update()` keeps a boolean-array table and a pixel table in agreement. -/
theorem update_agree (a : GoL1.CellTable) (p : Sprite.CellTable) (ha : a.Valid)
    (hp : p.Valid) (hW : 0 < a.width) (hH : 0 < a.height) (hag : Agree a p) :
    ∃ a2 p2, a.update = some a2 ∧ p.update = some p2 ∧ Agree a2 p2 ∧ a2.Valid ∧ p2.Valid ∧
      a2.width = a.width ∧ a2.height = a.height := by
  obtain ⟨hw, hh, hal⟩ := hag
  obtain ⟨a2, ha2, haw, hah, hav, _, harule⟩ := GoL1.CellTable.update_alive a ha hW hH
  have hqv : (Sprite.CellTable.toCells p).Valid := (Sprite.CellTable.toCells_valid p).mpr hp
  have hqW : 0 < (Sprite.CellTable.toCells p).width := by
    show 0 < p.width
    omega
  have hqH : 0 < (Sprite.CellTable.toCells p).height := by
    show 0 < p.height
    omega
  obtain ⟨q2, hq2, hqw, hqh, hqv2, _, hqrule⟩ :=
    GoL1.CellTable.update_alive (Sprite.CellTable.toCells p) hqv hqW hqH
  have hsim := Sprite.CellTable.toCells_update p
  rw [hq2] at hsim
  obtain ⟨p2, hp2, hpq⟩ := Option.map_eq_some'.mp hsim
  have hpw : p2.width = p.width := by
    have : q2.width = p2.width := by rw [← hpq]; rfl
    rw [← this, hqw]
    rfl
  have hph : p2.height = p.height := by
    have : q2.height = p2.height := by rw [← hpq]; rfl
    rw [← this, hqh]
    rfl
  refine ⟨a2, p2, ha2, hp2, ⟨by rw [haw, hpw, hw], by rw [hah, hph, hh], ?_⟩, hav,
    (Sprite.CellTable.toCells_valid p2).mp (by rw [hpq]; exact hqv2), haw, hah⟩
  intro x y hx hxW hy hyH
  rw [haw] at hxW
  rw [hah] at hyH
  have hxW2 : x < (Sprite.CellTable.toCells p).width := by
    show x < p.width
    omega
  have hyH2 : y < (Sprite.CellTable.toCells p).height := by
    show y < p.height
    omega
  rw [harule x y hx hxW hy hyH, ← Sprite.CellTable.isAlive_toCells p2, hpq,
    hqrule x y hx hxW2 hy hyH2, Sprite.CellTable.isAlive_toCells, hal x y hx hxW hy hyH]
  congr 1
  rw [GoL1.CellTable.neighbourCount_eq_patternCount a hW hH (fun u v => a.isAlive u v)
      (fun _ _ _ _ _ _ => rfl) x y hx hxW hy hyH,
    GoL1.CellTable.neighbourCount_eq_patternCount (Sprite.CellTable.toCells p) hqW hqH
      (fun u v => a.isAlive u v)
      (fun u v hu huW hv hvH => by
        have huW2 : u < a.width := by
          have : u < p.width := huW
          omega
        have hvH2 : v < a.height := by
          have : v < p.height := hvH
          omega
        rw [Sprite.CellTable.isAlive_toCells]
        exact (hal u v hu huW2 hv hvH2).symm)
      x y hx hxW2 hy hyH2]
  show GoL1.CellTable.patternCount _ a.width a.height x y
    = GoL1.CellTable.patternCount _ p.width p.height x y
  rw [hw, hh]

/-- Method `randomize()` from the same engine state brings a boolean-array table and a pixel
table of the same dimensions to agreement, and leaves both engines in the same state. -/
theorem randomize_agree (a : GoL1.CellTable) (p : Sprite.CellTable) (ha : a.Valid)
    (hb : a.Binary) (hp : p.Valid) (hw : a.width = p.width) (hh : a.height = p.height)
    (r : Rng) :
    ∃ a2 p2 r2, a.randomize r = some (a2, r2) ∧ p.randomize r = some (p2, r2) ∧
      Agree a2 p2 ∧ a2.Valid ∧ p2.Valid ∧ a2.Binary ∧
      a2.width = a.width ∧ a2.height = a.height ∧
      p2.width = a.width ∧ p2.height = a.height ∧
      ∀ x y : Int, 0 ≤ x → x < a.width → 0 ≤ y → y < a.height →
        a2.isAlive x y = (randBit r a.width.toNat x.toNat y.toNat != 0) ∧
        p2.isAlive x y = (randBit r a.width.toNat x.toNat y.toNat != 0) := by
  obtain ⟨a2, r2, ha2, haw, hah, han, hal, harw, harp, hac⟩ :=
    GoL1.CellTable.randomize_spec a ha hb r
  have hqv : (Sprite.CellTable.toCells p).Valid := (Sprite.CellTable.toCells_valid p).mpr hp
  obtain ⟨q2, r3, hq2, hqw, hqh, hqn, hql, hqrw, hqrp, hqc⟩ :=
    GoL1.CellTable.randomize_spec (Sprite.CellTable.toCells p) hqv
      (Sprite.CellTable.toCells_binary p) r
  have hqw0 : (Sprite.CellTable.toCells p).width = a.width := hw.symm
  have hqh0 : (Sprite.CellTable.toCells p).height = a.height := hh.symm
  rw [hqw0, hqh0] at hqrp hqc
  rw [hqw0] at hqw
  rw [hqh0] at hqh
  have hr : r3 = r2 := rng_eq (by rw [hqrw, harw]) (by rw [hqrp, harp])
  rw [hr] at hq2
  have hsim := Sprite.CellTable.toCells_randomize p r
  rw [hq2] at hsim
  obtain ⟨u, hu, huq⟩ := Option.map_eq_some'.mp hsim
  obtain ⟨p2, r4⟩ := u
  simp only [Prod.mk.injEq] at huq
  obtain ⟨hpq, hr4⟩ := huq
  rw [hr4] at hu
  have hpw : p2.width = a.width := by
    have : q2.width = p2.width := by rw [← hpq]; rfl
    rw [← this, hqw]
  have hph : p2.height = a.height := by
    have : q2.height = p2.height := by rw [← hpq]; rfl
    rw [← this, hqh]
  have hav2 : a2.Valid := by
    obtain ⟨h1, h2, h3, h4⟩ := ha
    exact ⟨by rw [haw]; exact h1, by rw [hah]; exact h2, by rw [hal, haw, hah]; exact h3,
      by rw [han, haw, hah]; exact h4⟩
  have hqv2 : q2.Valid := by
    obtain ⟨h1, h2, h3, h4⟩ := hqv
    exact ⟨by rw [hqw, ← hqw0]; exact h1, by rw [hqh, ← hqh0]; exact h2,
      by rw [hql, hqw, hqh, ← hqw0, ← hqh0]; exact h3,
      by rw [hqn, hqw, hqh, ← hqw0, ← hqh0]; exact h4⟩
  have hbits : ∀ x y : Int, 0 ≤ x → x < a.width → 0 ≤ y → y < a.height →
      a2.isAlive x y = (randBit r a.width.toNat x.toNat y.toNat != 0) ∧
      p2.isAlive x y = (randBit r a.width.toNat x.toNat y.toNat != 0) := by
    intro x y hx hxW hy hyH
    constructor
    · apply GoL1.CellTable.isAlive_eq_of_at
      show vecGet a2.cells (x + y * a2.width) = _
      rw [haw]
      exact hac x y hx hxW hy hyH
    · rw [← Sprite.CellTable.isAlive_toCells p2, hpq]
      apply GoL1.CellTable.isAlive_eq_of_at
      show vecGet q2.cells (x + y * q2.width) = _
      rw [hqw]
      exact hqc x y hx hxW hy hyH
  have hbin2 : a2.Binary := by
    intro c hc
    obtain ⟨k, hk, rfl⟩ := List.getElem_of_mem hc
    by_cases hWpos : 0 < a.width
    · have hkl : (k : Int) < a.width * a.height := by
        have := ha.2.2.1
        omega
      obtain ⟨hx, hy, hxy⟩ := idx_decomp hWpos (Int.ofNat_nonneg k) hkl
      have h := hac _ _ hx.1 hx.2 hy.1 hy.2
      simp only [hxy, vecGet, Int.ofNat_nonneg, if_true, Int.toNat_ofNat,
        List.getElem?_eq_getElem hk, Option.some.injEq] at h
      rw [h]
      exact randBit_le_one _ _ _ _
    · exfalso
      have hz : a.width = 0 := by
        have := ha.1
        omega
      have := ha.2.2.1
      rw [hz, zero_mul] at this
      omega
  refine ⟨a2, p2, r2, ha2, hu, ⟨by rw [haw, hpw], by rw [hah, hph], ?_⟩, hav2,
    (Sprite.CellTable.toCells_valid p2).mp (by rw [hpq]; exact hqv2), hbin2, haw, hah,
    hpw, hph, hbits⟩
  intro x y hx hxW hy hyH
  rw [haw] at hxW
  rw [hah] at hyH
  rw [(hbits x y hx hxW hy hyH).1, (hbits x y hx hxW hy hyH).2]

/-- Any number of `update()` calls keeps the two tables in agreement. -/
theorem updateN_agree (n : Nat) :
    ∀ (a : GoL1.CellTable) (p : Sprite.CellTable), a.Valid → p.Valid → 0 < a.width →
      0 < a.height → Agree a p →
      ∃ a2 p2, GoL1.CellTable.updateN n a = some a2 ∧ Sprite.CellTable.updateN n p = some p2 ∧
        Agree a2 p2 ∧ a2.Valid ∧ p2.Valid ∧ a2.width = a.width ∧ a2.height = a.height := by
  induction n with
  | zero =>
    intro a p ha hp _ _ hag
    exact ⟨a, p, rfl, rfl, hag, ha, hp, rfl, rfl⟩
  | succ n ih =>
    intro a p ha hp hW hH hag
    obtain ⟨a1, p1, ha1, hp1, hag1, hav1, hpv1, hw1, hh1⟩ := ih a p ha hp hW hH hag
    obtain ⟨a2, p2, ha2, hp2, hag2, hav2, hpv2, hw2, hh2⟩ :=
      update_agree a1 p1 hav1 hpv1 (by omega) (by omega) hag1
    exact ⟨a2, p2, by simp [GoL1.CellTable.updateN, ha1, ha2],
      by simp [Sprite.CellTable.updateN, hp1, hp2], hag2, hav2, hpv2, by omega, by omega⟩

theorem intOfUnsigned_of_lt {x : Nat} (h : x < 2 ^ 31) : intOfUnsigned x = (x : Int) := by
  unfold intOfUnsigned
  have hx : x % 2 ^ 32 = x := Nat.mod_eq_of_lt (by omega)
  rw [hx, if_pos h]

/-- For sizes below `2 ^ 31` whose product does not exceed `2 ^ 31`, no conversion and no
product of the constructor of the boolean-array table leaves its range: the constructor
is `randomize()` on `W * H` zero cells. -/
theorem create_of_small (W H : Nat) (hW : W < 2 ^ 31) (hH : H < 2 ^ 31)
    (hsz : W * H ≤ 2 ^ 31) (r : Rng) :
    GoL1.CellTable.create W H r = GoL1.CellTable.randomize
      { width := W, height := H, cells := List.replicate (W * H) 0,
        neighbors := List.replicate (W * H) 0 } r := by
  have hg : ¬ (0 < (W : Int) ∧ 0 < (H : Int) ∧ (2 : Int) ^ 31 < (W : Int) * (H : Int)) := by
    rintro ⟨_, _, h⟩
    have h2 : ((W * H : Nat) : Int) ≤ 2 ^ 31 := by exact_mod_cast hsz
    rw [Nat.cast_mul] at h2
    omega
  have hm : mulUnsigned W H = W * H := Nat.mod_eq_of_lt (by omega)
  unfold GoL1.CellTable.create
  rw [intOfUnsigned_of_lt hW, intOfUnsigned_of_lt hH, if_neg hg, hm]

/-- For sizes below `2 ^ 31` whose product is below `2 ^ 30`, no conversion and no
product of the constructor of the pixel table leaves its range: the constructor is
`randomize()` on `W * H` black pixels. -/
theorem sprite_create_of_small (W H : Nat) (hW : W < 2 ^ 31) (hH : H < 2 ^ 31)
    (hsz : W * H < 2 ^ 30) (r : Rng) :
    Sprite.CellTable.create W H r = Sprite.CellTable.randomize
      { width := W, height := H, pixels := List.replicate (W * H) 0xFF000000,
        neighbors := List.replicate (W * H) 0 } r := by
  have hg : ¬ (0 < (W : Int) ∧ 0 < (H : Int) ∧ (2 : Int) ^ 31 < (W : Int) * (H : Int)) := by
    rintro ⟨_, _, h⟩
    have h2 : ((W * H : Nat) : Int) < 2 ^ 30 := by exact_mod_cast hsz
    rw [Nat.cast_mul] at h2
    omega
  have hm : mulUnsigned W H = W * H := Nat.mod_eq_of_lt (by omega)
  have hi : imagePixels W H = W * H := by
    unfold imagePixels
    rw [Nat.mod_eq_of_lt (by omega)]
    omega
  unfold Sprite.CellTable.create
  rw [intOfUnsigned_of_lt hW, intOfUnsigned_of_lt hH, if_neg hg, hm, hi]

/-- At the size 65536 x 65536 the `unsigned` product `size.x * size.y` wraps to `0`, both
buffers are empty, and neither constructor builds a table. -/
theorem create_none_when_product_wraps (r : Rng) :
    mulUnsigned 65536 65536 = 0 ∧ imagePixels 65536 65536 = 0 ∧
    GoL1.CellTable.create 65536 65536 r = none ∧
    Sprite.CellTable.create 65536 65536 r = none := by
  refine ⟨by decide, by decide, ?_, ?_⟩
  · unfold GoL1.CellTable.create
    exact if_pos (by decide)
  · unfold Sprite.CellTable.create
    exact if_pos (by decide)

/-- For sizes below `2 ^ 31` whose product is below `2 ^ 30` both constructors have a
result; the two new tables agree, and each cell holds its bit of the word sequence of the
engine. -/
theorem create_spec (W H : Nat) (hW : W < 2 ^ 31) (hH : H < 2 ^ 31)
    (hsz : W * H < 2 ^ 30) (r : Rng) :
    ∃ a p r2, GoL1.CellTable.create W H r = some (a, r2) ∧
      Sprite.CellTable.create W H r = some (p, r2) ∧ Agree a p ∧ a.Valid ∧ p.Valid ∧
      a.Binary ∧ a.width = W ∧ a.height = H ∧ p.width = W ∧ p.height = H ∧
      ∀ x y : Int, 0 ≤ x → x < W → 0 ≤ y → y < H →
        a.isAlive x y = (randBit r W x.toNat y.toNat != 0) ∧
        p.isAlive x y = (randBit r W x.toNat y.toNat != 0) := by
  have ha : GoL1.CellTable.Valid
      { width := W, height := H, cells := List.replicate (W * H) 0,
        neighbors := List.replicate (W * H) 0 } := by
    refine ⟨Int.ofNat_nonneg W, Int.ofNat_nonneg H, ?_, ?_⟩ <;> simp
  have hb : GoL1.CellTable.Binary
      { width := W, height := H, cells := List.replicate (W * H) 0,
        neighbors := List.replicate (W * H) 0 } := by
    intro c hc
    have := List.eq_of_mem_replicate hc
    omega
  have hp : Sprite.CellTable.Valid
      { width := W, height := H, pixels := List.replicate (W * H) 0xFF000000,
        neighbors := List.replicate (W * H) 0 } := by
    refine ⟨Int.ofNat_nonneg W, Int.ofNat_nonneg H, ?_, ?_⟩ <;> simp
  obtain ⟨a2, p2, r2, ha2, hp2, hag, hav, hpv, hbin, haw, hah, hpw, hph, hbits⟩ :=
    randomize_agree _ _ ha hb hp rfl rfl r
  rw [create_of_small W H hW hH (by omega) r, sprite_create_of_small W H hW hH hsz r]
  refine ⟨a2, p2, r2, ha2, hp2, hag, hav, hpv, hbin, haw, hah, hpw, hph, ?_⟩
  intro x y hx hxW hy hyH
  have := hbits x y hx hxW hy hyH
  simpa using this
/-- C2: for all `W, H ≥ 1`, (1) `update()` keeps a valid boolean-array table and a valid
pixel table that agree in agreement; (2) `randomize()` fed the same word sequence brings
them to agreement and leaves both engines in the same state; (3) hence a boolean-array
table and a pixel table of the same dimensions that are seeded by `randomize()` from the
same engine state agree after every number `n` of `update()` calls. -/
theorem implementations_agree (W H : Nat) (hW : 1 ≤ W) (hH : 1 ≤ H) :
    (∀ (a : GoL1.CellTable) (p : Sprite.CellTable), a.Valid → p.Valid → a.width = W →
        a.height = H → Agree a p →
        ∃ a2 p2, a.update = some a2 ∧ p.update = some p2 ∧ Agree a2 p2) ∧
    (∀ (a : GoL1.CellTable) (p : Sprite.CellTable) (r : Rng), a.Valid → a.Binary →
        p.Valid → a.width = W → a.height = H → Agree a p →
        ∃ a2 p2 r2, a.randomize r = some (a2, r2) ∧ p.randomize r = some (p2, r2) ∧
          Agree a2 p2) ∧
    (∀ (a : GoL1.CellTable) (p : Sprite.CellTable) (r : Rng) (n : Nat), a.Valid →
        a.Binary → p.Valid → a.width = W → a.height = H → p.width = W → p.height = H →
        ∃ a0 p0 r2 a2 p2, a.randomize r = some (a0, r2) ∧ p.randomize r = some (p0, r2) ∧
          GoL1.CellTable.updateN n a0 = some a2 ∧ Sprite.CellTable.updateN n p0 = some p2 ∧
          Agree a2 p2) := by
  refine ⟨?_, ?_, ?_⟩
  · intro a p ha hp hw hh hag
    obtain ⟨a2, p2, ha2, hp2, hag2, _⟩ :=
      update_agree a p ha hp (by omega) (by omega) hag
    exact ⟨a2, p2, ha2, hp2, hag2⟩
  · intro a p r ha hb hp _ _ hag
    obtain ⟨a2, p2, r2, ha2, hp2, hag2, _⟩ := randomize_agree a p ha hb hp hag.1 hag.2.1 r
    exact ⟨a2, p2, r2, ha2, hp2, hag2⟩
  · intro a p r n ha hb hp haw hah hpw hph
    obtain ⟨a0, p0, r2, ha0, hp0, hag0, hav, hpv, _, haw0, hah0, _⟩ :=
      randomize_agree a p ha hb hp (by rw [haw, hpw]) (by rw [hah, hph]) r
    obtain ⟨a2, p2, ha2, hp2, hag, _⟩ :=
      updateN_agree n a0 p0 hav hpv (by omega) (by omega) hag0
    exact ⟨a0, p0, r2, a2, p2, ha0, hp0, ha2, hp2, hag⟩

theorem implementations_agree_witness :
    ∃ a0 p0 r2 a2 p2,
      GoL1.CellTable.randomize ⟨3, 2, [0, 1, 0, 1, 1, 0], [0, 0, 0, 0, 0, 0]⟩
        ⟨fun k => 5 + k, 0⟩ = some (a0, r2) ∧
      Sprite.CellTable.randomize
        ⟨3, 2, [0xFF000000, 0xFFFFFFFF, 0xFF000000, 0xFF000000, 0xFF000000, 0xFFFFFFFF],
          [0, 0, 0, 0, 0, 0]⟩ ⟨fun k => 5 + k, 0⟩ = some (p0, r2) ∧
      GoL1.CellTable.updateN 2 a0 = some a2 ∧ Sprite.CellTable.updateN 2 p0 = some p2 ∧
      Agree a2 p2 :=
  (implementations_agree 3 2 (by decide) (by decide)).2.2
    ⟨3, 2, [0, 1, 0, 1, 1, 0], [0, 0, 0, 0, 0, 0]⟩
    ⟨3, 2, [0xFF000000, 0xFFFFFFFF, 0xFF000000, 0xFF000000, 0xFF000000, 0xFFFFFFFF],
      [0, 0, 0, 0, 0, 0]⟩
    ⟨fun k => 5 + k, 0⟩ 2 (by decide) (by decide) (by decide) rfl rfl rfl rfl

/-- C10 as stated fails: from an engine whose next word is `1`, both constructors build
a 1 x 1 table whose only cell is alive. -/
theorem create_not_all_dead :
    (GoL1.CellTable.create 1 1 ⟨fun _ => 1, 0⟩).map (fun u => u.1.isAlive 0 0) = some true ∧
    (Sprite.CellTable.create 1 1 ⟨fun _ => 1, 0⟩).map (fun u => u.1.isAlive 0 0)
      = some true := by
  decide

/-- C10, amended: both constructors call `randomize()`, so for `W, H ≥ 1` with
`W * H < 2 ^ 30` (no product of `unsigned` sizes wraps in either constructor) a newly
constructed `W` x `H` table holds the bits of the engine: cell `(x, y)` is alive iff bit
`x mod 64` (counted from the least significant bit) of the word number
`y * ceil(W / 64) + floor(x / 64)` that the engine returns from its state at
construction is `1`. -/
theorem create_cells_are_engine_bits (W H : Nat) (hW : 1 ≤ W) (hH : 1 ≤ H)
    (hsz : W * H < 2 ^ 30) (r : Rng) :
    ∃ a p r2, GoL1.CellTable.create W H r = some (a, r2) ∧
      Sprite.CellTable.create W H r = some (p, r2) ∧
      a.width = W ∧ a.height = H ∧ p.width = W ∧ p.height = H ∧
      ∀ x y : Nat, x < W → y < H →
        (a.isAlive x y = true ↔
          r.words (r.pos + y * ((W + 63) / 64) + x / 64) % 2 ^ 64 / 2 ^ (x % 64) % 2 = 1) ∧
        (p.isAlive x y = true ↔
          r.words (r.pos + y * ((W + 63) / 64) + x / 64) % 2 ^ 64 / 2 ^ (x % 64) % 2 = 1) := by
  have hWH : W ≤ W * H := Nat.le_mul_of_pos_right W (by omega)
  have hHW : H ≤ W * H := Nat.le_mul_of_pos_left H (by omega)
  obtain ⟨a, p, r2, ha, hp, _, _, _, _, haw, hah, hpw, hph, hbits⟩ :=
    create_spec W H (by omega) (by omega) hsz r
  refine ⟨a, p, r2, ha, hp, haw, hah, hpw, hph, ?_⟩
  intro x y hx hy
  have h := hbits x y (Int.ofNat_nonneg x) (by omega) (Int.ofNat_nonneg y) (by omega)
  have hle := randBit_le_one r W x y
  simp only [Int.toNat_ofNat] at h
  rw [h.1, h.2]
  simp only [bne_iff_ne, ne_eq]
  unfold randBit at hle ⊢
  omega

theorem create_cells_are_engine_bits_witness :
    ∃ a p r2, GoL1.CellTable.create 3 2 ⟨fun k => 5 + k, 0⟩ = some (a, r2) ∧
      Sprite.CellTable.create 3 2 ⟨fun k => 5 + k, 0⟩ = some (p, r2) ∧
      a.width = (3 : Nat) ∧ a.height = (2 : Nat) ∧ p.width = (3 : Nat) ∧
      p.height = (2 : Nat) ∧
      ∀ x y : Nat, x < 3 → y < 2 →
        (a.isAlive x y = true ↔
          (5 + (0 + y * ((3 + 63) / 64) + x / 64)) % 2 ^ 64 / 2 ^ (x % 64) % 2 = 1) ∧
        (p.isAlive x y = true ↔
          (5 + (0 + y * ((3 + 63) / 64) + x / 64)) % 2 ^ 64 / 2 ^ (x % 64) % 2 = 1) :=
  create_cells_are_engine_bits 3 2 (by decide) (by decide) (by decide) ⟨fun k => 5 + k, 0⟩

/-! ## The class invariant is maintained -/

namespace GoL1.CellTable

/-- The operations on an in-range cell and on the whole grid keep the class invariant:
`toggle` and `clear()` return a valid table with `0`/`1` cells. (`update()`,
`randomize()` and the constructor are covered by `update_alive`, `randomize_agree` and
`create_spec`.) -/
theorem toggle_clear_keep_invariant (t : CellTable) (hv : t.Valid) (hb : t.Binary) :
    (t.clear.Valid ∧ t.clear.Binary) ∧
    ∀ x y : Int, 0 ≤ x → x < t.width → 0 ≤ y → y < t.height →
      ∃ t1, t.toggle x y = some t1 ∧ t1.Valid ∧ t1.Binary := by
  refine ⟨⟨clear_valid t hv, ?_⟩, ?_⟩
  · intro c hc
    simp only [clear, List.mem_map] at hc
    obtain ⟨_, _, rfl⟩ := hc
    omega
  · intro x y hx hxW hy hyH
    have hidx := idx_bounds hx hxW hy hyH
    have hlen : x + y * t.width < t.cells.length := by
      have := hv.2.2.1
      omega
    refine ⟨_, toggle_eq_of_index hidx.1 hlen, ?_, ?_⟩
    · obtain ⟨h1, h2, h3, h4⟩ := hv
      exact ⟨h1, h2, by simpa using h3, h4⟩
    · intro c hc
      rcases List.mem_or_eq_of_mem_set hc with h | h
      · exact hb c h
      · rw [h]
        unfold lnot
        split_ifs <;> omega

end GoL1.CellTable

/-! ## Construction with a zero dimension -/

/-- C11 as stated fails: with width 0 or height 0 both constructors succeed and build an
empty table; no `InvalidDimension` is raised. -/
theorem create_zero_dimension_succeeds :
    (GoL1.CellTable.create 0 3 ⟨fun _ => 0, 0⟩).map (fun u => u.1) = some ⟨0, 3, [], []⟩ ∧
    (GoL1.CellTable.create 3 0 ⟨fun _ => 0, 0⟩).map (fun u => u.1) = some ⟨3, 0, [], []⟩ ∧
    (Sprite.CellTable.create 0 3 ⟨fun _ => 0, 0⟩).map (fun u => u.1) = some ⟨0, 3, [], []⟩ ∧
    (Sprite.CellTable.create 3 0 ⟨fun _ => 0, 0⟩).map (fun u => u.1)
      = some ⟨3, 0, [], []⟩ := by
  decide

/-- C11, amended: the constructors have no guard on the dimensions. Whenever `W = 0` or
`H = 0` (the other size below `2 ^ 31`, so that it is itself as an `int`), construction
succeeds and gives a table of width `W` and height `H` with no cell at all. -/
theorem create_has_no_dimension_guard (W H : Nat) (r : Rng) (hzero : W = 0 ∨ H = 0)
    (hW : W < 2 ^ 31) (hH : H < 2 ^ 31) :
    ∃ a p r2, GoL1.CellTable.create W H r = some (a, r2) ∧
      Sprite.CellTable.create W H r = some (p, r2) ∧
      a.width = W ∧ a.height = H ∧ a.cells = [] ∧
      p.width = W ∧ p.height = H ∧ p.pixels = [] := by
  have hz : W * H = 0 := by
    rcases hzero with h | h <;> simp [h]
  obtain ⟨a, p, r2, ha, hp, _, hav, hpv, _, haw, hah, hpw, hph, _⟩ :=
    create_spec W H hW hH (by omega) r
  refine ⟨a, p, r2, ha, hp, haw, hah, ?_, hpw, hph, ?_⟩
  · have h := hav.2.2.1
    rw [haw, hah, ← Nat.cast_mul, hz] at h
    exact List.length_eq_zero.mp (by exact_mod_cast h)
  · have h := hpv.2.2.1
    rw [hpw, hph, ← Nat.cast_mul, hz] at h
    exact List.length_eq_zero.mp (by exact_mod_cast h)

theorem create_has_no_dimension_guard_witness :
    ∃ a p r2, GoL1.CellTable.create 0 5 ⟨fun k => 5 + k, 0⟩ = some (a, r2) ∧
      Sprite.CellTable.create 0 5 ⟨fun k => 5 + k, 0⟩ = some (p, r2) ∧
      a.width = (0 : Nat) ∧ a.height = (5 : Nat) ∧ a.cells = [] ∧
      p.width = (0 : Nat) ∧ p.height = (5 : Nat) ∧ p.pixels = [] :=
  create_has_no_dimension_guard 0 5 ⟨fun k => 5 + k, 0⟩ (Or.inl rfl) (by decide) (by decide)
/-! ## Wrapping in `fix_neighbors` -/

theorem neg_one_emod {W : Int} (hW : 0 < W) : (-1) % W = W - 1 := by
  have h1 := wrapCoord_eq_emod hW (v := -1) (by omega) (by omega)
  have h2 := wrapCoord_cases (-1) W
  omega

/-- C14: for `W, H ≥ 1`, an in-range cell `(i, j)` and a counter buffer of `W * H`
entries, (1) the guarded add-or-subtract of `fix_neighbors` computes
`((i + dx) mod W, (j + dy) mod H)` for each of the eight offsets; (2) `fix_neighbors(i, j)`
(the same text in both files) has a result in which the counter at every index `k` has
grown, modulo 256, by the number of offsets with
`((i + dx) mod W) + ((j + dy) mod H) * W = k`, one increment per offset; (3) offset
`(1, 1)` takes `(W - 1, H - 1)` to `(0, 0)`, and when `(W - 1, H - 1)` is alive the
counter of `(0, 0)` after `update()` is at least 1. -/
theorem fix_neighbors_wraps_modulo (t : GoL1.CellTable) (hv : t.Valid) (hW : 1 ≤ t.width)
    (hH : 1 ≤ t.height) (i j : Int) (hi : 0 ≤ i ∧ i < t.width) (hj : 0 ≤ j ∧ j < t.height) :
    (∀ o ∈ offsets, wrapCoord (i + o.1) t.width = (i + o.1) % t.width ∧
      wrapCoord (j + o.2) t.height = (j + o.2) % t.height) ∧
    (∃ nb1, fixNeighbors t.width t.height t.neighbors i j = some nb1 ∧
      nb1.length = t.neighbors.length ∧
      ∀ (k : Int) (v : Nat), 0 ≤ k → vecGet t.neighbors k = some v → v < 256 →
        vecGet nb1 k = some ((v + offsets.countP (fun o =>
          decide ((i + o.1) % t.width + (j + o.2) % t.height * t.width = k))) % 256)) ∧
    (wrapCoord (t.width - 1 + 1) t.width = 0 ∧ wrapCoord (t.height - 1 + 1) t.height = 0) ∧
    (t.isAlive (t.width - 1) (t.height - 1) = true →
      ∃ t2 n, t.update = some t2 ∧ vecGet t2.neighbors (0 + 0 * t.width) = some n ∧
        1 ≤ n) := by
  have hW0 : 0 < t.width := by omega
  have hH0 : 0 < t.height := by omega
  have hmod : ∀ o ∈ offsets, wrapCoord (i + o.1) t.width = (i + o.1) % t.width ∧
      wrapCoord (j + o.2) t.height = (j + o.2) % t.height := by
    intro o ho
    have hr := offsets_range ho
    exact ⟨wrapCoord_eq_emod hW0 (by omega) (by omega),
      wrapCoord_eq_emod hH0 (by omega) (by omega)⟩
  refine ⟨hmod, ?_, ?_, ?_⟩
  · obtain ⟨nb1, hf, hl, hspec⟩ := bump_fold_spec t.width t.height i j hW0 hH0 hi.1 hi.2
      hj.1 hj.2 offsets (fun o ho => offsets_range ho) t.neighbors hv.2.2.2
    refine ⟨nb1, hf, hl, ?_⟩
    intro k v hk hget hlt
    have hc : offsets.countP (fun o => decide (wrapCoord (i + o.1) t.width +
          wrapCoord (j + o.2) t.height * t.width = k))
        = offsets.countP (fun o =>
          decide ((i + o.1) % t.width + (j + o.2) % t.height * t.width = k)) := by
      apply countP_same
      intro o ho
      rw [(hmod o ho).1, (hmod o ho).2]
    rw [hspec k v hk hget hlt, hc]
  · have h1 := wrapCoord_cases (t.width - 1 + 1) t.width
    have h2 := wrapCoord_cases (t.height - 1 + 1) t.height
    constructor <;> omega
  · intro halive
    obtain ⟨t2, h2, _, _, _, _, hspec⟩ := GoL1.CellTable.update_spec t hv hW0 hH0
    refine ⟨t2, _, h2, (hspec 0 0 le_rfl hW0 le_rfl hH0).2, ?_⟩
    have e1 : ((0 : Int) + -1) % t.width = t.width - 1 := by
      rw [zero_add]
      exact neg_one_emod hW0
    have e2 : ((0 : Int) + -1) % t.height = t.height - 1 := by
      rw [zero_add]
      exact neg_one_emod hH0
    simp only [GoL1.CellTable.neighbourCount, offsets, List.map_cons, List.sum_cons, e1, e2,
      halive, if_true]
    omega

theorem fix_neighbors_wraps_modulo_witness :
    wrapCoord (3 - 1 + 1) 3 = 0 ∧ wrapCoord (2 - 1 + 1) 2 = 0 :=
  (fix_neighbors_wraps_modulo ⟨3, 2, [0, 0, 0, 0, 0, 1], [0, 0, 0, 0, 0, 0]⟩ (by decide)
    (by decide) (by decide) 2 1 (by decide) (by decide)).2.2.1
/-! ## The counters stay below 256 -/

namespace GoL1.CellTable

/-- C17: on every valid grid with `W, H ≥ 1` the first pass of `update()` has a result,
and in it the counter of every cell equals the neighbour count of the cell, a plain sum
of eight terms `0` or `1`, hence at most 8: the increments modulo 256 of the `uint8_t`
counters never wrap, also when `W < 3` or `H < 3` and one cell is counted several
times. -/
theorem counters_at_most_eight (t : CellTable) (hv : t.Valid) (hW : 1 ≤ t.width)
    (hH : 1 ≤ t.height) :
    ∃ t1, t.countPass = some t1 ∧
      ∀ x y : Int, 0 ≤ x → x < t.width → 0 ≤ y → y < t.height →
        ∃ n, vecGet t1.neighbors (x + y * t.width) = some n ∧ n = neighbourCount t x y ∧
          n ≤ 8 := by
  have hW0 : 0 < t.width := by omega
  have hH0 : 0 < t.height := by omega
  obtain ⟨hw0, hh0, hlc, hln⟩ := hv
  have hv0 : Valid { t with neighbors := t.neighbors.map fun _ => 0 } :=
    ⟨hw0, hh0, hlc, by simpa using hln⟩
  obtain ⟨t1, h1, _, _, _, _, hn1⟩ :=
    countPass_spec { t with neighbors := t.neighbors.map fun _ => 0 } hv0 hW0 hH0
      (fun k v h => vecGet_map_zero h)
  refine ⟨t1, h1, ?_⟩
  intro x y hx hxW hy hyH
  have hfin : countedSoFar { t with neighbors := t.neighbors.map fun _ => 0 }
      t.height.toNat 0 x y = neighbourCount t x y :=
    countedSoFar_final { t with neighbors := t.neighbors.map fun _ => 0 } hW0 hH0 x y hx hxW
      hy hyH
  refine ⟨_, hn1 x y hx hxW hy hyH, hfin, ?_⟩
  exact countedSoFar_le _ _ _ _ _

theorem counters_at_most_eight_witness :
    ∃ t1, CellTable.countPass ⟨1, 1, [1], [0]⟩ = some t1 ∧
      ∀ x y : Int, 0 ≤ x → x < 1 → 0 ≤ y → y < 1 →
        ∃ n, vecGet t1.neighbors (x + y * 1) = some n ∧
          n = neighbourCount ⟨1, 1, [1], [0]⟩ x y ∧ n ≤ 8 :=
  counters_at_most_eight ⟨1, 1, [1], [0]⟩ (by decide) (by decide) (by decide)

end GoL1.CellTable
/-! ## `update` and `randomize` never fail -/

namespace GoL1.CellTable

theorem randStep_some (s : CellTable × Nat × Rng) (i j : Int)
    (h0 : 0 ≤ i + j * s.1.width) (hlc : i + j * s.1.width < s.1.cells.length) :
    ∃ s2, randStep j i s = some s2 ∧ s2.1.width = s.1.width ∧ s2.1.height = s.1.height ∧
      s2.1.cells.length = s.1.cells.length := by
  simp only [randStep, at_, vecGet_of_lt h0 hlc, Option.some_bind]
  split_ifs
  · rw [toggle_eq_of_index h0 hlc]
    exact ⟨_, rfl, rfl, rfl, by simp⟩
  · exact ⟨_, rfl, rfl, rfl, rfl⟩

/-- Method `randomize()` has a result on every valid table, whatever the cells hold. -/
theorem randomize_total (t : CellTable) (hv : t.Valid) (r : Rng) :
    ∃ t2 r2, t.randomize r = some (t2, r2) := by
  obtain ⟨hw0, hh0, hlc, _⟩ := hv
  obtain ⟨s, hs, _⟩ := forLoop2_inv t.height.toNat t.width.toNat
    (fun s : CellTable × Nat × Rng => s.1.width.toNat) (fun j i s => randStep j i s)
    (fun _ _ s => s.1.width = t.width ∧ s.1.height = t.height ∧
      s.1.cells.length = t.cells.length) (t, 0, r) ⟨rfl, rfl, rfl⟩
    (fun j i s hI => by
      show s.1.width.toNat = t.width.toNat
      rw [hI.1])
    (fun j i hj hi s ⟨hsw, hsh, hsl⟩ => by
      have hb := idx_bounds (Int.ofNat_nonneg i) (show (i : Int) < t.width by omega)
        (Int.ofNat_nonneg j) (show (j : Int) < t.height by omega)
      obtain ⟨s2, h2, hw2, hh2, hl2⟩ := randStep_some s i j (by rw [hsw]; exact hb.1)
        (by rw [hsw, hsl]; omega)
      exact ⟨s2, h2, by rw [hw2, hsw], by rw [hh2, hsh], by rw [hl2, hsl]⟩)
    (fun _ _ _ hI => hI)
  exact ⟨s.1, s.2.2, by simp [randomize, hs]⟩

/-- C13: on every valid grid with `W, H ≥ 1` (cell and counter buffers of `W * H`
entries), (1) every index the loops compute lies in `[0, W * H)`: `i + j * width` for an
in-range cell and `io + jo * width` for each of its eight wrapped neighbours;
(2) `update()` has a result; (3) `randomize()` has a result from every engine state. -/
theorem update_randomize_never_fail (t : CellTable) (hv : t.Valid) (hW : 1 ≤ t.width)
    (hH : 1 ≤ t.height) :
    (∀ i j : Int, 0 ≤ i → i < t.width → 0 ≤ j → j < t.height →
      (0 ≤ i + j * t.width ∧ i + j * t.width < t.width * t.height) ∧
      ∀ o ∈ offsets,
        0 ≤ wrapCoord (i + o.1) t.width + wrapCoord (j + o.2) t.height * t.width ∧
        wrapCoord (i + o.1) t.width + wrapCoord (j + o.2) t.height * t.width
          < t.width * t.height) ∧
    (∃ t2, t.update = some t2) ∧
    (∀ r : Rng, ∃ t2 r2, t.randomize r = some (t2, r2)) := by
  refine ⟨?_, ?_, fun r => randomize_total t hv r⟩
  · intro i j hi hiW hj hjH
    refine ⟨idx_bounds hi hiW hj hjH, ?_⟩
    intro o ho
    have hr := offsets_range ho
    have hx := wrapCoord_range (show 0 < t.width by omega) (v := i + o.1) (by omega)
      (by omega)
    have hy := wrapCoord_range (show 0 < t.height by omega) (v := j + o.2) (by omega)
      (by omega)
    exact idx_bounds hx.1 hx.2 hy.1 hy.2
  · obtain ⟨t2, h2, _⟩ := update_spec t hv (by omega) (by omega)
    exact ⟨t2, h2⟩

theorem update_randomize_never_fail_witness :
    (∃ t2, CellTable.update ⟨2, 1, [0, 1], [9, 9]⟩ = some t2) ∧
    (∀ r : Rng, ∃ t2 r2, CellTable.randomize ⟨2, 1, [0, 1], [9, 9]⟩ r = some (t2, r2)) :=
  (update_randomize_never_fail ⟨2, 1, [0, 1], [9, 9]⟩ (by decide) (by decide)
    (by decide)).2

end GoL1.CellTable
/-! ## The eight neighbours of a cell -/

theorem wrapCoord_inj {W i d e : Int} (hW : 3 ≤ W) (hi : 0 ≤ i) (hiW : i < W)
    (hd : -1 ≤ d ∧ d ≤ 1) (he : -1 ≤ e ∧ e ≤ 1)
    (h : wrapCoord (i + d) W = wrapCoord (i + e) W) : d = e := by
  have h1 := wrapCoord_cases (i + d) W
  have h2 := wrapCoord_cases (i + e) W
  omega

/-- C15 as stated fails on small grids: on the 2 x 2 torus the eight neighbour
coordinates of `(0, 0)` are not pairwise distinct, and on the 1 x 1 torus the cell
`(0, 0)` is its own neighbour. -/
theorem neighbours_coincide_on_small_grids :
    ¬ (neighbourCells 2 2 0 0).Nodup ∧ ((0 : Int), (0 : Int)) ∈ neighbourCells 1 1 0 0 := by
  decide

/-- C15, amended: for every `W, H ≥ 3` and every in-range cell `(i, j)`, the eight
wrapped neighbour coordinates computed by `fix_neighbors` are pairwise distinct and all
different from `(i, j)`. -/
theorem eight_distinct_neighbours (W H i j : Int) (hW : 3 ≤ W) (hH : 3 ≤ H)
    (hi : 0 ≤ i ∧ i < W) (hj : 0 ≤ j ∧ j < H) :
    (neighbourCells W H i j).length = 8 ∧ (neighbourCells W H i j).Nodup ∧
      (i, j) ∉ neighbourCells W H i j := by
  refine ⟨by simp [neighbourCells, offsets], ?_, ?_⟩
  · unfold neighbourCells
    apply List.Nodup.map_on _ (by decide)
    intro o ho o2 ho2 heq
    have hr := offsets_range ho
    have hr2 := offsets_range ho2
    simp only [Prod.mk.injEq] at heq
    exact Prod.ext (wrapCoord_inj hW hi.1 hi.2 hr.1 hr2.1 heq.1)
      (wrapCoord_inj hH hj.1 hj.2 hr.2 hr2.2 heq.2)
  · intro hmem
    simp only [neighbourCells, List.mem_map] at hmem
    obtain ⟨o, ho, heq⟩ := hmem
    have hr := offsets_range ho
    simp only [Prod.mk.injEq] at heq
    have hx0 : wrapCoord (i + 0) W = i := by
      have := wrapCoord_cases (i + 0) W
      omega
    have hy0 : wrapCoord (j + 0) H = j := by
      have := wrapCoord_cases (j + 0) H
      omega
    have h1 : o.1 = 0 := wrapCoord_inj hW hi.1 hi.2 hr.1 (by omega) (heq.1.trans hx0.symm)
    have h2 : o.2 = 0 := wrapCoord_inj hH hj.1 hj.2 hr.2 (by omega) (heq.2.trans hy0.symm)
    have ho0 : o = (0, 0) := Prod.ext h1 h2
    rw [ho0] at ho
    revert ho
    decide

theorem eight_distinct_neighbours_witness :
    (neighbourCells 3 3 0 2).length = 8 ∧ (neighbourCells 3 3 0 2).Nodup ∧
      ((0 : Int), (2 : Int)) ∉ neighbourCells 3 3 0 2 :=
  eight_distinct_neighbours 3 3 0 2 (by decide) (by decide) (by decide) (by decide)
/-! ## `randomize` depends on the engine and the dimensions only -/

theorem list_eq_of_cells {W H : Int} (hW : 0 ≤ W) (l1 l2 : List Nat)
    (h1 : (l1.length : Int) = W * H) (h2 : (l2.length : Int) = W * H)
    (h : ∀ x y : Int, 0 ≤ x → x < W → 0 ≤ y → y < H →
      vecGet l1 (x + y * W) = vecGet l2 (x + y * W)) : l1 = l2 := by
  apply List.ext_getElem?
  intro k
  by_cases hk : k < l1.length
  · have hWpos : 0 < W := by
      by_contra hcon
      have hz : W = 0 := by omega
      rw [hz, zero_mul] at h1
      omega
    have hkl : (k : Int) < W * H := by omega
    obtain ⟨hx, hy, hxy⟩ := idx_decomp hWpos (Int.ofNat_nonneg k) hkl
    have := h _ _ hx.1 hx.2 hy.1 hy.2
    simpa [hxy, vecGet] using this
  · have hk2 : ¬ k < l2.length := by omega
    rw [List.getElem?_eq_none (by omega), List.getElem?_eq_none (by omega)]

namespace Sprite.CellTable

theorem sprite_randStep_eq (t : CellTable) (num : Nat) (rnd : Rng) (i j : Int)
    (h0 : 0 ≤ i + j * t.width) (hlc : i + j * t.width < t.pixels.length) :
    randStep j i (t, num, rnd) =
      some ({ t with
          pixels := t.pixels.set (i + j * t.width).toNat
            (if (refill i num rnd).1 % 2 = 1 then 0xFFFFFFFF else 0xFF000000) },
        (refill i num rnd).1 >>> 1, (refill i num rnd).2) := by
  simp only [randStep, set_state, vecSet_of_lt _ h0 hlc, Option.some_bind,
    Nat.and_one_is_mod]
  have hb : (refill i num rnd).1 % 2 = 0 ∨ (refill i num rnd).1 % 2 = 1 := by omega
  rcases hb with hb | hb <;> simp [hb]

/-- Method `randomize()` on a valid pixel table: it has a result of the same shape, every pixel
is white or opaque black according to its bit of the word sequence, and the engine has
advanced by `ceil(W / 64)` words per row. -/
theorem sprite_randomize_spec (t : CellTable) (hv : t.Valid) (r : Rng) :
    ∃ t2 r2, t.randomize r = some (t2, r2) ∧
      t2.width = t.width ∧ t2.height = t.height ∧ t2.neighbors = t.neighbors ∧
      t2.pixels.length = t.pixels.length ∧ r2.words = r.words ∧
      r2.pos = r.pos + t.height.toNat * ((t.width.toNat + 63) / 64) ∧
      ∀ x y : Int, 0 ≤ x → x < t.width → 0 ≤ y → y < t.height →
        vecGet t2.pixels (x + y * t.width)
          = some (if randBit r t.width.toNat x.toNat y.toNat = 1 then 0xFFFFFFFF
            else 0xFF000000) := by
  obtain ⟨hw0, hh0, hlc, hln⟩ := hv
  have hres := forLoop2_inv t.height.toNat t.width.toNat
    (fun s : CellTable × Nat × Rng => s.1.width.toNat) (fun j i s => randStep j i s)
    (fun j i s => s.1.width = t.width ∧ s.1.height = t.height ∧
      s.1.neighbors = t.neighbors ∧ s.1.pixels.length = t.pixels.length ∧
      s.2.2.words = r.words ∧
      s.2.2.pos = r.pos + j * ((t.width.toNat + 63) / 64) + (i + 63) / 64 ∧
      (i % 64 ≠ 0 → s.2.1 =
        r.words (r.pos + j * ((t.width.toNat + 63) / 64) + i / 64) % 2 ^ 64 / 2 ^ (i % 64)) ∧
      ∀ x y : Int, 0 ≤ x → x < t.width → 0 ≤ y → y < t.height →
        vecGet s.1.pixels (x + y * t.width)
          = some (if GoL1.CellTable.visited j i x y then
              (if randBit r t.width.toNat x.toNat y.toNat = 1 then 0xFFFFFFFF
                else 0xFF000000)
            else t.pixels[(x + y * t.width).toNat]?.getD 0)) (t, 0, r)
    ?_ ?_ ?_ ?_
  · obtain ⟨s, hs, hw, hh, hn, hl, hrw, hrp, _, hcells⟩ := hres
    refine ⟨s.1, s.2.2, by simp [randomize, hs], hw, hh, hn, hl, hrw, ?_, ?_⟩
    · rw [hrp]
      omega
    · intro x y hx hxW hy hyH
      rw [hcells x y hx hxW hy hyH, GoL1.CellTable.visited_all _ _ _ (by omega)]
      simp
  · refine ⟨rfl, rfl, rfl, rfl, rfl, by simp, by simp, ?_⟩
    intro x y hx hxW hy hyH
    have hbd := idx_bounds hx hxW hy hyH
    have hlt : x + y * t.width < t.pixels.length := by omega
    rw [GoL1.CellTable.visited_zero _ _ hx hy]
    show vecGet t.pixels (x + y * t.width) = _
    rw [vecGet_of_lt hbd.1 hlt]
    simp
  · intro j i s hI
    show s.1.width.toNat = t.width.toNat
    rw [hI.1]
  · intro j i hj hi s ⟨hsw, hsh, hsn, hsl, hrw, hrp, hnum, hsc⟩
    have hi0 : (0 : Int) ≤ i := Int.ofNat_nonneg i
    have hj0 : (0 : Int) ≤ j := Int.ofNat_nonneg j
    have hiW : (i : Int) < t.width := by omega
    have hjH : (j : Int) < t.height := by omega
    have hbd := idx_bounds hi0 hiW hj0 hjH
    have hb0 : 0 ≤ (i : Int) + (j : Int) * s.1.width := by rw [hsw]; exact hbd.1
    have hbc : (i : Int) + (j : Int) * s.1.width < s.1.pixels.length := by
      rw [hsw, hsl]; omega
    obtain ⟨hd1, hd2, hd3⟩ := refill_spec r s.2.2 s.2.1
      (r.pos + j * ((t.width.toNat + 63) / 64)) i hrw hrp hnum
    have hstep := sprite_randStep_eq s.1 s.2.1 s.2.2 i j hb0 hbc
    refine ⟨_, hstep, hsw, hsh, hsn, by simp [hsl], hd2, ?_, ?_, ?_⟩
    · rw [hd3]
    · intro hne
      show (refill (i : Int) s.2.1 s.2.2).1 >>> 1 = _
      have e : (i + 1) / 64 = i / 64 := by omega
      rw [hd1, shift_next _ _ hne, e]
    · intro x y hx hxW hy hyH
      have hbx := idx_bounds hx hxW hy hyH
      show vecGet (s.1.pixels.set _ _) (x + y * t.width) = _
      rw [vecGet_set _ hb0 hbc hbx.1, GoL1.CellTable.visited_succ, hsw, hd1]
      by_cases hxy : x + y * t.width = (i : Int) + (j : Int) * t.width
      · have hij := idx_inj hx hxW hi0 hiW hxy
        rw [if_pos hxy]
        simp [hij.1, hij.2, randBit]
      · have hne : ¬ (x = (i : Int) ∧ y = (j : Int)) := by
          rintro ⟨h1, h2⟩
          exact hxy (by rw [h1, h2])
        rw [if_neg hxy, hsc x y hx hxW hy hyH]
        simp [hne]
  · intro j _ s ⟨hsw, hsh, hsn, hsl, hrw, hrp, _, hsc⟩
    refine ⟨hsw, hsh, hsn, hsl, hrw, ?_, by simp, ?_⟩
    · rw [hrp]
      have : (0 + 63) / 64 = 0 := by norm_num
      rw [this, Nat.add_mul]
      omega
    · intro x y hx hxW hy hyH
      rw [hsc x y hx hxW hy hyH,
        GoL1.CellTable.visited_row_end j t.width.toNat _ _ hx (by omega)]

end Sprite.CellTable
/-- C12: `randomize()` run from the same engine state on two valid tables of the same
dimensions gives the same cells, whatever the tables held before, and leaves the engine
in the same state; this holds for the boolean-array table (cells `0` or `1`, the class
invariant) and for the pixel table. -/
theorem randomize_ignores_old_contents (g1 g2 : GoL1.CellTable) (p1 p2 : Sprite.CellTable)
    (r : Rng) (hg1 : g1.Valid ∧ g1.Binary) (hg2 : g2.Valid ∧ g2.Binary)
    (hgd : g1.width = g2.width ∧ g1.height = g2.height)
    (hp1 : p1.Valid) (hp2 : p2.Valid)
    (hpd : p1.width = p2.width ∧ p1.height = p2.height) :
    (∃ a1 a2 r2, g1.randomize r = some (a1, r2) ∧ g2.randomize r = some (a2, r2) ∧
      a1.cells = a2.cells ∧ a1.width = a2.width ∧ a1.height = a2.height) ∧
    (∃ q1 q2 r2, p1.randomize r = some (q1, r2) ∧ p2.randomize r = some (q2, r2) ∧
      q1.pixels = q2.pixels ∧ q1.width = q2.width ∧ q1.height = q2.height) := by
  refine ⟨?_, ?_⟩
  · obtain ⟨a1, r1, h1, hw1, hh1, _, hl1, hrw1, hrp1, hc1⟩ :=
      GoL1.CellTable.randomize_spec g1 hg1.1 hg1.2 r
    obtain ⟨a2, r2, h2, hw2, hh2, _, hl2, hrw2, hrp2, hc2⟩ :=
      GoL1.CellTable.randomize_spec g2 hg2.1 hg2.2 r
    have hr : r2 = r1 := rng_eq (by rw [hrw2, hrw1]) (by rw [hrp2, hrp1, hgd.1, hgd.2])
    rw [hr] at h2
    refine ⟨a1, a2, r1, h1, h2, ?_, by rw [hw1, hw2, hgd.1], by rw [hh1, hh2, hgd.2]⟩
    apply list_eq_of_cells hg1.1.1 a1.cells a2.cells (by rw [hl1]; exact hg1.1.2.2.1)
      (by rw [hl2, hgd.1, hgd.2]; exact hg2.1.2.2.1)
    intro x y hx hxW hy hyH
    rw [hc1 x y hx hxW hy hyH]
    have h := hc2 x y hx (by rw [← hgd.1]; exact hxW) hy (by rw [← hgd.2]; exact hyH)
    rw [← hgd.1] at h
    rw [h]
  · obtain ⟨q1, r1, h1, hw1, hh1, _, hl1, hrw1, hrp1, hc1⟩ :=
      Sprite.CellTable.sprite_randomize_spec p1 hp1 r
    obtain ⟨q2, r2, h2, hw2, hh2, _, hl2, hrw2, hrp2, hc2⟩ :=
      Sprite.CellTable.sprite_randomize_spec p2 hp2 r
    have hr : r2 = r1 := rng_eq (by rw [hrw2, hrw1]) (by rw [hrp2, hrp1, hpd.1, hpd.2])
    rw [hr] at h2
    refine ⟨q1, q2, r1, h1, h2, ?_, by rw [hw1, hw2, hpd.1], by rw [hh1, hh2, hpd.2]⟩
    apply list_eq_of_cells hp1.1 q1.pixels q2.pixels (by rw [hl1]; exact hp1.2.2.1)
      (by rw [hl2, hpd.1, hpd.2]; exact hp2.2.2.1)
    intro x y hx hxW hy hyH
    rw [hc1 x y hx hxW hy hyH]
    have h := hc2 x y hx (by rw [← hpd.1]; exact hxW) hy (by rw [← hpd.2]; exact hyH)
    rw [← hpd.1] at h
    rw [h]

theorem randomize_ignores_old_contents_witness :
    (∃ a1 a2 r2,
      GoL1.CellTable.randomize ⟨2, 1, [0, 1], [0, 0]⟩ ⟨fun k => 5 + k, 0⟩ = some (a1, r2) ∧
      GoL1.CellTable.randomize ⟨2, 1, [1, 1], [3, 4]⟩ ⟨fun k => 5 + k, 0⟩ = some (a2, r2) ∧
      a1.cells = a2.cells ∧ a1.width = a2.width ∧ a1.height = a2.height) ∧
    (∃ q1 q2 r2,
      Sprite.CellTable.randomize ⟨2, 1, [0xFF000000, 0xFFFFFFFF], [0, 0]⟩
        ⟨fun k => 5 + k, 0⟩ = some (q1, r2) ∧
      Sprite.CellTable.randomize ⟨2, 1, [17, 0xFFFFFFFF], [3, 4]⟩
        ⟨fun k => 5 + k, 0⟩ = some (q2, r2) ∧
      q1.pixels = q2.pixels ∧ q1.width = q2.width ∧ q1.height = q2.height) :=
  ⟨(randomize_ignores_old_contents ⟨2, 1, [0, 1], [0, 0]⟩ ⟨2, 1, [1, 1], [3, 4]⟩
      ⟨2, 1, [0xFF000000, 0xFFFFFFFF], [0, 0]⟩ ⟨2, 1, [17, 0xFFFFFFFF], [3, 4]⟩
      ⟨fun k => 5 + k, 0⟩ (by decide) (by decide) (by decide) (by decide) (by decide)
      (by decide)).1,
   (randomize_ignores_old_contents ⟨2, 1, [0, 1], [0, 0]⟩ ⟨2, 1, [1, 1], [3, 4]⟩
      ⟨2, 1, [0xFF000000, 0xFFFFFFFF], [0, 0]⟩ ⟨2, 1, [17, 0xFFFFFFFF], [3, 4]⟩
      ⟨fun k => 5 + k, 0⟩ (by decide) (by decide) (by decide) (by decide) (by decide)
      (by decide)).2⟩

/-- C16 as stated fails. On a 1 x 1 table and an engine whose next word is `1`, the cell
becomes alive although bit 63 of that word is `0`: the word is consumed from its least
significant bit. On a 1 x 2 table two words are drawn, not `ceil(1 * 2 / 64) = 1`: every
row starts a new word. -/
theorem randomize_not_msb_first_per_cell :
    (GoL1.CellTable.randomize ⟨1, 1, [0], [0]⟩ ⟨fun _ => 1, 0⟩).map (fun u => u.1.cells)
      = some [1] ∧
    1 / 2 ^ 63 % 2 = 0 ∧
    (GoL1.CellTable.randomize ⟨1, 2, [0, 0], [0, 0]⟩ ⟨fun _ => 1, 0⟩).map (fun u => u.2.pos)
      = some 2 ∧
    (Sprite.CellTable.randomize ⟨1, 2, [0, 0], [0, 0]⟩ ⟨fun _ => 1, 0⟩).map
      (fun u => u.2.pos) = some 2 ∧
    (1 * 2 + 63) / 64 = 1 := by
  decide

/-- C16, amended: `randomize()` consumes one bit per cell from 64-bit words, least
significant bit first, and starts a new word at the beginning of every row and after every
64 columns of a row: cell `(x, y)` receives bit `x mod 64` (bit 0 being the least
significant) of the word number `y * ceil(W / 64) + floor(x / 64)` drawn, so exactly
`H * ceil(W / 64)` words are drawn. Both tables behave so. -/
theorem randomize_bits_lsb_first_per_row (g : GoL1.CellTable) (p : Sprite.CellTable)
    (r : Rng) (hg : g.Valid ∧ g.Binary) (hp : p.Valid) :
    (∃ a r2, g.randomize r = some (a, r2) ∧
      r2.pos = r.pos + g.height.toNat * ((g.width.toNat + 63) / 64) ∧
      ∀ x y : Nat, (x : Int) < g.width → (y : Int) < g.height →
        a.at_ x y = some (r.words (r.pos + y * ((g.width.toNat + 63) / 64) + x / 64)
          % 2 ^ 64 / 2 ^ (x % 64) % 2)) ∧
    (∃ q r2, p.randomize r = some (q, r2) ∧
      r2.pos = r.pos + p.height.toNat * ((p.width.toNat + 63) / 64) ∧
      ∀ x y : Nat, (x : Int) < p.width → (y : Int) < p.height →
        q.get_state x y = some (decide (r.words
          (r.pos + y * ((p.width.toNat + 63) / 64) + x / 64)
            % 2 ^ 64 / 2 ^ (x % 64) % 2 = 1))) := by
  constructor
  · obtain ⟨a, r2, h, hw, _, _, _, _, hrp, hc⟩ :=
      GoL1.CellTable.randomize_spec g hg.1 hg.2 r
    refine ⟨a, r2, h, hrp, ?_⟩
    intro x y hx hy
    have := hc x y (Int.ofNat_nonneg x) hx (Int.ofNat_nonneg y) hy
    simpa [GoL1.CellTable.at_, hw, randBit] using this
  · obtain ⟨q, r2, h, hw, _, _, _, _, hrp, hc⟩ := Sprite.CellTable.sprite_randomize_spec p hp r
    refine ⟨q, r2, h, hrp, ?_⟩
    intro x y hx hy
    have := hc x y (Int.ofNat_nonneg x) hx (Int.ofNat_nonneg y) hy
    simp only [Sprite.CellTable.get_state, hw, this, Option.map_some', Int.toNat_ofNat,
      randBit, Option.some.injEq]
    split_ifs with hb
    · rw [decide_eq_true hb]
      rfl
    · rw [decide_eq_false hb]
      rfl

theorem randomize_bits_lsb_first_per_row_witness :
    (∃ a r2,
      GoL1.CellTable.randomize ⟨2, 2, [0, 1, 0, 0], [0, 0, 0, 0]⟩ ⟨fun k => 5 + k, 0⟩
        = some (a, r2) ∧
      r2.pos = 0 + (2 : Int).toNat * (((2 : Int).toNat + 63) / 64) ∧
      ∀ x y : Nat, (x : Int) < 2 → (y : Int) < 2 →
        a.at_ x y = some ((5 + (0 + y * (((2 : Int).toNat + 63) / 64) + x / 64))
          % 2 ^ 64 / 2 ^ (x % 64) % 2)) :=
  (randomize_bits_lsb_first_per_row ⟨2, 2, [0, 1, 0, 0], [0, 0, 0, 0]⟩
    ⟨2, 2, [0, 0, 0, 0], [0, 0, 0, 0]⟩ ⟨fun k => 5 + k, 0⟩ (by decide) (by decide)).1

/-! ## The bisection of `drawBackground` -/

namespace Classification

/-- Invariant of the bisection for a width of at most `2 ^ 31`, where neither `l + r`
nor `r - l` wraps: `pred l` is the category of column 0, `r` is either the width itself
or a column of another category, and `predict` is called inside the row only; with
`r - l - 1` iterations left at most, the loop has a result. -/
theorem bisectLoop_spec (pred : Nat → Int) (category : Int) (sizeX : Nat)
    (hsize : sizeX ≤ 2 ^ 31) :
    ∀ (fuel l r : Nat) (seen : List Nat), l < r → r ≤ sizeX → r - l ≤ fuel + 1 →
      pred l = category → (r = sizeX ∨ pred r ≠ category) → (∀ m ∈ seen, m < sizeX) →
      ∃ l2 seen2, bisectLoop pred category fuel l r seen = some (l2, seen2) ∧
        pred l2 = category ∧ l2 < sizeX ∧ (l2 + 1 = sizeX ∨ pred (l2 + 1) ≠ category) ∧
        ∀ m ∈ seen2, m < sizeX := by
  intro fuel
  induction fuel with
  | zero =>
    intro l r seen hlr hr hf hl hrp hs
    have hd : (r + 2 ^ 32 - l) % 2 ^ 32 = r - l := by omega
    have hstop : ¬ ((r + 2 ^ 32 - l) % 2 ^ 32 > 1) := by omega
    have hr1 : r = l + 1 := by omega
    rw [bisectLoop, if_neg hstop]
    refine ⟨l, seen, rfl, hl, by omega, ?_, hs⟩
    rw [← hr1]
    exact hrp
  | succ f ih =>
    intro l r seen hlr hr hf hl hrp hs
    have hd : (r + 2 ^ 32 - l) % 2 ^ 32 = r - l := by omega
    have hsum : (l + r) % 2 ^ 32 = l + r := by omega
    by_cases hgo : (r + 2 ^ 32 - l) % 2 ^ 32 > 1
    · have hm1 : l < (l + r) / 2 := by omega
      have hm2 : (l + r) / 2 < r := by omega
      have hseen : ∀ m ∈ (l + r) / 2 :: seen, m < sizeX := by
        intro m hm
        rcases List.mem_cons.mp hm with h | h
        · omega
        · exact hs m h
      rw [bisectLoop, if_pos hgo, hsum]
      by_cases hp : category = pred ((l + r) / 2)
      · simp only [hp, if_true]
        rw [← hp]
        exact ih ((l + r) / 2) r _ hm2 hr (by omega) hp.symm hrp hseen
      · simp only [hp, if_false]
        exact ih l ((l + r) / 2) _ hm1 (by omega) (by omega) hl
          (Or.inr (fun h => hp h.symm)) hseen
    · have hr1 : r = l + 1 := by omega
      rw [bisectLoop, if_neg hgo]
      refine ⟨l, seen, rfl, hl, by omega, ?_, hs⟩
      rw [← hr1]
      exact hrp

/-- The columns `2 ^ k - 1` for `k ≤ 31`: on the width `2 ^ 32 - 1` with a prediction
that differs from `category` at the last column only, the bisection moves `l` from one of
them to the next lower one and from `0` back to `2 ^ 31 - 1`, whatever the number of
iterations allowed. -/
theorem bisectLoop_cycles (fuel : Nat) :
    ∀ (k : Nat) (seen : List Nat), k ≤ 31 →
      bisectLoop (fun m => if m = 4294967294 then -1 else 1) 1 fuel (2 ^ k - 1) 4294967295
        seen = none := by
  induction fuel with
  | zero =>
    intro k seen hk
    have hgo : (4294967295 + 2 ^ 32 - (2 ^ k - 1)) % 2 ^ 32 > 1 := by
      interval_cases k <;> decide
    rw [bisectLoop, if_pos hgo]
  | succ f ih =>
    intro k seen hk
    have hgo : (4294967295 + 2 ^ 32 - (2 ^ k - 1)) % 2 ^ 32 > 1 := by
      interval_cases k <;> decide
    have hm : (2 ^ k - 1 + 4294967295) % 2 ^ 32 / 2 = 2 ^ ((k + 31) % 32) - 1 := by
      interval_cases k <;> decide
    have hne : ¬ (2 ^ ((k + 31) % 32) - 1 = 4294967294) := by
      interval_cases k <;> decide
    rw [bisectLoop, if_pos hgo]
    simp only [hm, if_neg hne, if_true]
    exact ih ((k + 31) % 32) _ (by omega)

/-- C20 as stated fails: on the width `size.x = 2 ^ 32 - 1` with a prediction equal to
`category` at every column but the last, the `uint32_t` sum `l + r` wraps, `l` runs
through `0, 2 ^ 31 - 1, 2 ^ 30 - 1, ..., 1, 0, ...` and the loop has no result, however
many iterations are allowed. -/
theorem bisect_wraps_and_never_ends :
    (fun m => if m = 4294967294 then (-1 : Int) else 1) 0 = 1 ∧
    (fun m => if m = 4294967294 then (-1 : Int) else 1) (4294967295 - 1) ≠ 1 ∧
    (∀ fuel : Nat,
      bisectLoop (fun m => if m = 4294967294 then -1 else 1) 1 fuel 0 4294967295 [] = none) ∧
    bisect (fun m => if m = 4294967294 then -1 else 1) 1 4294967295 = none := by
  refine ⟨by decide, by decide, fun fuel => bisectLoop_cycles fuel 0 [] (by omega), ?_⟩
  exact bisectLoop_cycles 4294967295 0 [] (by omega)

/-- C20, amended: for every width `2 ≤ size.x ≤ 2 ^ 31` and every prediction `pred` of
the row, monotone or not, with `pred 0 = category` and `pred (size.x - 1) ≠ category`,
the bisection loop terminates with a column `l ≤ size.x - 2` such that
`pred l = category` and `pred (l + 1) ≠ category`, and every column at which `predict`
was called is below `size.x`. -/
theorem bisect_finds_boundary (pred : Nat → Int) (category : Int) (sizeX : Nat)
    (h2 : 2 ≤ sizeX) (hsize : sizeX ≤ 2 ^ 31) (h0 : pred 0 = category)
    (hlast : pred (sizeX - 1) ≠ category) :
    ∃ l seen, bisect pred category sizeX = some (l, seen) ∧ l ≤ sizeX - 2 ∧
      pred l = category ∧ pred (l + 1) ≠ category ∧ ∀ m ∈ seen, m < sizeX := by
  have hmod : sizeX % 2 ^ 32 = sizeX := Nat.mod_eq_of_lt (by omega)
  obtain ⟨l, seen, hres, hl, hlt, hnext, hseen⟩ :=
    bisectLoop_spec pred category sizeX hsize sizeX 0 sizeX [] (by omega) le_rfl (by omega)
      h0 (Or.inl rfl) (by simp)
  have hne : l + 1 ≠ sizeX := by
    intro h
    have e : sizeX - 1 = l := by omega
    rw [e] at hlast
    exact hlast hl
  have hnext2 : pred (l + 1) ≠ category := by
    rcases hnext with h | h
    · exact absurd h hne
    · exact h
  refine ⟨l, seen, ?_, by omega, hl, hnext2, hseen⟩
  unfold bisect
  rw [hmod]
  exact hres

theorem bisect_finds_boundary_witness :
    ∃ l seen, bisect (fun m => if m = 0 ∨ m = 7 then 1 else -1) 1 10 = some (l, seen) ∧
      l ≤ 10 - 2 ∧ (fun m => if m = 0 ∨ m = 7 then (1 : Int) else -1) l = 1 ∧
      (fun m => if m = 0 ∨ m = 7 then (1 : Int) else -1) (l + 1) ≠ 1 ∧
      ∀ m ∈ seen, m < 10 :=
  bisect_finds_boundary (fun m => if m = 0 ∨ m = 7 then 1 else -1) 1 10 (by decide)
    (by decide) (by decide) (by decide)

end Classification

/-! ## `Frame::Update` and `Processing::removePoint` at concrete inputs -/

/-- C18 fails on the code: on the one-row frame with colours `[1, 2, 3]`, `Update()`
gives `[2, 1, 2]`, not the rotation `[3, 1, 2]`; the last colour is lost, because
`GetColor(width - 1, 0)` is read after the loop has overwritten that pixel. On the
two-pixel row `[1, 2]` the result is `[1, 1]`. The same happens on the frame that the
constructor builds for the size 3 x 6, whose row 0 holds the first three grey levels. -/
theorem frame_update_loses_last_colour :
    Snake.Frame.Update ⟨3, 1, [1, 2, 3]⟩ = some ⟨3, 1, [2, 1, 2]⟩ ∧
    Snake.Frame.Update ⟨2, 1, [1, 2]⟩ = some ⟨2, 1, [1, 1]⟩ ∧
    ((Snake.Frame.create 3 6).map fun t => t.pixels.take 3)
      = some [0xff000000, 0xff101010, 0xff202020] ∧
    (((Snake.Frame.create 3 6).bind Snake.Frame.Update).map fun t => t.pixels.take 3)
      = some [0xff101010, 0xff000000, 0xff101010] := by
  decide

/-- C19 fails on the code: with radius 10 around `(0, 0)` and the points `(0, 0)` and
`(1, 1)`, both within the radius, `removePoint` erases the first and skips the second,
which remains although it is within the radius. -/
theorem removePoint_skips_after_erase :
    Classification.removePoint (Classification.within 10 (0, 0)) [(0, 0), (1, 1)] [-1, 1]
      = some ([(1, 1)], [1]) ∧
    Classification.within 10 (0, 0) (1, 1) = true := by
  decide

/-! ## What `Frame::Update` does on every frame -/

theorem downLoop_inv {σ : Type} (start : Nat) (body : Nat → σ → Option σ)
    (Inv : Nat → σ → Prop)
    (hstep : ∀ i : Nat, 1 ≤ i → i ≤ start → ∀ s1, Inv i s1 →
      ∃ s2, body i s1 = some s2 ∧ Inv (i - 1) s2) :
    ∀ s, Inv start s → ∃ s2, downLoop start body s = some s2 ∧ Inv 0 s2 := by
  induction start with
  | zero => exact fun s h => ⟨s, rfl, h⟩
  | succ k ih =>
    intro s h
    obtain ⟨s1, h1, hI1⟩ := hstep (k + 1) (by omega) le_rfl s h
    obtain ⟨s2, h2, hI2⟩ := ih (fun i hi hik s1 hI => hstep i hi (by omega) s1 hI) s1 hI1
    exact ⟨s2, by simp [downLoop, h1, h2], hI2⟩

namespace Snake.Frame

/-- The effect of `Update()` on a valid frame with `W, H ≥ 1`: pixel `(i, 0)` receives
the old colour of `(i - 1, 0)` for `1 ≤ i < W`; pixel `(0, 0)` receives the old colour of
`(W - 2, 0)` when `W ≥ 2` (and keeps its colour when `W = 1`), not that of `(W - 1, 0)`;
every pixel outside row 0 keeps its colour. -/
theorem frame_update_spec (t : Frame) (hv : t.Valid) (hW : 1 ≤ t.width) (hH : 1 ≤ t.height)
    (h32 : t.width * t.height < 2 ^ 32) :
    ∃ t2, t.Update = some t2 ∧ t2.width = t.width ∧ t2.height = t.height ∧
      t2.pixels.length = t.pixels.length ∧
      (∀ i : Nat, 1 ≤ i → i < t.width → t2.pixels[i]? = t.pixels[i - 1]?) ∧
      t2.pixels[0]? = t.pixels[t.width - 2]? ∧
      ∀ k : Nat, t.width ≤ k → t2.pixels[k]? = t.pixels[k]? := by
  have hlen : t.pixels.length = t.width * t.height := hv
  have hWle : t.width ≤ t.width * t.height := Nat.le_mul_of_pos_right _ (by omega)
  have hstart : (t.width + 2 ^ 32 - 1) % 2 ^ 32 = t.width - 1 := by omega
  obtain ⟨s, hs, hsw, hsh, hsl, hsp⟩ := downLoop_inv (t.width - 1)
    (fun i s => (s.GetColor (i - 1) 0).bind fun c => s.SetColor i 0 c)
    (fun m s => s.width = t.width ∧ s.height = t.height ∧
      s.pixels.length = t.pixels.length ∧
      ∀ k : Nat, s.pixels[k]? = if m < k ∧ k < t.width then t.pixels[k - 1]?
        else t.pixels[k]?)
    (by
      intro i hi1 hi s ⟨hsw, hsh, hsl, hsp⟩
      have hidx1 : (i - 1 + 0 * s.width) % 2 ^ 32 = i - 1 := by
        rw [Nat.zero_mul, Nat.add_zero]
        omega
      have hidx2 : (i + 0 * s.width) % 2 ^ 32 = i := by
        rw [Nat.zero_mul, Nat.add_zero]
        omega
      have hprev : s.pixels[i - 1]? = t.pixels[i - 1]? := by
        rw [hsp (i - 1), if_neg (by omega)]
      have hpl : i - 1 < t.pixels.length := by omega
      have hil : i < s.pixels.length := by omega
      refine ⟨{ s with pixels := s.pixels.set i (t.pixels.get ⟨i - 1, hpl⟩) }, ?_, hsw, hsh,
        by simp [hsl], ?_⟩
      · simp only [GetColor, SetColor, hidx1, hidx2, hprev, hil, if_true,
          List.getElem?_eq_getElem hpl, Option.some_bind]
        rfl
      · intro k
        show (s.pixels.set i _)[k]? = _
        rw [List.getElem?_set]
        by_cases hk : i = k
        · subst hk
          rw [if_pos rfl, if_pos hil, if_pos (by omega), List.getElem?_eq_getElem hpl]
          rfl
        · rw [if_neg hk, hsp k]
          by_cases hc : i < k ∧ k < t.width
          · rw [if_pos hc, if_pos (by omega)]
          · rw [if_neg hc, if_neg (by omega)])
    t ⟨rfl, rfl, rfl, fun k => by rw [if_neg (by omega)]⟩
  have hidx1 : (t.width - 1 + 0 * s.width) % 2 ^ 32 = t.width - 1 := by
    rw [Nat.zero_mul, Nat.add_zero]
    omega
  have hidx2 : (0 + 0 * s.width) % 2 ^ 32 = 0 := by
    simp
  have hlast : s.pixels[t.width - 1]? = t.pixels[t.width - 2]? := by
    rw [hsp (t.width - 1)]
    by_cases h1 : 0 < t.width - 1
    · have e : t.width - 1 - 1 = t.width - 2 := by omega
      rw [if_pos (by omega), e]
    · have e : t.width - 1 = t.width - 2 := by omega
      rw [if_neg (by omega), e]
  have hpl : t.width - 2 < t.pixels.length := by omega
  have h0l : 0 < s.pixels.length := by omega
  refine ⟨{ s with pixels := s.pixels.set 0 (t.pixels.get ⟨t.width - 2, hpl⟩) }, ?_, hsw, hsh,
    by simp [hsl], ?_, ?_, ?_⟩
  · unfold Update
    rw [hstart, hs]
    simp only [Option.some_bind, GetColor, SetColor, hidx1, hidx2, hlast,
      h0l, if_true, List.getElem?_eq_getElem hpl]
    rfl
  · intro i hi1 hi
    show (s.pixels.set 0 _)[i]? = _
    rw [List.getElem?_set, if_neg (by omega), hsp i, if_pos (by omega)]
  · show (s.pixels.set 0 _)[0]? = _
    rw [List.getElem?_set, if_pos rfl, if_pos h0l, List.getElem?_eq_getElem hpl]
    rfl
  · intro k hk
    show (s.pixels.set 0 _)[k]? = _
    rw [List.getElem?_set, if_neg (by omega), hsp k, if_neg (by omega)]

end Snake.Frame
/-! ## What `Processing::removePoint` keeps on every point list -/

namespace Classification

theorem zip_eraseIdx {α β : Type} (ps : List α) (cs : List β) (i : Nat) :
    (ps.eraseIdx i).zip (cs.eraseIdx i) = (ps.zip cs).eraseIdx i := by
  induction ps generalizing cs i with
  | nil => simp
  | cons p ps ih =>
    cases cs with
    | nil => simp
    | cons c cs =>
      cases i with
      | zero => simp
      | succ i => simp [ih]

/-- With vectors of equal length and as many iterations allowed as there are points left
to visit, the loop of `removePoint` has a result; the two vectors keep equal lengths, and
the remaining points with their categories are a sublist of the original pairs: order
and pairing are kept. -/
theorem removeLoop_spec {α : Type} (hit : α → Bool) :
    ∀ (fuel i : Nat) (ps : List α) (cs : List Int), ps.length = cs.length →
      ps.length ≤ fuel + i →
      ∃ ps2 cs2, removeLoop hit fuel i ps cs = some (ps2, cs2) ∧ ps2.length = cs2.length ∧
        (ps2.zip cs2).Sublist (ps.zip cs) := by
  intro fuel
  induction fuel with
  | zero =>
    intro i ps cs hl hf
    rw [removeLoop, if_neg (by omega)]
    exact ⟨ps, cs, rfl, hl, List.Sublist.refl _⟩
  | succ f ih =>
    intro i ps cs hl hf
    by_cases hi : i < ps.length
    · rw [removeLoop, if_pos hi]
      simp only [List.getElem?_eq_getElem hi]
      by_cases hh : hit ps[i] = true
      · simp only [hh, if_true, if_pos (show i < cs.length by omega)]
        obtain ⟨ps2, cs2, h2, hl2, hsub⟩ := ih (i + 1) (ps.eraseIdx i) (cs.eraseIdx i)
          (by rw [List.length_eraseIdx, List.length_eraseIdx, hl])
          (by rw [List.length_eraseIdx]
              simp only [hi, if_true]
              omega)
        refine ⟨ps2, cs2, h2, hl2, hsub.trans ?_⟩
        rw [zip_eraseIdx]
        exact List.eraseIdx_sublist _ _
      · simp only [hh, if_false, Bool.false_eq_true]
        exact ih (i + 1) ps cs hl (by omega)
    · rw [removeLoop, if_neg hi]
      exact ⟨ps, cs, rfl, hl, List.Sublist.refl _⟩

/-- Method `removePoint` always has a result on vectors of equal length; order and
pairing of the remaining points are kept. -/
theorem removePoint_keeps_order_and_pairs {α : Type} (hit : α → Bool) (ps : List α)
    (cs : List Int) (hl : ps.length = cs.length) :
    ∃ ps2 cs2, removePoint hit ps cs = some (ps2, cs2) ∧ ps2.length = cs2.length ∧
      (ps2.zip cs2).Sublist (ps.zip cs) :=
  removeLoop_spec hit ps.length 0 ps cs hl (by omega)

end Classification

namespace Chess

theorem loadPieces_scale (s : Int) :
    loadPieces s = (loadPieces 1).map fun q => (q.1 * s, q.2 * s) := by
  simp [loadPieces, List.range, List.range.loop]

theorem loadPieces_at (s : Int) (p : Piece) :
    (loadPieces s)[p.toNat]? =
      some (((p.toNat % 6 : Nat) : Int) * s, ((p.toNat / 6 : Nat) : Int) * s) := by
  cases p <;> rfl

theorem walk_mapSprite (f : Int × Int → Int × Int) (sprites : List (Int × Int))
    (cs : List Char) : ∀ w : Walk,
      walk (sprites.map f) cs (w.mapSprite f) = (walk sprites cs w).map (Walk.mapSprite f) := by
  induction cs with
  | nil => intro w; simp [walk]
  | cons i rest ih =>
    intro w
    simp only [walk]
    by_cases hd : i.isDigit = true
    · rw [if_pos hd, if_pos hd]
      exact ih { w with index := w.index + ((i.toNat : Int) - ('0'.toNat : Int)) }
    · rw [if_neg hd, if_neg hd]
      by_cases hs : i = '/'
      · rw [if_pos hs, if_pos hs]
        by_cases hm : Int.tmod w.index 8 = 0
        · rw [if_pos hm, if_pos (show Int.tmod (w.mapSprite f).index 8 = 0 from hm)]
          exact ih { w with slashes := w.slashes ++ [w.index] }
        · rw [if_neg hm, if_neg (show ¬ Int.tmod (w.mapSprite f).index 8 = 0 from hm)]
          rfl
      · rw [if_neg hs, if_neg hs]
        by_cases ha : i.isAlpha = true
        · rw [if_pos ha, if_pos ha, List.getElem?_map]
          cases hsp : sprites[(pieceOf i).toNat]? with
          | none => rfl
          | some sp =>
            simp only [Option.map_some']
            rw [← ih]
            congr 1
            simp [Walk.mapSprite]
        · rw [if_neg ha, if_neg ha]
          by_cases h64 : w.index = 64
          · rw [if_pos h64, if_pos (show (w.mapSprite f).index = 64 from h64)]; rfl
          · rw [if_neg h64, if_neg (show ¬ (w.mapSprite f).index = 64 from h64)]; rfl

theorem drawPieces_unit_checked :
    ((drawPieces (loadPieces 1) FEN).map fun w => decide (w.Checked 1)) = some true := by
  decide

/-- C21: on the string given to `FEN` by the constructor, and with the twelve sprites of
`loadPieces` for any cell size `s` of the sprite sheet, `drawPieces` runs to its `break`
with none of its assertions failing.  At each of the seven `'/'` the index is a multiple
of 8 (8, 16, ..., 56); the walk is left at the first character that is no digit, no
letter and no `'/'`, which is the space, with index 64 and `w KQkq - 0 1` unread; exactly
32 pieces are drawn, for the letters in the order of the string, each with
`0 ≤ index < 64`, at column `index % 8` and row `index / 8`, as the enumerator that its
letter names (piece and colour), with the sprite stored at that enumerator, whose texture
origin is `(piece % 6 * s, piece / 6 * s)`. -/
theorem drawPieces_assertions_hold (s : Int) :
    ∃ w : Walk, drawPieces (loadPieces s) FEN = some w ∧
      w.index = 64 ∧ w.stop = some ' ' ∧ w.unread = "w KQkq - 0 1".data ∧
      w.slashes = [8, 16, 24, 32, 40, 48, 56] ∧ (∀ k ∈ w.slashes, k % 8 = 0) ∧
      w.drawn.length = 32 ∧
      w.drawn.map (fun d => d.letter) = "rnbqkbnrppppppppPPPPPPPPRNBQKBNR".data ∧
      ∀ d ∈ w.drawn, 0 ≤ d.index ∧ d.index < 64 ∧ d.column = d.index % 8 ∧
        d.row = d.index / 8 ∧ (d.letter, d.piece) ∈ fenLetters ∧
        (loadPieces s)[d.piece.toNat]? = some d.sprite ∧
        d.sprite =
          (((d.piece.toNat % 6 : Nat) : Int) * s, ((d.piece.toNat / 6 : Nat) : Int) * s) := by
  have h1 := drawPieces_unit_checked
  obtain ⟨w1, hw1, hc⟩ : ∃ w1, drawPieces (loadPieces 1) FEN = some w1 ∧ w1.Checked 1 := by
    cases h : drawPieces (loadPieces 1) FEN with
    | none => rw [h] at h1; exact absurd h1 (by simp)
    | some w => rw [h] at h1; exact ⟨w, rfl, of_decide_eq_true (Option.some.inj h1)⟩
  obtain ⟨hi, hst, hun, hsl, hlen, hlet, hd⟩ := hc
  have hrun : drawPieces (loadPieces s) FEN
      = some (w1.mapSprite fun q => (q.1 * s, q.2 * s)) := by
    have h := walk_mapSprite (fun q => (q.1 * s, q.2 * s)) (loadPieces 1) FEN.data
      ⟨0, [], [], none, []⟩
    unfold drawPieces at hw1 ⊢
    rw [loadPieces_scale s]
    rw [hw1] at h
    exact h
  refine ⟨_, hrun, hi, hst, hun, hsl, ?_, ?_, ?_, ?_⟩
  · intro k hk
    rw [show (w1.mapSprite fun q => (q.1 * s, q.2 * s)).slashes = w1.slashes from rfl,
      hsl] at hk
    revert k
    decide
  · simpa [Walk.mapSprite] using hlen
  · rw [← hlet]
    simp [Walk.mapSprite, Function.comp_def]
  · intro d hmem
    simp only [Walk.mapSprite, List.mem_map] at hmem
    obtain ⟨d0, hd0, rfl⟩ := hmem
    obtain ⟨h0, h64, hcol, hrow, hfen, hsp⟩ := hd d0 hd0
    have hsprite : ((d0.sprite.1 * s, d0.sprite.2 * s) : Int × Int) =
        (((d0.piece.toNat % 6 : Nat) : Int) * s, ((d0.piece.toNat / 6 : Nat) : Int) * s) := by
      rw [hsp]; simp
    refine ⟨h0, h64, hcol, hrow, hfen, ?_, hsprite⟩
    show (loadPieces s)[d0.piece.toNat]? = some (d0.sprite.1 * s, d0.sprite.2 * s)
    rw [hsprite]
    exact loadPieces_at s d0.piece

end Chess

end SFMLApps
